import Mathlib

/-!
# MyMalloc: a boundary-tag, free-list allocator (`mymemory.c`)

Shallow embedding of `mymemory.c` for an LP64, little-endian target:

* memory is a total map from byte addresses to bytes; an `unsigned int` is four
  bytes, a pointer eight bytes, both little-endian;
* `struct Node` has `size` at offset 0 and `next` at offset 8 (`sizeof (Node) = 16`),
  the four padding bytes at offset 4 are never read by the program and a struct
  assignment leaves them as they are;
* `unsigned int` arithmetic is taken modulo `2 ^ 32`, pointer subtraction modulo
  `2 ^ 64`;
* the two loops that walk the free list take a fuel argument and return `none`
  when it runs out;
* the heap extender `sbrk` is a parameter of `mymalloc`: the function from the
  requested increment to the address the call returns.
-/

namespace MyMalloc

/-! ## Machine words and memory -/

/-- Number of values of an `unsigned int`. -/
def U32 : Nat := 4294967296

/-- Number of values of a pointer. -/
def PTR : Nat := 18446744073709551616

/-- Byte-addressed memory. -/
abbrev Mem := Nat → Nat

/-- Load of an `unsigned int` at byte address `a`. -/
def readU32 (m : Mem) (a : Nat) : Nat :=
  m a % 256 + 256 * (m (a + 1) % 256) + 65536 * (m (a + 2) % 256)
    + 16777216 * (m (a + 3) % 256)

/-- Store of an `unsigned int` at byte address `a`. -/
def writeU32 (m : Mem) (a v : Nat) : Mem := fun x =>
  if x = a then v % 256
  else if x = a + 1 then v / 256 % 256
  else if x = a + 2 then v / 65536 % 256
  else if x = a + 3 then v / 16777216 % 256
  else m x

/-- Load of a pointer at byte address `a`. -/
def readPtr (m : Mem) (a : Nat) : Nat :=
  readU32 m a + 4294967296 * readU32 m (a + 4)

/-- Store of a pointer at byte address `a`. -/
def writePtr (m : Mem) (a p : Nat) : Mem :=
  writeU32 (writeU32 m a (p % 4294967296)) (a + 4) (p / 4294967296 % 4294967296)

/-- Field `size` of the `Node` at `n`. -/
def nodeSize (m : Mem) (n : Nat) : Nat := readU32 m n

/-- Field `next` of the `Node` at `n`. -/
def nodeNext (m : Mem) (n : Nat) : Nat := readPtr m (n + 8)

/-- The assignment `*n = newNode` with `newNode = {size, next}`. -/
def writeNode (m : Mem) (n size next : Nat) : Mem :=
  writePtr (writeU32 m n size) (n + 8) next

/-- Byte address of `(unsigned int *) p + k`. -/
def wordOff (p k : Nat) : Nat := p + 4 * k

/-- Byte address of `(unsigned int *) p + k - j` for a constant `j`. -/
def wordOffBack (p k j : Nat) : Nat := (p + 4 * k + PTR - 4 * j) % PTR

/-! ## The allocator state -/

/-- The globals of `mymemory.c` together with the memory they point into. -/
structure Heap where
  mem : Mem
  heap_start : Nat
  heap_end : Nat
  list_start : Nat
  initialized : Nat

/-- State of the program before the first call: zero-initialised globals. -/
def Heap.fresh (m : Mem) : Heap := ⟨m, 0, 0, 0, 0⟩

/-- The macro `MIN_SIZE`, that is `sizeof(Node *) + sizeof(int)`. -/
def MIN_SIZE : Nat := 12

/-- The failure value `(void *) -1` of `sbrk`. -/
def SBRK_FAILED : Nat := 18446744073709551615

/-- The function `initialize` of the source. -/
def initHeap (sbrk : Nat → Nat) (s : Heap) : Heap :=
  { s with initialized := 1, heap_start := sbrk 0, heap_end := sbrk 0, list_start := 0 }

/-- The function `wordAlignment` of the source. -/
def wordAlignment (bytes : Nat) : Nat :=
  let bytes := if bytes < MIN_SIZE then MIN_SIZE else bytes
  ((bytes + 7) % U32 / 8 * 8) % U32

/-- The function `mergeBlocks` of the source. -/
def mergeBlocks (m : Mem) (block1 block2 : Nat) : Mem :=
  let total_size := (nodeSize m block1 + nodeSize m block2) % U32
  let m1 := writeU32 m block1 total_size
  writePtr m1 (block1 + 8) (nodeNext m1 block2)

/-- The function `insertList` of the source. -/
def insertList (s : Heap) (size offset prev : Nat) : Heap :=
  let current := offset
  if prev = s.list_start ∧ (prev = 0 ∨ current < prev) then
    let m1 := writeNode s.mem current size prev
    let m2 :=
      if prev ≠ 0 ∧ wordOff current (nodeSize m1 current / 4) = prev then
        mergeBlocks m1 current prev
      else m1
    { s with mem := m2, list_start := current }
  else
    let m1 := writeNode s.mem current size (nodeNext s.mem prev)
    let m2 := writePtr m1 (prev + 8) current
    let merged := decide (wordOff prev (nodeSize m2 prev / 4) = current)
    let m3 := if merged then mergeBlocks m2 prev current else m2
    let current := if merged then prev else current
    let m4 :=
      if wordOff current (nodeSize m3 current / 4) = nodeNext m3 current then
        mergeBlocks m3 current (nodeNext m3 current)
      else m3
    { s with mem := m4 }

/-- The function `removeList` of the source. -/
def removeList (s : Heap) (ref prev : Nat) : Heap :=
  if s.list_start = ref then { s with list_start := nodeNext s.mem ref }
  else { s with mem := writePtr s.mem (prev + 8) (nodeNext s.mem ref) }

/-- The function `allocate` of the source: the memory after the two tag stores (the function returns `ptr`). -/
def allocate (m : Mem) (size ptr : Nat) : Mem :=
  writeU32 (writeU32 m ptr size) (wordOffBack ptr (size / 4) 1) size

/-- The search loop of `mymalloc` (lines 131-140); the result is
`(bestfit, prevbest)` when the loop exits. -/
def scanFit (m : Mem) (total_size : Nat) : Nat → Nat → Nat → Nat → Nat → Option (Nat × Nat)
  | 0, _, _, _, _ => none
  | fuel + 1, current, aux, bestfit, prevbest =>
    if current ≠ 0 ∧ nodeSize m current ≠ total_size then
      if nodeSize m current ≥ total_size
          ∧ (bestfit = 0 ∨ nodeSize m bestfit > nodeSize m current) then
        scanFit m total_size fuel (nodeNext m current) current current aux
      else
        scanFit m total_size fuel (nodeNext m current) current bestfit prevbest
    else some (bestfit, prevbest)

/-- What a call of `mymalloc` leaves behind: the state, the returned pointer and
the argument of the `sbrk (total_size)` call of line 164 when it was made. -/
structure MallocOut where
  heap : Heap
  ptr : Nat
  grown : Option Nat

/-- The value `total_size` of `mymalloc` (lines 120-121). -/
def totalSize (size : Nat) : Nat := wordAlignment ((size + 8) % U32)

/-- Lines 142-159 of `mymalloc`: hand out the block `bestfit`, whole or split. -/
def takeBlock (s : Heap) (total_size bestfit prevbest : Nat) : MallocOut :=
  if nodeSize s.mem bestfit = total_size
      ∨ (nodeSize s.mem bestfit + U32 - total_size) % U32 < MIN_SIZE then
    let s1 := removeList s bestfit prevbest
    ⟨{ s1 with mem := allocate s1.mem (nodeSize s1.mem bestfit) bestfit }, bestfit + 4, none⟩
  else
    let newnodesize := (nodeSize s.mem bestfit + U32 - total_size) % U32
    let s1 := removeList s bestfit prevbest
    let s2 := insertList s1 newnodesize (wordOff bestfit (total_size / 4)) prevbest
    ⟨{ s2 with mem := allocate s2.mem total_size bestfit }, bestfit + 4, none⟩

/-- Lines 162-172 of `mymalloc`: ask the heap extender for `total_size` bytes. -/
def growHeap (sbrk : Nat → Nat) (s : Heap) (total_size : Nat) : MallocOut :=
  let newAllocation := sbrk total_size
  if newAllocation ≠ SBRK_FAILED then
    ⟨{ s with mem := allocate s.mem total_size newAllocation,
              heap_end := wordOff newAllocation (total_size / 4) },
      newAllocation + 4, some total_size⟩
  else ⟨s, 0, some total_size⟩

/-- The function `mymalloc` from line 120 on, in an initialised state and for `size ≠ 0`. -/
def mallocReady (fuel : Nat) (sbrk : Nat → Nat) (s : Heap) (size : Nat) : Option MallocOut :=
  let total_size := totalSize size
  if s.list_start ≠ 0 then
    match scanFit s.mem total_size fuel s.list_start s.list_start 0 0 with
    | none => none
    | some (bestfit, prevbest) =>
      if bestfit ≠ 0 then some (takeBlock s total_size bestfit prevbest)
      else some (growHeap sbrk s total_size)
  else some (growHeap sbrk s total_size)

/-- The function `mymalloc` of the source. -/
def mymalloc (fuel : Nat) (sbrk : Nat → Nat) (s : Heap) (size : Nat) : Option MallocOut :=
  let s := if s.initialized = 0 then initHeap sbrk s else s
  if size = 0 then some ⟨s, 0, none⟩
  else mallocReady fuel sbrk s size

/-- The loop of `myfree` (lines 209-210): the node after which the block goes. -/
def findPrev (m : Mem) (ptr : Nat) : Nat → Nat → Option Nat
  | 0, _ => none
  | fuel + 1, current =>
    if nodeNext m current ≠ 0 ∧ nodeNext m current < ptr then
      findPrev m ptr fuel (nodeNext m current)
    else some current

/-- Address of the header word read by `myfree`, `uiptr - 1`. -/
def headerAddr (ptr : Nat) : Nat := wordOffBack ptr 0 1

/-- Address of the footer word read by `myfree`,
`uiptr - 2 + size / sizeof (unsigned int)`. -/
def footerAddr (ptr size : Nat) : Nat := wordOffBack ptr (size / 4) 2

/-- The checks of `myfree` at lines 188 and 197 all pass: the engine is
initialised, `ptr` is not null, the header word read at `uiptr - 1` equals the
footer word read at `uiptr - 2 + size / sizeof (unsigned int)`, and `ptr` lies
strictly between `heap_start` and `heap_end`. -/
def FreeAccepts (s : Heap) (ptr : Nat) : Prop :=
  s.initialized ≠ 0 ∧ ptr ≠ 0 ∧
  readU32 s.mem (headerAddr ptr)
    = readU32 s.mem (footerAddr ptr (readU32 s.mem (headerAddr ptr))) ∧
  s.heap_start < ptr ∧ ptr < s.heap_end

instance instDecidableFreeAccepts (s : Heap) (ptr : Nat) : Decidable (FreeAccepts s ptr) :=
  inferInstanceAs (Decidable (s.initialized ≠ 0 ∧ ptr ≠ 0 ∧
    readU32 s.mem (headerAddr ptr)
      = readU32 s.mem (footerAddr ptr (readU32 s.mem (headerAddr ptr))) ∧
    s.heap_start < ptr ∧ ptr < s.heap_end))

/-- The function `myfree` of the source: the state after the call and the returned status. -/
def myfree (fuel : Nat) (s : Heap) (ptr : Nat) : Option (Heap × Nat) :=
  if s.initialized = 0 ∨ ptr = 0 then some (s, 1)
  else
    let size := readU32 s.mem (headerAddr ptr)
    if size ≠ readU32 s.mem (footerAddr ptr size) ∨ ptr ≤ s.heap_start ∨ ptr ≥ s.heap_end then
      some (s, 1)
    else if s.list_start = 0 ∨ s.list_start > ptr then
      some (insertList s size (headerAddr ptr) s.list_start, 0)
    else
      match findPrev s.mem ptr fuel s.list_start with
      | none => none
      | some current => some (insertList s size (headerAddr ptr) current, 0)

/-! ## A process with a contiguous heap extender -/

/-- The allocator inside a process whose break only this allocator moves:
`sbrk n` returns the old break and advances it by `n`. -/
structure Proc where
  heap : Heap
  brk : Nat

/-- A process before its first call, with zeroed memory and the break at `brk`. -/
def Proc.boot (brk : Nat) : Proc := ⟨Heap.fresh (fun _ => 0), brk⟩

/-- A call of `mymalloc` in the process. -/
def Proc.malloc (fuel : Nat) (w : Proc) (size : Nat) : Option (Proc × Nat) :=
  match mymalloc fuel (fun _ => w.brk) w.heap size with
  | none => none
  | some r => some (⟨r.heap, w.brk + r.grown.getD 0⟩, r.ptr)

/-- A call of `myfree` in the process. -/
def Proc.free (fuel : Nat) (w : Proc) (ptr : Nat) : Option (Proc × Nat) :=
  match myfree fuel w.heap ptr with
  | none => none
  | some r => some (⟨r.1, w.brk⟩, r.2)

/-- The blocks reachable from `p` in at most `fuel` steps, as `(address, size)`. -/
def walk (m : Mem) : Nat → Nat → List (Nat × Nat)
  | 0, _ => []
  | fuel + 1, p => if p = 0 then [] else (p, nodeSize m p) :: walk m fuel (nodeNext m p)

/-! ## Well-formed free lists -/

/-- The chain of `next` links from `p` visits exactly the blocks `l`, in this
order, and then reaches `NULL`. -/
def FreeList (m : Mem) : Nat → List Nat → Prop
  | p, [] => p = 0
  | p, b :: rest => p = b ∧ b ≠ 0 ∧ FreeList m (nodeNext m b) rest

instance instDecidableFreeList (m : Mem) : ∀ p l, Decidable (FreeList m p l)
  | p, [] => inferInstanceAs (Decidable (p = 0))
  | p, b :: rest =>
    have := instDecidableFreeList m (nodeNext m b) rest
    inferInstanceAs (Decidable (p = b ∧ b ≠ 0 ∧ FreeList m (nodeNext m b) rest))

/-- Block `a` ends strictly below block `b`: they are neither overlapping nor
byte-adjacent. -/
def Apart (m : Mem) (a b : Nat) : Prop := a + nodeSize m a < b

instance instDecidableApart (m : Mem) : DecidableRel (Apart m) :=
  fun a b => inferInstanceAs (Decidable (a + nodeSize m a < b))

/-- In the list `l` the block `b` is the head and `p = b`, or `p` is the element
right before `b`: the value `prevbest` holds for `bestfit` after the search
loop of `mymalloc`. -/
def IsPrev (l : List Nat) (b p : Nat) : Prop :=
  (p = b ∧ ∃ t, l = b :: t) ∨ ∃ l1 l2, l = l1 ++ p :: b :: l2

/-- Every two consecutive blocks of the list are `Apart`. -/
def Ascending (m : Mem) : List Nat → Prop
  | [] => True
  | [_] => True
  | a :: b :: rest => Apart m a b ∧ Ascending m (b :: rest)

instance instDecidableAscending (m : Mem) : ∀ l, Decidable (Ascending m l)
  | [] => inferInstanceAs (Decidable True)
  | [_] => inferInstanceAs (Decidable True)
  | a :: b :: rest =>
    have := instDecidableAscending m (b :: rest)
    inferInstanceAs (Decidable (Apart m a b ∧ Ascending m (b :: rest)))

/-- A Ready state whose free list is `l`: address-ascending with a gap between
consecutive blocks, every block inside the managed region, of a size that is a
multiple of 8 and at least 16. -/
def WellFormed (s : Heap) (l : List Nat) : Prop :=
  s.initialized ≠ 0 ∧ s.heap_end < PTR ∧ FreeList s.mem s.list_start l ∧
  Ascending s.mem l ∧
  ∀ b ∈ l, s.heap_start ≤ b ∧ b + nodeSize s.mem b ≤ s.heap_end ∧
    16 ≤ nodeSize s.mem b ∧ nodeSize s.mem b % 8 = 0

instance instDecidableWellFormed (s : Heap) (l : List Nat) : Decidable (WellFormed s l) :=
  inferInstanceAs (Decidable (s.initialized ≠ 0 ∧ s.heap_end < PTR ∧
    FreeList s.mem s.list_start l ∧ Ascending s.mem l ∧
    ∀ b ∈ l, s.heap_start ≤ b ∧ b + nodeSize s.mem b ≤ s.heap_end ∧
      16 ≤ nodeSize s.mem b ∧ nodeSize s.mem b % 8 = 0))

/-- The block at `b` is allocated in the state with free list `l`: its two tags
hold the same size, a multiple of 8 that is at least 16, it lies inside the
managed region and overlaps no block of the free list. -/
def Allocated (s : Heap) (l : List Nat) (b : Nat) : Prop :=
  b ≠ 0 ∧ 16 ≤ nodeSize s.mem b ∧ nodeSize s.mem b % 8 = 0 ∧
  readU32 s.mem (b + nodeSize s.mem b - 4) = nodeSize s.mem b ∧
  s.heap_start ≤ b ∧ b + nodeSize s.mem b ≤ s.heap_end ∧
  ∀ x ∈ l, x + nodeSize s.mem x ≤ b ∨ b + nodeSize s.mem b ≤ x

instance instDecidableAllocated (s : Heap) (l : List Nat) (b : Nat) :
    Decidable (Allocated s l b) :=
  inferInstanceAs (Decidable (b ≠ 0 ∧ 16 ≤ nodeSize s.mem b ∧ nodeSize s.mem b % 8 = 0 ∧
    readU32 s.mem (b + nodeSize s.mem b - 4) = nodeSize s.mem b ∧
    s.heap_start ≤ b ∧ b + nodeSize s.mem b ≤ s.heap_end ∧
    ∀ x ∈ l, x + nodeSize s.mem x ≤ b ∨ b + nodeSize s.mem b ≤ x))

/-! ## Concrete runs -/

/-- The free list of a process, at most six blocks of it, as `(address, size)`. -/
def Proc.freeBlocks (w : Proc) : List (Nat × Nat) := walk w.heap.mem 6 w.heap.list_start

/-- Blocks of 16, 16, 32, 16, 24 and 16 bytes are obtained from a fresh process
and the first, third and fifth are freed: the free list holds blocks of 16, 32
and 24 bytes in address order. -/
def runThreeFree : Option Proc := do
  let (w, a) ← (Proc.boot 4096).malloc 4 8
  let (w, _) ← w.malloc 4 8
  let (w, b) ← w.malloc 4 24
  let (w, _) ← w.malloc 4 8
  let (w, c) ← w.malloc 4 16
  let (w, _) ← w.malloc 4 8
  let (w, _) ← w.free 4 a
  let (w, _) ← w.free 4 b
  let (w, _) ← w.free 4 c
  some w

/-- One block of 16 bytes is obtained from a fresh process and freed. -/
def runOneFree : Option Proc := do
  let (w, p) ← (Proc.boot 4096).malloc 4 8
  let (w, _) ← w.free 4 p
  some w

/-- The sequence `p = mymalloc (8); myfree (p); q = mymalloc (8)` from a fresh
process: `(p, status of myfree, q, break before the second call, break after)`. -/
def runRoundTrip : Option (Nat × Nat × Nat × Nat × Nat) := do
  let (w, p) ← (Proc.boot 4096).malloc 4 8
  let (w, r) ← w.free 4 p
  let (w1, q) ← w.malloc 4 8
  some (p, r, q, w.brk, w1.brk)

/-- The sequence `p = mymalloc (4294967281); myfree (p)` from a fresh process:
`(total_size, p, heap_start, heap_end, status of myfree)`. -/
def runHugeRoundTrip : Option (Nat × Nat × Nat × Nat × Nat) := do
  let (w, p) ← (Proc.boot 4096).malloc 4 4294967281
  let (w1, r) ← w.free 4 p
  some (totalSize 4294967281, p, w1.heap.heap_start, w1.heap.heap_end, r)

/-- Blocks of 48, 16, 64 and 16 bytes are obtained from a fresh process and the
first and third are freed: the free list holds a 48-byte block at its head and
a 64-byte block after it. -/
def runHeadSplit : Option Proc := do
  let (w, a) ← (Proc.boot 4096).malloc 4 40
  let (w, _) ← w.malloc 4 8
  let (w, c) ← w.malloc 4 56
  let (w, _) ← w.malloc 4 8
  let (w, _) ← w.free 4 a
  let (w, _) ← w.free 4 c
  some w

/-- Blocks of 64, 16, 48 and 16 bytes are obtained from a fresh process and the
first and third are freed: the free list holds a 64-byte block at its head and
a 48-byte block after it. -/
def runInnerSplit : Option Proc := do
  let (w, a) ← (Proc.boot 4096).malloc 4 56
  let (w, _) ← w.malloc 4 8
  let (w, c) ← w.malloc 4 40
  let (w, _) ← w.malloc 4 8
  let (w, _) ← w.free 4 a
  let (w, _) ← w.free 4 c
  some w

/-- The sequence `p1 = mymalloc (4294967281); p2 = mymalloc (8)` from a fresh
process, with no call of `myfree`: `(p1, p2, word at p2 - 4, free list)`. -/
def runTwiceSame : Option (Nat × Nat × Nat × List (Nat × Nat)) := do
  let (w, p1) ← (Proc.boot 4096).malloc 4 4294967281
  let (w, p2) ← w.malloc 4 8
  some (p1, p2, readU32 w.heap.mem (p2 - 4), w.freeBlocks)

/-- Blocks of 32, 16, 16 and 16 bytes are obtained from a fresh process, the
first and third are freed, then `p = mymalloc (4294967281)` and `myfree (p)`:
`(p, status of myfree, free list before the two calls, after mymalloc, after
myfree, the next link of the block at 4144 at the end)`. -/
def runCycle :
    Option (Nat × Nat × List (Nat × Nat) × List (Nat × Nat) × List (Nat × Nat) × Nat) := do
  let (w, x) ← (Proc.boot 4096).malloc 4 24
  let (w, _) ← w.malloc 4 8
  let (w, a) ← w.malloc 4 8
  let (w, _) ← w.malloc 4 8
  let (w, _) ← w.free 4 x
  let (w, _) ← w.free 4 a
  let (w1, p) ← w.malloc 4 4294967281
  let (w2, r) ← w1.free 4 p
  some (p, r, w.freeBlocks, w1.freeBlocks, w2.freeBlocks, nodeNext w2.heap.mem 4144)

/-- The state after `mymalloc (56)` in a fresh process (one 64-byte block at
4096, payload from 4100) once the caller has stored the word 17 at 4104 and at
4116, both inside its payload. -/
def runForgedTags : Option Heap := do
  let (w, _) ← (Proc.boot 4096).malloc 4 56
  some { w.heap with mem := writeU32 (writeU32 w.heap.mem 4104 17) 4116 17 }

/-- A Ready state with free blocks of 16, 32 and 24 bytes at 4096, 4128 and 4176
and allocated blocks of 16 bytes at 4112, 4160 and 4200, in a managed region
from 4096 to 4216. -/
def demoHeap : Heap :=
  ⟨writeNode (writeNode (writeNode
      (allocate (allocate (allocate (fun _ => 0) 16 4112) 16 4160) 16 4200)
      4176 24 0) 4128 32 4176) 4096 16 4128,
    4096, 4216, 4096, 1⟩

/-- A Ready state with two free blocks of 32 bytes, at 4096 and 4144, and
allocated blocks of 16 bytes at 4128 and 4176, in a managed region from 4096 to
4192. -/
def tieHeap : Heap :=
  ⟨writeNode (writeNode (allocate (allocate (fun _ => 0) 16 4128) 16 4176) 4144 32 0)
      4096 32 4144,
    4096, 4192, 4096, 1⟩

/-- The call `p = mymalloc (4294967295)` in a fresh process:
`(total_size, p, word at p - 4)`. -/
def runHugeRequest : Option (Nat × Nat × Nat) := do
  let (w, p) ← (Proc.boot 4096).malloc 4 4294967295
  some (totalSize 4294967295, p, readU32 w.heap.mem (p - 4))

/-- The call `p = mymalloc (4294967281)` in a fresh process:
`(total_size, p, heap_start, heap_end)` after the call. -/
def runZeroBlock : Option (Nat × Nat × Nat × Nat) := do
  let (w, p) ← (Proc.boot 4096).malloc 4 4294967281
  some (totalSize 4294967281, p, w.heap.heap_start, w.heap.heap_end)

/-- Two blocks of `2 ^ 31` bytes are obtained from a fresh process, at 4096 and
right after it, and freed in this order: `(total_size, first pointer, second
pointer, the two statuses, free list after the first myfree, free list after
the second)`. -/
def runMergeWrap :
    Option (Nat × Nat × Nat × Nat × Nat × List (Nat × Nat) × List (Nat × Nat)) := do
  let (w, a) ← (Proc.boot 4096).malloc 4 2147483640
  let (w, b) ← w.malloc 4 2147483640
  let (w, r1) ← w.free 4 a
  let (w1, r2) ← w.free 4 b
  some (totalSize 2147483640, a, b, r1, r2, w.freeBlocks, w1.freeBlocks)

/-- The state in which the second `myfree` of `runMergeWrap` is called: the
block at 4096 is free, the block at `4096 + 2 ^ 31` is allocated. -/
def runMergeWrapBefore : Option Proc := do
  let (w, a) ← (Proc.boot 4096).malloc 4 2147483640
  let (w, _) ← w.malloc 4 2147483640
  let (w, _) ← w.free 4 a
  some w

/-- Blocks of 32, 32 and 16 bytes are obtained from a fresh process and the
first two, which are adjacent, are freed. -/
def runCoalesce : Option Proc := do
  let (w, a) ← (Proc.boot 4096).malloc 4 24
  let (w, b) ← w.malloc 4 24
  let (w, _) ← w.malloc 4 8
  let (w, _) ← w.free 4 a
  let (w, _) ← w.free 4 b
  some w

/-- The sequence `p = mymalloc (40); myfree (p); q = mymalloc (8)` from a fresh
process: `(p, status of myfree, q, word at q - 4, free list, heap_start,
heap_end)` at the end. -/
def runLeak : Option (Nat × Nat × Nat × Nat × List (Nat × Nat) × Nat × Nat) := do
  let (w, p) ← (Proc.boot 4096).malloc 4 40
  let (w, r) ← w.free 4 p
  let (w, q) ← w.malloc 4 8
  some (p, r, q, readU32 w.heap.mem (q - 4), w.freeBlocks, w.heap.heap_start, w.heap.heap_end)

/-- Lines 70-72 of `insertList`: the node `{size, prev->next}` is stored at
`current` and `prev->next` is set to `current`. -/
def linkAfter (m : Mem) (size current prev : Nat) : Mem :=
  writePtr (writeNode m current size (nodeNext m prev)) (prev + 8) current

/-- Byte `x` belongs to the size word (bytes 0-3) or to the next link (bytes
8-15) of the node at `n`. -/
def NodeHead (n x : Nat) : Prop := (n ≤ x ∧ x < n + 4) ∨ (n + 8 ≤ x ∧ x < n + 16)

/-! ## The mutex -/

/-- What a call does to the mutex and to the data it guards, in program order:
`lock` and `unlock` are the calls of `pthread_mutex_lock` and
`pthread_mutex_unlock`, `access n` is the statement at line `n` of `mymemory.c`,
which reads or writes a global of the allocator or the metadata of a block. -/
inductive Ev where
  | lock
  | unlock
  | access (line : Nat)
  deriving DecidableEq

/-- Lines 164-172 of `mymalloc`: with a region from `sbrk`, the tags are written
and `heap_end` is set before the `unlock`. -/
def growEvents (sbrk : Nat → Nat) (total_size : Nat) : List Ev :=
  if sbrk total_size ≠ SBRK_FAILED then [.access 166, .access 167, .unlock] else [.unlock]

/-- The events of a call of `mymalloc`, along the path the call takes. On the two
paths that hand out a free-list block the `unlock` of line 148 (157) precedes
the `return` statement of line 149 (158), whose operand calls `allocate`. -/
def mymallocEvents (fuel : Nat) (sbrk : Nat → Nat) (s : Heap) (size : Nat) :
    Option (List Ev) :=
  let entry := [Ev.lock, Ev.access 112] ++ (if s.initialized = 0 then [Ev.access 113] else [])
  let s := if s.initialized = 0 then initHeap sbrk s else s
  if size = 0 then some (entry ++ [.unlock])
  else
    let total_size := totalSize size
    if s.list_start ≠ 0 then
      match scanFit s.mem total_size fuel s.list_start s.list_start 0 0 with
      | none => none
      | some (bestfit, _) =>
        if bestfit ≠ 0 then
          if nodeSize s.mem bestfit = total_size
              ∨ (nodeSize s.mem bestfit + U32 - total_size) % U32 < MIN_SIZE then
            some (entry ++ [.access 124, .access 131, .access 145, .access 147, .unlock,
              .access 149])
          else
            some (entry ++ [.access 124, .access 131, .access 145, .access 154, .access 155,
              .access 156, .unlock, .access 158])
        else some (entry ++ [.access 124, .access 131] ++ growEvents sbrk total_size)
    else some (entry ++ [.access 124] ++ growEvents sbrk total_size)

/-- The events of a call of `myfree`, along the path the call takes. -/
def myfreeEvents (fuel : Nat) (s : Heap) (ptr : Nat) : Option (List Ev) :=
  if s.initialized = 0 ∨ ptr = 0 then some [.lock, .access 188, .unlock]
  else
    let size := readU32 s.mem (headerAddr ptr)
    if size ≠ readU32 s.mem (footerAddr ptr size) ∨ ptr ≤ s.heap_start ∨ ptr ≥ s.heap_end then
      some [.lock, .access 188, .access 194, .access 197, .unlock]
    else if s.list_start = 0 ∨ s.list_start > ptr then
      some [.lock, .access 188, .access 194, .access 197, .access 202, .access 203, .unlock]
    else
      match findPrev s.mem ptr fuel s.list_start with
      | none => none
      | some _ =>
        some [.lock, .access 188, .access 194, .access 197, .access 202, .access 209,
          .access 211, .unlock]

/-- The mutex discipline on a sequence of events, `held` telling whether the
mutex is held before the first of them: `lock` only when it is not held,
`unlock` and every access only while it is held, and not held at the end. -/
def lockOk : Bool → List Ev → Bool
  | held, [] => !held
  | held, .lock :: es => !held && lockOk true es
  | held, .unlock :: es => held && lockOk false es
  | held, .access _ :: es => held && lockOk held es

/-- The call acquires the mutex first, does all its accesses while holding it
and releases it exactly once. -/
def disciplined (es : List Ev) : Bool :=
  lockOk false es && es.count .lock == 1 && es.count .unlock == 1

/-! ## Loads and stores -/

theorem readU32_lt (m : Mem) (a : Nat) : readU32 m a < U32 := by
  unfold readU32 U32; omega

theorem writeU32_outside (m : Mem) (a v x : Nat) (h : x < a ∨ a + 4 ≤ x) :
    writeU32 m a v x = m x := by
  unfold writeU32
  rw [if_neg (by omega), if_neg (by omega), if_neg (by omega), if_neg (by omega)]

theorem readU32_writeU32_same (m : Mem) (a v : Nat) :
    readU32 (writeU32 m a v) a = v % U32 := by
  unfold readU32 writeU32 U32
  simp only [if_true, if_neg (show ¬ a + 1 = a by omega), if_neg (show ¬ a + 2 = a by omega),
    if_neg (show ¬ a + 3 = a by omega), if_neg (show ¬ a + 2 = a + 1 by omega),
    if_neg (show ¬ a + 3 = a + 1 by omega), if_neg (show ¬ a + 3 = a + 2 by omega)]
  omega

theorem readU32_writeU32_disj (m : Mem) (a v b : Nat) (h : b + 4 ≤ a ∨ a + 4 ≤ b) :
    readU32 (writeU32 m a v) b = readU32 m b := by
  unfold readU32
  rw [writeU32_outside m a v b (by omega), writeU32_outside m a v (b + 1) (by omega),
    writeU32_outside m a v (b + 2) (by omega), writeU32_outside m a v (b + 3) (by omega)]

theorem readPtr_writeU32_disj (m : Mem) (a v b : Nat) (h : b + 8 ≤ a ∨ a + 4 ≤ b) :
    readPtr (writeU32 m a v) b = readPtr m b := by
  unfold readPtr
  rw [readU32_writeU32_disj m a v b (by omega), readU32_writeU32_disj m a v (b + 4) (by omega)]

theorem readU32_writePtr_disj (m : Mem) (a p b : Nat) (h : b + 4 ≤ a ∨ a + 8 ≤ b) :
    readU32 (writePtr m a p) b = readU32 m b := by
  unfold writePtr
  rw [readU32_writeU32_disj _ _ _ _ (by omega), readU32_writeU32_disj _ _ _ _ (by omega)]

theorem readPtr_writePtr_disj (m : Mem) (a p b : Nat) (h : b + 8 ≤ a ∨ a + 8 ≤ b) :
    readPtr (writePtr m a p) b = readPtr m b := by
  unfold readPtr
  rw [readU32_writePtr_disj m a p b (by omega), readU32_writePtr_disj m a p (b + 4) (by omega)]

theorem readPtr_writePtr_same (m : Mem) (a p : Nat) (hp : p < PTR) :
    readPtr (writePtr m a p) a = p := by
  unfold readPtr writePtr
  rw [readU32_writeU32_disj _ _ _ _ (by omega), readU32_writeU32_same, readU32_writeU32_same]
  unfold U32; unfold PTR at hp; omega

/-! ## Free lists in memory -/

theorem readPtr_lt (m : Mem) (a : Nat) : readPtr m a < PTR := by
  have h1 := readU32_lt m a
  have h2 := readU32_lt m (a + 4)
  unfold readPtr PTR; unfold U32 at h1 h2; omega

theorem ascending_pairwise (m : Mem) : ∀ l : List Nat, Ascending m l → l.Pairwise (Apart m)
  | [], _ => List.Pairwise.nil
  | [a], _ => by simp
  | a :: b :: rest, h => by
    obtain ⟨hab, hrest⟩ := h
    have ih := ascending_pairwise m (b :: rest) hrest
    refine List.pairwise_cons.2 ⟨?_, ih⟩
    intro c hc
    rcases List.mem_cons.1 hc with rfl | hc
    · exact hab
    · have hbc := (List.pairwise_cons.1 ih).1 c hc
      unfold Apart at *; omega

theorem pairwise_ascending (m : Mem) : ∀ l : List Nat, l.Pairwise (Apart m) → Ascending m l
  | [], _ => trivial
  | [_], _ => trivial
  | a :: b :: rest, h => by
    have h1 := List.pairwise_cons.1 h
    exact ⟨h1.1 b (List.mem_cons_self _ _), pairwise_ascending m (b :: rest) h1.2⟩

theorem ascending_nodup (m : Mem) (l : List Nat) (h : Ascending m l) : l.Nodup := by
  refine (ascending_pairwise m l h).imp ?_
  intro a b hab; unfold Apart at hab; omega

theorem apart_of_mem (m : Mem) (l : List Nat) (h : Ascending m l) (a b : Nat)
    (ha : a ∈ l) (hb : b ∈ l) (hne : a ≠ b) : Apart m a b ∨ Apart m b a := by
  have hp : l.Pairwise (fun x y => Apart m x y ∨ Apart m y x) :=
    (ascending_pairwise m l h).imp (fun hxy => Or.inl hxy)
  exact hp.forall (fun x y hxy => hxy.symm) ha hb hne

theorem freeList_congr (m m1 : Mem) :
    ∀ (l : List Nat) (p : Nat), (∀ b ∈ l, nodeNext m1 b = nodeNext m b) →
      FreeList m p l → FreeList m1 p l
  | [], _, _, h => h
  | b :: rest, p, hn, h => by
    obtain ⟨h1, h2, h3⟩ := h
    refine ⟨h1, h2, ?_⟩
    rw [hn b (List.mem_cons_self _ _)]
    exact freeList_congr m m1 rest _ (fun c hc => hn c (List.mem_cons_of_mem _ hc)) h3

theorem freeList_head (m : Mem) (p b : Nat) (rest : List Nat) (h : FreeList m p (b :: rest)) :
    p = b := h.1

theorem freeList_unlink (m m1 : Mem) (P B : Nat) (l2 : List Nat) :
    ∀ (l1 : List Nat) (h : Nat), FreeList m h (l1 ++ P :: B :: l2) →
      (∀ b ∈ l1, nodeNext m1 b = nodeNext m b) → (∀ b ∈ l2, nodeNext m1 b = nodeNext m b) →
      nodeNext m1 P = nodeNext m B → FreeList m1 h (l1 ++ P :: l2)
  | [], h, hl, _, h2, hP => by
    obtain ⟨a1, a2, a3, _, a5⟩ := hl
    refine ⟨a1, a2, ?_⟩
    rw [hP]
    exact freeList_congr m m1 l2 _ h2 a5
  | a :: l1, h, hl, h1, h2, hP => by
    obtain ⟨a1, a2, a3⟩ := hl
    refine ⟨a1, a2, ?_⟩
    rw [h1 a (List.mem_cons_self _ _)]
    exact freeList_unlink m m1 P B l2 l1 _ a3
      (fun c hc => h1 c (List.mem_cons_of_mem _ hc)) h2 hP

/-! ## The search loop of `mymalloc` -/

theorem scanFit_spec (m : Mem) (total : Nat) :
    ∀ (fuel : Nat) (pre suf : List Nat) (cur aux bf pb B P : Nat),
      FreeList m cur suf →
      (pre = [] ∧ aux = cur ∨ ∃ pre0, pre = pre0 ++ [aux]) →
      (bf = 0 ∨ (bf ∈ pre ∧ IsPrev (pre ++ suf) bf pb ∧ total < nodeSize m bf)) →
      scanFit m total fuel cur aux bf pb = some (B, P) →
      B = 0 ∨ (B ∈ pre ++ suf ∧ IsPrev (pre ++ suf) B P ∧ total < nodeSize m B) := by
  intro fuel
  induction fuel with
  | zero => intro pre suf cur aux bf pb B P _ _ _ h; simp [scanFit] at h
  | succ f ih =>
    intro pre suf cur aux bf pb B P hl haux hbf h
    unfold scanFit at h
    by_cases hc : cur ≠ 0 ∧ nodeSize m cur ≠ total
    · rw [if_pos hc] at h
      cases suf with
      | nil => exact absurd hl hc.1
      | cons b rest =>
        obtain ⟨hcb, _, hrest⟩ := hl
        subst hcb
        have happ : (pre ++ [cur]) ++ rest = pre ++ cur :: rest := by simp
        by_cases hu : nodeSize m cur ≥ total ∧ (bf = 0 ∨ nodeSize m bf > nodeSize m cur)
        · rw [if_pos hu] at h
          have hprev : IsPrev (pre ++ cur :: rest) cur aux := by
            rcases haux with ⟨hp, ha⟩ | ⟨pre0, hp⟩
            · subst hp; subst ha; exact Or.inl ⟨rfl, rest, rfl⟩
            · subst hp; exact Or.inr ⟨pre0, rest, by simp⟩
          have := ih (pre ++ [cur]) rest (nodeNext m cur) cur cur aux B P hrest
            (Or.inr ⟨pre, rfl⟩)
            (Or.inr ⟨by simp, by rw [happ]; exact hprev, by omega⟩) h
          rw [happ] at this; exact this
        · rw [if_neg hu] at h
          have hbf1 : bf = 0 ∨ (bf ∈ pre ++ [cur] ∧ IsPrev ((pre ++ [cur]) ++ rest) bf pb
              ∧ total < nodeSize m bf) := by
            rcases hbf with h0 | ⟨h1, h2, h3⟩
            · exact Or.inl h0
            · exact Or.inr ⟨List.mem_append_left _ h1, by rw [happ]; exact h2, h3⟩
          have := ih (pre ++ [cur]) rest (nodeNext m cur) cur bf pb B P hrest
            (Or.inr ⟨pre, rfl⟩) hbf1 h
          rw [happ] at this; exact this
    · rw [if_neg hc] at h
      cases h
      rcases hbf with h0 | ⟨h1, h2, h3⟩
      · exact Or.inl h0
      · exact Or.inr ⟨List.mem_append_left _ h1, h2, h3⟩

theorem scanFit_terminates (m : Mem) (total : Nat) :
    ∀ (suf : List Nat) (fuel cur aux bf pb : Nat), FreeList m cur suf → suf.length < fuel →
      ∃ r, scanFit m total fuel cur aux bf pb = some r := by
  intro suf
  induction suf with
  | nil =>
    intro fuel cur aux bf pb hl hlen
    cases fuel with
    | zero => simp at hlen
    | succ f =>
      unfold scanFit
      have h0 : cur = 0 := hl
      rw [if_neg (by rintro ⟨h, _⟩; exact h h0)]
      exact ⟨_, rfl⟩
  | cons b rest ih =>
    intro fuel cur aux bf pb hl hlen
    obtain ⟨hcb, _, hrest⟩ := hl
    subst hcb
    cases fuel with
    | zero => simp at hlen
    | succ f =>
      unfold scanFit
      have hlen1 : rest.length < f := by simpa using hlen
      split_ifs
      · exact ih f _ _ _ _ hrest hlen1
      · exact ih f _ _ _ _ hrest hlen1
      · exact ⟨_, rfl⟩

/-- The block the search loop selects in a list `l` is a block of `l`, strictly
larger than `total_size`, and `prevbest` is its predecessor (itself for the head). -/
theorem scanFit_selected (m : Mem) (total fuel h B P : Nat) (l : List Nat)
    (hl : FreeList m h l) (hs : scanFit m total fuel h h 0 0 = some (B, P)) (hB : B ≠ 0) :
    B ∈ l ∧ IsPrev l B P ∧ total < nodeSize m B := by
  rcases scanFit_spec m total fuel [] l h h 0 0 B P hl (Or.inl ⟨rfl, rfl⟩) (Or.inl rfl) hs
    with h0 | h1
  · exact absurd h0 hB
  · simpa using h1

/-! ## Boundary tags -/

theorem wordOffBack_footer (B sz : Nat) (h4 : sz % 4 = 0) (hsz : 4 ≤ sz) (hB : B + sz < PTR) :
    wordOffBack B (sz / 4) 1 = B + sz - 4 := by
  unfold wordOffBack PTR; unfold PTR at hB; omega

theorem allocate_header (m : Mem) (B sz : Nat) (h4 : sz % 4 = 0) (hsz : 8 ≤ sz)
    (hB : B + sz < PTR) (hlt : sz < U32) : readU32 (allocate m sz B) B = sz := by
  unfold allocate
  rw [wordOffBack_footer B sz h4 (by omega) hB, readU32_writeU32_disj _ _ _ _ (by omega),
    readU32_writeU32_same, Nat.mod_eq_of_lt hlt]

theorem allocate_footer (m : Mem) (B sz : Nat) (h4 : sz % 4 = 0) (hsz : 8 ≤ sz)
    (hB : B + sz < PTR) (hlt : sz < U32) : readU32 (allocate m sz B) (B + sz - 4) = sz := by
  unfold allocate
  rw [wordOffBack_footer B sz h4 (by omega) hB, readU32_writeU32_same, Nat.mod_eq_of_lt hlt]

theorem allocate_readU32_outside (m : Mem) (B sz a : Nat) (h4 : sz % 4 = 0) (hsz : 8 ≤ sz)
    (hB : B + sz < PTR) (h : a + 4 ≤ B ∨ B + sz ≤ a) :
    readU32 (allocate m sz B) a = readU32 m a := by
  unfold allocate
  rw [wordOffBack_footer B sz h4 (by omega) hB, readU32_writeU32_disj _ _ _ _ (by omega),
    readU32_writeU32_disj _ _ _ _ (by omega)]

theorem allocate_readPtr_outside (m : Mem) (B sz a : Nat) (h4 : sz % 4 = 0) (hsz : 8 ≤ sz)
    (hB : B + sz < PTR) (h : a + 8 ≤ B ∨ B + sz ≤ a) :
    readPtr (allocate m sz B) a = readPtr m a := by
  unfold readPtr
  rw [allocate_readU32_outside m B sz a h4 hsz hB (by omega),
    allocate_readU32_outside m B sz (a + 4) h4 hsz hB (by omega)]

/-! ## Removal from the free list -/

theorem erase_inner (l1 l2 : List Nat) (P B : Nat) (h1 : B ∉ l1) (hP : P ≠ B) :
    (l1 ++ P :: B :: l2).erase B = l1 ++ P :: l2 := by
  rw [List.erase_append_right _ h1, List.erase_cons_tail (by simpa using hP),
    List.erase_cons_head]

theorem removeList_spec (s : Heap) (l : List Nat) (B P : Nat)
    (hl : FreeList s.mem s.list_start l) (hasc : Ascending s.mem l)
    (hsz : ∀ b ∈ l, 16 ≤ nodeSize s.mem b) (hprev : IsPrev l B P) :
    (removeList s B P).heap_start = s.heap_start ∧ (removeList s B P).heap_end = s.heap_end ∧
    (removeList s B P).initialized = s.initialized ∧
    (removeList s B P).list_start
      = (if s.list_start = B then nodeNext s.mem B else s.list_start) ∧
    FreeList (removeList s B P).mem (removeList s B P).list_start (l.erase B) ∧
    (∀ b ∈ l, nodeSize (removeList s B P).mem b = nodeSize s.mem b) ∧
    (∀ b ∈ l, b ≠ P → nodeNext (removeList s B P).mem b = nodeNext s.mem b) ∧
    (s.list_start ≠ B →
      nodeNext (removeList s B P).mem P = nodeNext s.mem B ∧ P ∈ l ∧ P ≠ B) := by
  rcases hprev with ⟨hPB, t, ht⟩ | ⟨l1, l2, hl12⟩
  · subst hPB; subst ht
    have hhead : s.list_start = P := hl.1
    have hr : removeList s P P = { s with list_start := nodeNext s.mem P } := by
      unfold removeList; rw [if_pos hhead]
    rw [hr, if_pos hhead, List.erase_cons_head]
    exact ⟨rfl, rfl, rfl, rfl, hl.2.2, fun _ _ => rfl, fun _ _ _ => rfl,
      fun h => absurd hhead h⟩
  · subst hl12
    have hpw := ascending_pairwise s.mem _ hasc
    have hnd := ascending_nodup s.mem _ hasc
    have hBl1 : B ∉ l1 := by
      intro hmem
      have := (List.pairwise_append.1 hpw).2.2 B hmem B (by simp)
      unfold Apart at this; omega
    have hPB : P ≠ B := by
      have := (List.pairwise_cons.1 (List.pairwise_append.1 hpw).2.1).1 B (by simp)
      unfold Apart at this; omega
    have hne : s.list_start ≠ B := by
      cases l1 with
      | nil => rw [hl.1]; exact hPB
      | cons a l1 => rw [hl.1]; intro h; exact hBl1 (h ▸ List.mem_cons_self _ _)
    have hr : removeList s B P
        = { s with mem := writePtr s.mem (P + 8) (nodeNext s.mem B) } := by
      unfold removeList; rw [if_neg hne]
    have hPmem : P ∈ l1 ++ P :: B :: l2 := by simp
    have hsize : ∀ b ∈ l1 ++ P :: B :: l2,
        nodeSize (writePtr s.mem (P + 8) (nodeNext s.mem B)) b = nodeSize s.mem b := by
      intro b hb
      unfold nodeSize
      by_cases hbP : b = P
      · subst hbP; exact readU32_writePtr_disj _ _ _ _ (by omega)
      · have h16 := hsz P hPmem
        rcases apart_of_mem s.mem _ hasc b P hb hPmem hbP with h | h
        · unfold Apart at h; exact readU32_writePtr_disj _ _ _ _ (by omega)
        · unfold Apart at h; exact readU32_writePtr_disj _ _ _ _ (by omega)
    have hnext : ∀ b ∈ l1 ++ P :: B :: l2, b ≠ P →
        nodeNext (writePtr s.mem (P + 8) (nodeNext s.mem B)) b = nodeNext s.mem b := by
      intro b hb hbP
      unfold nodeNext
      have h16 := hsz P hPmem
      have h16b := hsz b hb
      rcases apart_of_mem s.mem _ hasc b P hb hPmem hbP with h | h
      · unfold Apart at h; exact readPtr_writePtr_disj _ _ _ _ (by omega)
      · unfold Apart at h; exact readPtr_writePtr_disj _ _ _ _ (by omega)
    have hnextP : nodeNext (writePtr s.mem (P + 8) (nodeNext s.mem B)) P = nodeNext s.mem B := by
      unfold nodeNext
      exact readPtr_writePtr_same _ _ _ (readPtr_lt _ _)
    have hPl1 : P ∉ l1 := by
      intro hmem
      have := (List.pairwise_append.1 hpw).2.2 P hmem P (by simp)
      unfold Apart at this; omega
    have hPl2 : P ∉ l2 := by
      intro hmem
      have := (List.pairwise_cons.1 (List.pairwise_append.1 hpw).2.1).1 P
        (List.mem_cons_of_mem _ hmem)
      unfold Apart at this; omega
    rw [hr, if_neg hne, erase_inner l1 l2 P B hBl1 hPB]
    refine ⟨rfl, rfl, rfl, rfl, ?_, hsize, hnext, fun _ => ⟨hnextP, hPmem, hPB⟩⟩
    refine freeList_unlink s.mem _ P B l2 l1 _ hl ?_ ?_ hnextP
    · intro b hb
      exact hnext b (by simp [hb]) (fun h => hPl1 (h ▸ hb))
    · intro b hb
      exact hnext b (by simp [hb]) (fun h => hPl2 (h ▸ hb))

/-! ## Rejected calls of `myfree` -/

theorem myfree_reject_eq (fuel : Nat) (s : Heap) (p : Nat)
    (h : s.initialized = 0 ∨ p = 0 ∨ p ≤ s.heap_start ∨ s.heap_end ≤ p ∨
        readU32 s.mem (headerAddr p)
          ≠ readU32 s.mem (footerAddr p (readU32 s.mem (headerAddr p)))) :
    myfree fuel s p = some (s, 1) := by
  unfold myfree
  by_cases h1 : s.initialized = 0 ∨ p = 0
  · rw [if_pos h1]
  · rw [if_neg h1]
    have h2 : readU32 s.mem (headerAddr p)
          ≠ readU32 s.mem (footerAddr p (readU32 s.mem (headerAddr p)))
        ∨ p ≤ s.heap_start ∨ p ≥ s.heap_end := by
      rcases h with h | h | h | h | h
      · exact absurd (Or.inl h) h1
      · exact absurd (Or.inr h) h1
      · exact Or.inr (Or.inl h)
      · exact Or.inr (Or.inr h)
      · exact Or.inl h
    simp only [if_pos h2]

theorem myfree_nonzero_state (fuel : Nat) (s : Heap) (p : Nat) (s1 : Heap) (r : Nat)
    (h : myfree fuel s p = some (s1, r)) (hr : r ≠ 0) : s1 = s := by
  unfold myfree at h
  by_cases h1 : s.initialized = 0 ∨ p = 0
  · rw [if_pos h1] at h; cases h; rfl
  · rw [if_neg h1] at h
    by_cases h2 : readU32 s.mem (headerAddr p)
          ≠ readU32 s.mem (footerAddr p (readU32 s.mem (headerAddr p)))
        ∨ p ≤ s.heap_start ∨ p ≥ s.heap_end
    · simp only [if_pos h2] at h; cases h; rfl
    · simp only [if_neg h2] at h
      by_cases h3 : s.list_start = 0 ∨ s.list_start > p
      · rw [if_pos h3] at h; cases h; exact absurd rfl hr
      · rw [if_neg h3] at h
        cases hf : findPrev s.mem p fuel s.list_start with
        | none => rw [hf] at h; cases h
        | some c => rw [hf] at h; cases h; exact absurd rfl hr

/-- C10: a call of `myfree` that is rejected (engine not initialised, null
pointer, pointer outside the open interval from `heap_start` to `heap_end`, or
header word different from footer word) returns 1 whatever the fuel, and every
call that returns a nonzero status leaves the whole state, memory included, as
it was. -/
theorem myfree_rejection_keeps_state (fuel : Nat) (s : Heap) (p : Nat) :
    ((s.initialized = 0 ∨ p = 0 ∨ p ≤ s.heap_start ∨ s.heap_end ≤ p ∨
        readU32 s.mem (headerAddr p)
          ≠ readU32 s.mem (footerAddr p (readU32 s.mem (headerAddr p))))
      → myfree fuel s p = some (s, 1))
    ∧ ∀ s1 r, myfree fuel s p = some (s1, r) → r ≠ 0 → s1 = s :=
  ⟨myfree_reject_eq fuel s p, fun s1 r => myfree_nonzero_state fuel s p s1 r⟩

/-- The witness of `myfree_rejection_keeps_state`: `myfree (NULL)` in the state
with free blocks at 4096, 4128 and 4176 returns 1 and changes nothing. -/
theorem myfree_rejection_keeps_state_witness :
    myfree 0 demoHeap 0 = some (demoHeap, 1) :=
  (myfree_rejection_keeps_state 0 demoHeap 0).1 (Or.inr (Or.inl rfl))

/-! ## The status of `myfree` -/

theorem headerAddr_eq (p : Nat) (h4 : 4 ≤ p) (hp : p < PTR) : headerAddr p = p - 4 := by
  unfold headerAddr wordOffBack PTR; unfold PTR at hp; omega

theorem footerAddr_eq (p size : Nat) (h8 : 8 ≤ p + size) (h : size % 4 = 0)
    (hp : p + size < PTR + 8) : footerAddr p size = p + size - 8 := by
  unfold footerAddr wordOffBack PTR; unfold PTR at hp; omega

theorem myfree_of_rejects (fuel : Nat) (s : Heap) (p : Nat) (h : ¬ FreeAccepts s p) :
    myfree fuel s p = some (s, 1) := by
  apply myfree_reject_eq fuel s p
  unfold FreeAccepts at h
  by_contra hc
  push_neg at hc
  exact h ⟨hc.1, hc.2.1, hc.2.2.2.2, by omega, by omega⟩

theorem myfree_of_accepts (fuel : Nat) (s : Heap) (p : Nat) (h : FreeAccepts s p) :
    myfree fuel s p =
      if s.list_start = 0 ∨ s.list_start > p then
        some (insertList s (readU32 s.mem (headerAddr p)) (headerAddr p) s.list_start, 0)
      else (findPrev s.mem p fuel s.list_start).map fun current =>
        (insertList s (readU32 s.mem (headerAddr p)) (headerAddr p) current, 0) := by
  obtain ⟨h1, h2, h3, h4, h5⟩ := h
  unfold myfree
  rw [if_neg (by rintro (h | h); exact h1 h; exact h2 h)]
  have hn : ¬ (readU32 s.mem (headerAddr p)
        ≠ readU32 s.mem (footerAddr p (readU32 s.mem (headerAddr p)))
      ∨ p ≤ s.heap_start ∨ p ≥ s.heap_end) := by
    rintro (h | h | h)
    · exact h h3
    · omega
    · omega
  simp only [if_neg hn]
  by_cases hl : s.list_start = 0 ∨ s.list_start > p
  · rw [if_pos hl, if_pos hl]
  · rw [if_neg hl, if_neg hl]
    cases findPrev s.mem p fuel s.list_start <;> rfl

theorem findPrev_terminates (m : Mem) (ptr : Nat) :
    ∀ (l : List Nat) (c fuel : Nat), FreeList m c l → c ≠ 0 → l.length ≤ fuel →
      ∃ r, findPrev m ptr fuel c = some r := by
  intro l
  induction l with
  | nil => intro c fuel h hc _; exact absurd h hc
  | cons b rest ih =>
    intro c fuel h hc hlen
    obtain ⟨hcb, _, hrest⟩ := h
    subst hcb
    cases fuel with
    | zero => simp at hlen
    | succ f =>
      unfold findPrev
      by_cases hn : nodeNext m c ≠ 0 ∧ nodeNext m c < ptr
      · rw [if_pos hn]
        exact ih (nodeNext m c) f hrest hn.1 (by simpa using hlen)
      · rw [if_neg hn]; exact ⟨c, rfl⟩

/-- C9, amended: `myfree (p)` returns 0 exactly when the engine is initialised,
`p` is not null, `heap_start < p < heap_end` and the word at `p - 4` (call it
size) equals the word at `p - 8 + 4 * (size / 4)`, which is the address of
`uiptr - 2 + size / sizeof (unsigned int)`; otherwise it returns 1. With a
free list of at most `fuel` blocks the accepted call does return. -/
theorem myfree_status (fuel : Nat) (s : Heap) (p : Nat) :
    (∀ r, myfree fuel s p = some r → (r.2 = 0 ∨ r.2 = 1) ∧ (r.2 = 0 ↔ FreeAccepts s p))
    ∧ (¬ FreeAccepts s p → myfree fuel s p = some (s, 1))
    ∧ (FreeAccepts s p → ∀ l, FreeList s.mem s.list_start l → l.length ≤ fuel →
        ∃ s1, myfree fuel s p = some (s1, 0)) := by
  refine ⟨?_, myfree_of_rejects fuel s p, ?_⟩
  · intro r hr
    by_cases hc : FreeAccepts s p
    · rw [myfree_of_accepts fuel s p hc] at hr
      have h0 : r.2 = 0 := by
        split_ifs at hr
        · cases hr; rfl
        · cases hf : findPrev s.mem p fuel s.list_start with
          | none => rw [hf] at hr; cases hr
          | some c => rw [hf] at hr; cases hr; rfl
      exact ⟨Or.inl h0, fun _ => hc, fun _ => h0⟩
    · rw [myfree_of_rejects fuel s p hc] at hr
      cases hr
      exact ⟨Or.inr rfl, fun h => absurd h Nat.one_ne_zero, fun h => absurd h hc⟩
  · intro hc l hl hlen
    rw [myfree_of_accepts fuel s p hc]
    by_cases hls : s.list_start = 0 ∨ s.list_start > p
    · rw [if_pos hls]; exact ⟨_, rfl⟩
    · rw [if_neg hls]
      obtain ⟨c, hc1⟩ := findPrev_terminates s.mem p l s.list_start fuel hl
        (fun h => hls (Or.inl h)) hlen
      rw [hc1]; exact ⟨_, rfl⟩

/-- The witness of `myfree_status`: the allocated block at 4112 of the state
with three free blocks is accepted and the call returns 0. -/
theorem myfree_status_witness :
    FreeAccepts demoHeap 4116 ∧ ∃ s1, myfree 3 demoHeap 4116 = some (s1, 0) :=
  ⟨by decide, (myfree_status 3 demoHeap 4116).2.2 (by decide) [4096, 4128, 4176]
    (by decide) (by decide)⟩

/-- C9, as stated, fails: after `mymalloc (56)` the caller stores 17 at 4104 and
at 4116 inside its payload. For `p = 4108` the engine is initialised,
`heap_start = 4096 < p < 4160 = heap_end`, the word at `p - 4` is 17 and the
word at `p - 8 + 17` is 0, yet `myfree (p)` returns 0: the footer is read at
`p - 8 + 4 * (17 / 4) = 4116`. -/
theorem myfree_reads_footer_at_word_offset :
    runForgedTags.bind (fun s => (myfree 1 s 4108).map Prod.snd) = some 0
    ∧ runForgedTags.map (fun s => (s.initialized, s.heap_start, s.heap_end,
          readU32 s.mem (4108 - 4), readU32 s.mem (4108 - 8 + readU32 s.mem (4108 - 4))))
        = some (1, 4096, 4160, 17, 0) := by
  decide

/-! ## Handing out a whole block -/

theorem mymalloc_of_selected (fuel : Nat) (sbrk : Nat → Nat) (s : Heap) (size B P : Nat)
    (hinit : s.initialized ≠ 0) (hsize : size ≠ 0) (hls : s.list_start ≠ 0)
    (hsel : scanFit s.mem (totalSize size) fuel s.list_start s.list_start 0 0 = some (B, P))
    (hB : B ≠ 0) :
    mymalloc fuel sbrk s size = some (takeBlock s (totalSize size) B P) := by
  unfold mymalloc
  rw [if_neg hinit]
  simp only [if_neg hsize]
  unfold mallocReady
  simp only [if_pos hls, hsel, if_pos hB]

/-- C6: in a well-formed state, when the block `B` selected by the search loop
has `B.size = total` or `B.size - total < MIN_SIZE`, `mymalloc` returns `B + 4`
without calling the heap extender, the first and the last word of
`[B, B + B.size)` both hold `B.size`, and the free list is the old list with
`B` removed: `list_start` becomes `B.next` when `B` was the head, otherwise the
`next` of the predecessor becomes `B.next`; the sizes of the other blocks and
their other links are unchanged, and the state is well-formed again. -/
theorem whole_block_policy (fuel : Nat) (sbrk : Nat → Nat) (s : Heap) (l : List Nat)
    (size B prevbest : Nat) (hwf : WellFormed s l) (hsize : size ≠ 0)
    (hsel : scanFit s.mem (totalSize size) fuel s.list_start s.list_start 0 0
      = some (B, prevbest))
    (hB : B ≠ 0)
    (hwhole : nodeSize s.mem B = totalSize size
      ∨ (nodeSize s.mem B + U32 - totalSize size) % U32 < MIN_SIZE) :
    ∃ r, mymalloc fuel sbrk s size = some r ∧ r.ptr = B + 4 ∧ r.grown = none ∧
      B ∈ l ∧ IsPrev l B prevbest ∧
      readU32 r.heap.mem B = nodeSize s.mem B ∧
      readU32 r.heap.mem (B + nodeSize s.mem B - 4) = nodeSize s.mem B ∧
      r.heap.list_start = (if s.list_start = B then nodeNext s.mem B else s.list_start) ∧
      (s.list_start ≠ B → nodeNext r.heap.mem prevbest = nodeNext s.mem B) ∧
      FreeList r.heap.mem r.heap.list_start (l.erase B) ∧
      (∀ b ∈ l, b ≠ B → nodeSize r.heap.mem b = nodeSize s.mem b) ∧
      (∀ b ∈ l, b ≠ B → b ≠ prevbest → nodeNext r.heap.mem b = nodeNext s.mem b) ∧
      WellFormed r.heap (l.erase B) ∧
      r.heap.heap_start = s.heap_start ∧ r.heap.heap_end = s.heap_end := by
  obtain ⟨hinit, hend, hl, hasc, hblk⟩ := hwf
  obtain ⟨hBl, hprev, _⟩ := scanFit_selected s.mem _ fuel _ B prevbest l hl hsel hB
  have hls : s.list_start ≠ 0 := by
    cases l with
    | nil => cases hBl
    | cons a t => rw [hl.1]; exact hl.2.1
  obtain ⟨r1, r2, r3, r4, r5, r6, r7, r8⟩ :=
    removeList_spec s l B prevbest hl hasc (fun b hb => (hblk b hb).2.2.1) hprev
  obtain ⟨hB1, hB2, hB3, hB4⟩ := hblk B hBl
  have hBptr : B + nodeSize s.mem B < PTR := by omega
  have h4 : nodeSize s.mem B % 4 = 0 := by omega
  have hlt : nodeSize s.mem B < U32 := readU32_lt _ _
  have hnd := ascending_nodup s.mem l hasc
  -- the other blocks lie outside `[B, B + B.size)`
  have hout : ∀ b ∈ l, b ≠ B → b + 16 ≤ B ∨ B + nodeSize s.mem B ≤ b := by
    intro b hb hne
    have h16 := (hblk b hb).2.2.1
    rcases apart_of_mem s.mem l hasc b B hb hBl hne with h | h
    · unfold Apart at h; omega
    · unfold Apart at h; omega
  have hsz2 : ∀ b ∈ l, b ≠ B →
      nodeSize (allocate (removeList s B prevbest).mem (nodeSize s.mem B) B) b
        = nodeSize s.mem b := by
    intro b hb hne
    rw [← r6 b hb]
    exact allocate_readU32_outside _ B (nodeSize s.mem B) b h4 (by omega) hBptr
      (by rcases hout b hb hne with h | h <;> omega)
  have hnx2 : ∀ b ∈ l, b ≠ B →
      nodeNext (allocate (removeList s B prevbest).mem (nodeSize s.mem B) B) b
        = nodeNext (removeList s B prevbest).mem b := by
    intro b hb hne
    exact allocate_readPtr_outside _ B (nodeSize s.mem B) (b + 8) h4 (by omega) hBptr
      (by rcases hout b hb hne with h | h <;> omega)
  have hmemE : ∀ b, b ∈ l.erase B → b ∈ l ∧ b ≠ B := by
    intro b hb
    have := (List.Nodup.mem_erase_iff hnd).1 hb
    exact ⟨this.2, this.1⟩
  have hfl : FreeList (allocate (removeList s B prevbest).mem (nodeSize s.mem B) B)
      (removeList s B prevbest).list_start (l.erase B) :=
    freeList_congr _ _ _ _ (fun b hb => hnx2 b (hmemE b hb).1 (hmemE b hb).2) r5
  have hasc2 : Ascending (allocate (removeList s B prevbest).mem (nodeSize s.mem B) B)
      (l.erase B) := by
    apply pairwise_ascending
    have hp := (ascending_pairwise s.mem l hasc).sublist (List.erase_sublist B l)
    refine hp.imp_of_mem ?_
    intro a b ha _ hab
    unfold Apart at *
    rw [hsz2 a (hmemE a ha).1 (hmemE a ha).2]
    exact hab
  refine ⟨takeBlock s (totalSize size) B prevbest,
    mymalloc_of_selected fuel sbrk s size B prevbest hinit hsize hls hsel hB, ?_⟩
  unfold takeBlock
  rw [if_pos hwhole]
  simp only [r6 B hBl]
  refine ⟨trivial, trivial, hBl, hprev, ?_, ?_, r4, ?_, hfl, hsz2, ?_, ?_, r1, r2⟩
  · exact allocate_header _ _ _ h4 (by omega) hBptr hlt
  · exact allocate_footer _ _ _ h4 (by omega) hBptr hlt
  · intro hne
    obtain ⟨q1, q2, q3⟩ := r8 hne
    show nodeNext (allocate (removeList s B prevbest).mem (nodeSize s.mem B) B) prevbest = _
    rw [hnx2 prevbest q2 q3, q1]
  · intro b hb hne hneP
    show nodeNext (allocate (removeList s B prevbest).mem (nodeSize s.mem B) B) b = _
    rw [hnx2 b hb hne, r7 b hb hneP]
  · refine ⟨by rw [← r3] at hinit; exact hinit, by rw [← r2] at hend; exact hend, hfl, hasc2, ?_⟩
    intro b hb
    obtain ⟨hbl, hbne⟩ := hmemE b hb
    show _ ∧ _ + nodeSize (allocate (removeList s B prevbest).mem (nodeSize s.mem B) B) b ≤ _
      ∧ 16 ≤ nodeSize (allocate (removeList s B prevbest).mem (nodeSize s.mem B) B) b
      ∧ nodeSize (allocate (removeList s B prevbest).mem (nodeSize s.mem B) B) b % 8 = 0
    rw [hsz2 b hbl hbne, r1, r2]
    exact hblk b hbl

/-- The witness of `whole_block_policy`: with free blocks of 16, 32 and 24 bytes
a request of 16 bytes (24 with the tags) selects the 32-byte block at 4128,
whose 8 bytes of slack are below `MIN_SIZE`, and hands it out whole. -/
theorem whole_block_policy_witness :
    ∃ r, mymalloc 4 (fun _ => 4216) demoHeap 16 = some r ∧ r.ptr = 4128 + 4 ∧ r.grown = none ∧
      4128 ∈ [4096, 4128, 4176] ∧ IsPrev [4096, 4128, 4176] 4128 4096 ∧
      readU32 r.heap.mem 4128 = nodeSize demoHeap.mem 4128 ∧
      readU32 r.heap.mem (4128 + nodeSize demoHeap.mem 4128 - 4) = nodeSize demoHeap.mem 4128 ∧
      r.heap.list_start
        = (if demoHeap.list_start = 4128 then nodeNext demoHeap.mem 4128
            else demoHeap.list_start) ∧
      (demoHeap.list_start ≠ 4128 → nodeNext r.heap.mem 4096 = nodeNext demoHeap.mem 4128) ∧
      FreeList r.heap.mem r.heap.list_start ([4096, 4128, 4176].erase 4128) ∧
      (∀ b ∈ [4096, 4128, 4176], b ≠ 4128 → nodeSize r.heap.mem b = nodeSize demoHeap.mem b) ∧
      (∀ b ∈ [4096, 4128, 4176], b ≠ 4128 → b ≠ 4096 →
        nodeNext r.heap.mem b = nodeNext demoHeap.mem b) ∧
      WellFormed r.heap ([4096, 4128, 4176].erase 4128) ∧
      r.heap.heap_start = demoHeap.heap_start ∧ r.heap.heap_end = demoHeap.heap_end :=
  whole_block_policy 4 (fun _ => 4216) demoHeap [4096, 4128, 4176] 16 4128 4096
    (by decide) (by decide) (by decide) (by decide) (by decide)

/-! ## The pointer returned by `mymalloc` passes the checks of `myfree` -/

theorem totalSize_bounds (S : Nat) (h : S + 8 ≤ U32 - 8) :
    16 ≤ totalSize S ∧ totalSize S % 8 = 0 ∧ S + 8 ≤ totalSize S ∧ totalSize S < U32 := by
  unfold totalSize wordAlignment MIN_SIZE U32
  unfold U32 at h
  simp only []
  split_ifs <;> omega

theorem insertList_bounds (s : Heap) (size offset prev : Nat) :
    (insertList s size offset prev).heap_start = s.heap_start
    ∧ (insertList s size offset prev).heap_end = s.heap_end
    ∧ (insertList s size offset prev).initialized = s.initialized := by
  unfold insertList
  simp only []
  split_ifs <;> exact ⟨rfl, rfl, rfl⟩

theorem freeAccepts_allocate (s : Heap) (m : Mem) (B sz : Nat) (hinit : s.initialized ≠ 0)
    (h4 : sz % 4 = 0) (h8 : 8 ≤ sz) (hB : B + sz < PTR) (hlt : sz < U32)
    (hs : s.mem = allocate m sz B) (hlo : s.heap_start ≤ B) (hhi : B + sz ≤ s.heap_end) :
    FreeAccepts s (B + 4) := by
  have hh : headerAddr (B + 4) = B := by
    rw [headerAddr_eq (B + 4) (by omega) (by omega)]; omega
  have hf : footerAddr (B + 4) sz = B + sz - 4 := by
    rw [footerAddr_eq (B + 4) sz (by omega) h4 (by omega)]; omega
  unfold FreeAccepts
  refine ⟨hinit, by omega, ?_, by omega, by omega⟩
  rw [hh, hs, allocate_header m B sz h4 h8 hB hlt, hf, allocate_footer m B sz h4 h8 hB hlt]

theorem growHeap_accepted (sbrk : Nat → Nat) (s : Heap) (T : Nat) (hinit : s.initialized ≠ 0)
    (hT : 16 ≤ T ∧ T % 8 = 0 ∧ T < U32)
    (hext : s.heap_start ≤ sbrk T) (hext2 : sbrk T + T < PTR)
    (hp : (growHeap sbrk s T).ptr ≠ 0) :
    FreeAccepts (growHeap sbrk s T).heap (growHeap sbrk s T).ptr := by
  unfold growHeap at hp ⊢
  simp only [] at hp ⊢
  by_cases hf : sbrk T ≠ SBRK_FAILED
  · rw [if_pos hf]
    refine freeAccepts_allocate _ s.mem (sbrk T) T hinit (by omega) (by omega) hext2 hT.2.2
      rfl hext ?_
    show sbrk T + T ≤ wordOff (sbrk T) (T / 4)
    unfold wordOff; omega
  · rw [if_neg hf] at hp; exact absurd rfl hp

theorem takeBlock_accepted (s : Heap) (l : List Nat) (T B P : Nat) (hwf : WellFormed s l)
    (hT : 16 ≤ T ∧ T % 8 = 0 ∧ T < U32) (hBl : B ∈ l) (hprev : IsPrev l B P)
    (hgt : T < nodeSize s.mem B) :
    (takeBlock s T B P).ptr = B + 4 ∧ FreeAccepts (takeBlock s T B P).heap (B + 4) := by
  obtain ⟨hinit, hend, hl, hasc, hblk⟩ := hwf
  obtain ⟨r1, r2, r3, _, _, r6, _, _⟩ :=
    removeList_spec s l B P hl hasc (fun b hb => (hblk b hb).2.2.1) hprev
  obtain ⟨hB1, hB2, hB3, hB4⟩ := hblk B hBl
  have hlt : nodeSize s.mem B < U32 := readU32_lt _ _
  unfold takeBlock
  by_cases hw : nodeSize s.mem B = T ∨ (nodeSize s.mem B + U32 - T) % U32 < MIN_SIZE
  · rw [if_pos hw]
    simp only [r6 B hBl]
    refine ⟨trivial, ?_⟩
    exact freeAccepts_allocate _ (removeList s B P).mem B (nodeSize s.mem B)
      (by show (removeList s B P).initialized ≠ 0; rw [r3]; exact hinit)
      (by omega) (by omega) (by omega) hlt rfl
      (by show (removeList s B P).heap_start ≤ B; rw [r1]; exact hB1)
      (by show _ ≤ (removeList s B P).heap_end; rw [r2]; exact hB2)
  · rw [if_neg hw]
    simp only []
    refine ⟨trivial, ?_⟩
    obtain ⟨i1, i2, i3⟩ := insertList_bounds (removeList s B P)
      ((nodeSize s.mem B + U32 - T) % U32) (wordOff B (T / 4)) P
    exact freeAccepts_allocate _ _ B T
      (by show (insertList _ _ _ _).initialized ≠ 0; rw [i3, r3]; exact hinit)
      (by omega) (by omega) (by omega) hT.2.2 rfl
      (by show (insertList _ _ _ _).heap_start ≤ B; rw [i1, r1]; exact hB1)
      (by show _ ≤ (insertList _ _ _ _).heap_end; rw [i2, r2]; omega)

/-- Support for C4: for a request that does not overflow (`S + 8 ≤ 2 ^ 32 - 8`)
in a well-formed state, with the heap extender returning a region at or above
`heap_start`, every non-null pointer returned by `mymalloc` passes all the
checks of `myfree` in the state `mymalloc` leaves. -/
theorem mymalloc_result_accepted (fuel : Nat) (sbrk : Nat → Nat) (s : Heap) (l : List Nat)
    (S : Nat) (r : MallocOut) (hwf : WellFormed s l) (hS : 1 ≤ S) (hS2 : S + 8 ≤ U32 - 8)
    (hext : s.heap_start ≤ sbrk (totalSize S)) (hext2 : sbrk (totalSize S) + U32 < PTR)
    (h : mymalloc fuel sbrk s S = some r) (hp : r.ptr ≠ 0) :
    FreeAccepts r.heap r.ptr := by
  obtain ⟨t1, t2, _, t4⟩ := totalSize_bounds S hS2
  have hinit := hwf.1
  unfold mymalloc at h
  rw [if_neg hinit] at h
  simp only [if_neg (show ¬ S = 0 by omega)] at h
  unfold mallocReady at h
  have hgrow : some (growHeap sbrk s (totalSize S)) = some r → FreeAccepts r.heap r.ptr := by
    intro hg
    cases hg
    exact growHeap_accepted sbrk s _ hinit ⟨t1, t2, t4⟩ hext (by omega) hp
  by_cases hls : s.list_start ≠ 0
  · simp only [if_pos hls] at h
    cases hsc : scanFit s.mem (totalSize S) fuel s.list_start s.list_start 0 0 with
    | none => rw [hsc] at h; cases h
    | some bp =>
      obtain ⟨B, P⟩ := bp
      rw [hsc] at h
      simp only [] at h
      by_cases hB : B ≠ 0
      · rw [if_pos hB] at h
        cases h
        obtain ⟨hBl, hprev, hgt⟩ := scanFit_selected s.mem _ fuel _ B P l hwf.2.2.1 hsc hB
        obtain ⟨q1, q2⟩ := takeBlock_accepted s l (totalSize S) B P hwf ⟨t1, t2, t4⟩ hBl hprev hgt
        rw [q1]; exact q2
      · rw [if_neg hB] at h; exact hgrow h
  · simp only [if_neg hls] at h; exact hgrow h

/-- The witness of `mymalloc_result_accepted`: a request of 16 bytes in the
state with free blocks of 16, 32 and 24 bytes. -/
theorem mymalloc_result_accepted_witness :
    ∃ r, mymalloc 4 (fun _ => 4216) demoHeap 16 = some r ∧ FreeAccepts r.heap r.ptr :=
  ⟨takeBlock demoHeap (totalSize 16) 4128 4096,
    mymalloc_of_selected 4 (fun _ => 4216) demoHeap 16 4128 4096
      (by decide) (by decide) (by decide) (by decide) (by decide),
    mymalloc_result_accepted 4 (fun _ => 4216) demoHeap [4096, 4128, 4176] 16 _
      (by decide) (by decide) (by decide) (by decide) (by decide)
      (mymalloc_of_selected 4 (fun _ => 4216) demoHeap 16 4128 4096
        (by decide) (by decide) (by decide) (by decide) (by decide))
      (by decide)⟩

/-! ## The round trip `mymalloc`, `myfree`, `mymalloc` -/

theorem proc_malloc_of (fuel : Nat) (w : Proc) (S : Nat) (r : MallocOut)
    (e : mymalloc fuel (fun _ => w.brk) w.heap S = some r) :
    w.malloc fuel S = some (⟨r.heap, w.brk + r.grown.getD 0⟩, r.ptr) := by
  unfold Proc.malloc; rw [e]

theorem proc_free_of (fuel : Nat) (w : Proc) (p : Nat) (r : Heap × Nat)
    (e : myfree fuel w.heap p = some r) :
    w.free fuel p = some (⟨r.1, w.brk⟩, r.2) := by
  unfold Proc.free; rw [e]

theorem sbrk_ok (x : Nat) (hx : x + U32 < PTR) : x ≠ SBRK_FAILED := by
  unfold SBRK_FAILED; unfold PTR U32 at hx; omega

theorem mymalloc_fresh_eq (m : Mem) (brk S fuel : Nat) (hS : 1 ≤ S) (hS2 : S + 8 ≤ U32 - 8)
    (hbrk2 : brk + 2 * U32 < PTR) :
    mymalloc fuel (fun _ => brk) (Heap.fresh m) S
      = some ⟨⟨allocate m (totalSize S) brk, brk, brk + totalSize S, 0, 1⟩, brk + 4,
          some (totalSize S)⟩ := by
  obtain ⟨t1, t2, _, t4⟩ := totalSize_bounds S hS2
  have hoff : wordOff brk (totalSize S / 4) = brk + totalSize S := by
    unfold wordOff; omega
  unfold mymalloc Heap.fresh
  simp only [if_true, if_neg (show ¬ S = 0 by omega)]
  unfold mallocReady initHeap
  simp only [ne_eq, not_true_eq_false, if_false]
  unfold growHeap
  simp only [if_pos (sbrk_ok brk (by omega)), hoff]

theorem myfree_first_eq (m : Mem) (brk T fuel : Nat) (hT : 16 ≤ T ∧ T % 8 = 0 ∧ T < U32)
    (hbrk2 : brk + 2 * U32 < PTR) :
    myfree fuel ⟨allocate m T brk, brk, brk + T, 0, 1⟩ (brk + 4)
      = some (⟨writeNode (allocate m T brk) brk T 0, brk, brk + T, brk, 1⟩, 0) := by
  have hacc : FreeAccepts ⟨allocate m T brk, brk, brk + T, 0, 1⟩ (brk + 4) :=
    freeAccepts_allocate _ m brk T Nat.one_ne_zero (by omega) (by omega)
      (by omega) hT.2.2 rfl (Nat.le_refl _) (Nat.le_refl _)
  have hh : headerAddr (brk + 4) = brk := by
    rw [headerAddr_eq (brk + 4) (by omega) (by unfold U32 at hbrk2; omega)]; omega
  have hsz : readU32 (allocate m T brk) brk = T :=
    allocate_header m brk T (by omega) (by omega) (by omega) hT.2.2
  rw [myfree_of_accepts fuel _ (brk + 4) hacc, if_pos (Or.inl rfl), hh]
  simp only [hsz]
  unfold insertList
  simp only [true_and, true_or, if_true, ne_eq, not_true_eq_false, false_and, if_false]

theorem mymalloc_exact_head_eq (mem : Mem) (hs he ls b2 S fuel : Nat) (hS : 1 ≤ S)
    (hS2 : S + 8 ≤ U32 - 8) (hls : ls ≠ 0) (hsz : nodeSize mem ls = totalSize S)
    (hb2 : b2 + U32 < PTR) (hfuel : 0 < fuel) :
    mymalloc fuel (fun _ => b2) ⟨mem, hs, he, ls, 1⟩ S
      = some ⟨⟨allocate mem (totalSize S) b2, hs, b2 + totalSize S, ls, 1⟩, b2 + 4,
          some (totalSize S)⟩ := by
  obtain ⟨t1, t2, _, t4⟩ := totalSize_bounds S hS2
  have hoff : wordOff b2 (totalSize S / 4) = b2 + totalSize S := by
    unfold wordOff; omega
  obtain ⟨f, rfl⟩ : ∃ f, fuel = f + 1 := ⟨fuel - 1, by omega⟩
  have hscan : scanFit mem (totalSize S) (f + 1) ls ls 0 0 = some (0, 0) := by
    unfold scanFit
    rw [if_neg]
    rintro ⟨_, hne⟩
    exact hne hsz
  unfold mymalloc
  simp only [if_neg Nat.one_ne_zero, if_neg (show ¬ S = 0 by omega)]
  unfold mallocReady
  simp only [if_pos hls, hscan, ne_eq, not_true_eq_false, if_false]
  unfold growHeap
  simp only [if_pos (sbrk_ok b2 hb2), hoff]

/-- Support for C3: for every request `S` that does not overflow, in a process
with a contiguous heap extender, `p = mymalloc (S)` from the fresh state returns
`brk + 4`, `myfree (p)` returns 0, and the second `mymalloc (S)` returns
`p + total`: the freed block, an exact fit, is passed over and the heap grows
again. -/
theorem round_trip_grows_again (m : Mem) (brk S fuel : Nat) (hS : 1 ≤ S)
    (hS2 : S + 8 ≤ U32 - 8) (hbrk : 0 < brk) (hbrk2 : brk + 2 * U32 < PTR) (hfuel : 0 < fuel) :
    ∃ w1 w2 w3, (Proc.mk (Heap.fresh m) brk).malloc fuel S = some (w1, brk + 4)
      ∧ w1.free fuel (brk + 4) = some (w2, 0)
      ∧ w2.malloc fuel S = some (w3, brk + totalSize S + 4)
      ∧ w1.brk = brk + totalSize S ∧ w3.brk = brk + totalSize S + totalSize S := by
  obtain ⟨t1, t2, _, t4⟩ := totalSize_bounds S hS2
  have e1 := proc_malloc_of fuel ⟨Heap.fresh m, brk⟩ S _
    (mymalloc_fresh_eq m brk S fuel hS hS2 hbrk2)
  have e2 := proc_free_of fuel ⟨⟨allocate m (totalSize S) brk, brk, brk + totalSize S, 0, 1⟩,
      brk + totalSize S⟩ (brk + 4) _
    (myfree_first_eq m brk (totalSize S) fuel ⟨t1, t2, t4⟩ hbrk2)
  have hns : nodeSize (writeNode (allocate m (totalSize S) brk) brk (totalSize S) 0) brk
      = totalSize S := by
    unfold nodeSize writeNode
    rw [readU32_writePtr_disj _ _ _ _ (by omega), readU32_writeU32_same,
      Nat.mod_eq_of_lt t4]
  have e3 := proc_malloc_of fuel
    ⟨⟨writeNode (allocate m (totalSize S) brk) brk (totalSize S) 0, brk, brk + totalSize S,
      brk, 1⟩, brk + totalSize S⟩ S _
    (mymalloc_exact_head_eq _ brk (brk + totalSize S) brk (brk + totalSize S) S fuel hS hS2
      (by omega) hns (by omega) hfuel)
  exact ⟨_, _, _, e1, e2, e3, rfl, rfl⟩

/-- The witness of `round_trip_grows_again`: a request of 8 bytes with the break
at 4096. -/
theorem round_trip_grows_again_witness :
    ∃ w1 w2 w3, (Proc.mk (Heap.fresh (fun _ => 0)) 4096).malloc 4 8 = some (w1, 4096 + 4)
      ∧ w1.free 4 (4096 + 4) = some (w2, 0)
      ∧ w2.malloc 4 8 = some (w3, 4096 + totalSize 8 + 4)
      ∧ w1.brk = 4096 + totalSize 8 ∧ w3.brk = 4096 + totalSize 8 + totalSize 8 :=
  round_trip_grows_again (fun _ => 0) 4096 8 4 (by decide) (by decide) (by decide)
    (by decide) (by decide)

/-! ## Runs of the allocator -/

/-- C1, on the code: with free blocks of 16, 32 and 24 bytes in address order
and `total = wordAlignment (16 + 8) = 24`, `mymalloc (16)` hands out the
32-byte block at 4128 and leaves the 24-byte block at 4176 in the list: the
search loop stops at the exact fit without recording it as `bestfit`. -/
theorem bestfit_passes_over_exact_fit :
    runThreeFree.map Proc.freeBlocks = some [(4096, 16), (4128, 32), (4176, 24)]
    ∧ totalSize 16 = 24
    ∧ runThreeFree.bind (fun w => (w.malloc 4 16).map fun r => (r.2, r.1.freeBlocks))
        = some (4128 + 4, [(4096, 16), (4176, 24)]) := by
  decide

/-- C2, on the code: with one free block of 16 bytes, `mymalloc (8)` has
`total = 16`, a free block of exactly that size, and still calls `sbrk (16)`:
the pointer lies in the new region, `heap_end` moves from 4112 to 4128 and the
free block stays in the list. -/
theorem exact_fit_grows_heap :
    runOneFree.map (fun w => (w.freeBlocks, w.heap.heap_end)) = some ([(4096, 16)], 4112)
    ∧ totalSize 8 = 16
    ∧ runOneFree.bind (fun w => (mymalloc 4 (fun _ => w.brk) w.heap 8).map fun r =>
          (r.grown, r.ptr, r.heap.heap_end, walk r.heap.mem 6 r.heap.list_start))
        = some (some 16, 4116, 4128, [(4096, 16)]) := by
  decide

/-- C3, on the code: from a fresh process `p = mymalloc (8)`, `myfree (p)`,
`q = mymalloc (8)` gives `p = 4100`, status 0 and `q = 4116`, and the second
`mymalloc` moves the break from 4112 to 4128. -/
theorem round_trip_does_not_reuse :
    runRoundTrip = some (4100, 0, 4116, 4112, 4128) := by
  decide

/-- C4, on the code: from a fresh process `mymalloc (4294967281)` computes
`total_size = 0`, returns the non-null pointer 4100 and leaves
`heap_end = heap_start = 4096`; the following `myfree (4100)` returns 1. -/
theorem huge_round_trip_is_rejected :
    runHugeRoundTrip = some (0, 4100, 4096, 4096, 1) := by
  decide

/-- C5, on the code: with free blocks of 48 and 64 bytes, `mymalloc (8)` has
`total = 16` and selects the head block at 4096, whose remainder of 32 bytes is
at least `MIN_SIZE`. The result is `4096 + 4` with both tags 16 and the
remainder node at 4112 has size 32, but the free list afterwards is the
64-byte block alone: the remainder is not reachable from `list_start`. -/
theorem head_split_loses_remainder :
    runHeadSplit.map Proc.freeBlocks = some [(4096, 48), (4160, 64)]
    ∧ totalSize 8 = 16
    ∧ runHeadSplit.bind (fun w => (w.malloc 4 8).map fun r =>
          (r.2, readU32 r.1.heap.mem 4096, readU32 r.1.heap.mem (4096 + 16 - 4),
            nodeSize r.1.heap.mem (4096 + 16), r.1.freeBlocks))
        = some (4096 + 4, 16, 16, 32, [(4160, 64)]) := by
  decide

/-- Support for C5: with free blocks of 64 and 48 bytes, `mymalloc (8)` selects
the second block, at 4176, and splits it; here the remainder of 32 bytes at
4192 takes its place in the list. -/
theorem inner_split_relinks_remainder :
    runInnerSplit.map Proc.freeBlocks = some [(4096, 64), (4176, 48)]
    ∧ runInnerSplit.bind (fun w => (w.malloc 4 8).map fun r => (r.2, r.1.freeBlocks))
        = some (4176 + 4, [(4096, 64), (4176 + 16, 32)]) := by
  decide

/-- C7, on the code: from a fresh process `mymalloc (4294967281)` and then
`mymalloc (8)`, with no `myfree` in between, both return 4100; the size word at
`4100 - 4` is 16, so the two live allocations share the range `[4096, 4112)`. -/
theorem two_live_allocations_coincide :
    runTwiceSame = some (4100, 4100, 16, []) := by
  decide

/-- C8, on the code: with free blocks of 32 and 16 bytes at 4096 and 4144,
`p = mymalloc (4294967281)` returns `4144 + 4` and leaves the block at 4144 in
the list with size 0; `myfree (p)` returns 0 and makes that block its own
successor, so the walk from `list_start` meets it again and again. -/
theorem free_list_becomes_cyclic :
    runCycle = some (4148, 0, [(4096, 32), (4144, 16)], [(4096, 32), (4144, 0)],
      [(4096, 32), (4144, 0), (4144, 0), (4144, 0), (4144, 0), (4144, 0)], 4144) := by
  rfl

/-! ## Requests that take no block -/

/-- C11: in a Ready state, for a request `S ≥ 1` for which no free block is
selected (empty list, or the search loop ends with `bestfit = NULL`), when the
heap extender returns `(void *) -1` the call returns `NULL` and the state it
leaves, heap bounds, `list_start` and memory included, is the state it found. -/
theorem growth_failure_keeps_state (fuel : Nat) (sbrk : Nat → Nat) (s : Heap) (S : Nat)
    (hready : s.initialized ≠ 0) (hS : 1 ≤ S)
    (hnone : s.list_start = 0
      ∨ ∃ P, scanFit s.mem (totalSize S) fuel s.list_start s.list_start 0 0 = some (0, P))
    (hfail : sbrk (totalSize S) = SBRK_FAILED) :
    mymalloc fuel sbrk s S = some ⟨s, 0, some (totalSize S)⟩ := by
  have hg : growHeap sbrk s (totalSize S) = ⟨s, 0, some (totalSize S)⟩ := by
    unfold growHeap
    simp only [hfail, ne_eq, not_true_eq_false, if_false]
  unfold mymalloc
  rw [if_neg hready]
  simp only [if_neg (show ¬ S = 0 by omega)]
  unfold mallocReady
  by_cases hls : s.list_start ≠ 0
  · rcases hnone with h0 | ⟨P, hP⟩
    · exact absurd h0 hls
    · simp only [if_pos hls, hP, ne_eq, not_true_eq_false, if_false, hg]
  · simp only [if_neg hls, hg]

/-- The witness of `growth_failure_keeps_state`: a request of 100 bytes, which
none of the free blocks of 16, 32 and 24 bytes can hold, with a failing
extender. -/
theorem growth_failure_keeps_state_witness :
    mymalloc 4 (fun _ => SBRK_FAILED) demoHeap 100
      = some ⟨demoHeap, 0, some (totalSize 100)⟩ :=
  growth_failure_keeps_state 4 (fun _ => SBRK_FAILED) demoHeap 100 (by decide) (by decide)
    (Or.inr ⟨0, by decide⟩) rfl

/-- C12: `mymalloc (0)` returns `NULL` in every state, without the
`sbrk (total_size)` call and without touching memory or the free list of a Ready
state, which it leaves as it found it; in a state that is not initialised its
only effect is that of `initialize`: the flag is set, the list is empty and
`heap_end = heap_start`, the current break. -/
theorem zero_size_returns_null (fuel : Nat) (sbrk : Nat → Nat) (s : Heap) :
    ∃ r, mymalloc fuel sbrk s 0 = some r ∧ r.ptr = 0 ∧ r.grown = none ∧
      r.heap.mem = s.mem ∧
      (s.initialized ≠ 0 → r.heap = s) ∧
      (s.initialized = 0 → r.heap.initialized = 1 ∧ r.heap.list_start = 0 ∧
        r.heap.heap_start = sbrk 0 ∧ r.heap.heap_end = r.heap.heap_start) := by
  refine ⟨⟨if s.initialized = 0 then initHeap sbrk s else s, 0, none⟩, ?_, rfl, rfl, ?_, ?_, ?_⟩
  · unfold mymalloc; simp only [if_true]
  · show (if s.initialized = 0 then initHeap sbrk s else s).mem = s.mem
    split_ifs <;> rfl
  · intro h
    show (if s.initialized = 0 then initHeap sbrk s else s) = s
    rw [if_neg h]
  · intro h
    show (if s.initialized = 0 then initHeap sbrk s else s).initialized = 1 ∧ _
    rw [if_pos h]
    exact ⟨rfl, rfl, rfl, rfl⟩

/-- The witness of `zero_size_returns_null`: the call in a fresh process with
the break at 4096, and in the Ready state with three free blocks. -/
theorem zero_size_returns_null_witness :
    (∃ r, mymalloc 0 (fun _ => 4096) (Heap.fresh (fun _ => 0)) 0 = some r ∧ r.ptr = 0 ∧
      r.grown = none ∧ r.heap.initialized = 1 ∧ r.heap.list_start = 0 ∧
      r.heap.heap_start = 4096 ∧ r.heap.heap_end = r.heap.heap_start)
    ∧ ∃ r, mymalloc 0 (fun _ => 4216) demoHeap 0 = some r ∧ r.ptr = 0 ∧ r.heap = demoHeap := by
  constructor
  · obtain ⟨r, h1, h2, h3, _, _, h6⟩ :=
      zero_size_returns_null 0 (fun _ => 4096) (Heap.fresh (fun _ => 0))
    exact ⟨r, h1, h2, h3, h6 rfl⟩
  · obtain ⟨r, h1, h2, _, _, h5, _⟩ := zero_size_returns_null 0 (fun _ => 4216) demoHeap
    exact ⟨r, h1, h2, h5 (by decide)⟩

/-! ## Word alignment -/

/-- C15: for `b ≤ 2 ^ 32 - 8`, `wordAlignment b` is the least multiple of 8 that
is at least `max b MIN_SIZE`, with `MIN_SIZE = 12`: it is a multiple of 8, at
least `max b MIN_SIZE`, and no multiple of 8 with that property is smaller.
Hence it is at least 16, at least `b`, less than `max b MIN_SIZE + 8`, and
`wordAlignment` leaves it unchanged. -/
theorem wordAlignment_least_multiple (b : Nat) (hb : b ≤ U32 - 8) :
    MIN_SIZE = 12 ∧ wordAlignment b % 8 = 0 ∧ max b MIN_SIZE ≤ wordAlignment b ∧
    (∀ r, r % 8 = 0 → max b MIN_SIZE ≤ r → wordAlignment b ≤ r) ∧
    16 ≤ wordAlignment b ∧ b ≤ wordAlignment b ∧ wordAlignment b < max b MIN_SIZE + 8 ∧
    wordAlignment (wordAlignment b) = wordAlignment b := by
  unfold U32 at hb
  have key : wordAlignment b = (max b 12 + 7) / 8 * 8 := by
    unfold wordAlignment MIN_SIZE U32
    simp only []
    split_ifs <;> omega
  have key2 : wordAlignment ((max b 12 + 7) / 8 * 8) = (max b 12 + 7) / 8 * 8 := by
    unfold wordAlignment MIN_SIZE U32
    simp only []
    split_ifs <;> omega
  refine ⟨rfl, ?_, ?_, ?_, ?_, ?_, ?_, ?_⟩
  · rw [key]; omega
  · rw [key]; unfold MIN_SIZE; omega
  · intro r hr hle; rw [key]; unfold MIN_SIZE at hle; omega
  · rw [key]; omega
  · rw [key]; omega
  · rw [key]; unfold MIN_SIZE; omega
  · rw [key, key2]

/-- The witness of `wordAlignment_least_multiple`: 13 bytes are aligned to 16. -/
theorem wordAlignment_least_multiple_witness :
    wordAlignment 13 = 16 ∧ wordAlignment (wordAlignment 13) = wordAlignment 13 :=
  ⟨by decide, (wordAlignment_least_multiple 13 (by decide)).2.2.2.2.2.2.2⟩

/-! ## Which block the search loop keeps -/

/-- The loop invariant of the search: no block seen so far fits, or `bf` is one
of them, every block seen before it either does not fit or is strictly larger,
and every block seen after it either does not fit or is at least as large. -/
theorem scanFit_best (m : Mem) (total : Nat) :
    ∀ (fuel : Nat) (pre suf : List Nat) (cur aux bf pb B P : Nat),
      FreeList m cur suf →
      ((bf = 0 ∧ ∀ x ∈ pre, nodeSize m x < total) ∨
        (bf ≠ 0 ∧ ∃ p1 p2, pre = p1 ++ bf :: p2 ∧
          (∀ x ∈ p1, nodeSize m x < total ∨ nodeSize m bf < nodeSize m x) ∧
          (∀ x ∈ p2, nodeSize m x < total ∨ nodeSize m bf ≤ nodeSize m x))) →
      scanFit m total fuel cur aux bf pb = some (B, P) →
      B = 0 ∨ ∃ p1 p2, pre ++ suf = p1 ++ B :: p2 ∧
        (∀ x ∈ p1, nodeSize m x < total ∨ nodeSize m B < nodeSize m x) := by
  intro fuel
  induction fuel with
  | zero => intro pre suf cur aux bf pb B P _ _ h; simp [scanFit] at h
  | succ f ih =>
    intro pre suf cur aux bf pb B P hl hinv h
    unfold scanFit at h
    by_cases hc : cur ≠ 0 ∧ nodeSize m cur ≠ total
    · rw [if_pos hc] at h
      cases suf with
      | nil => exact absurd hl hc.1
      | cons b rest =>
        obtain ⟨hcb, _, hrest⟩ := hl
        subst hcb
        have happ : (pre ++ [cur]) ++ rest = pre ++ cur :: rest := by simp
        by_cases hu : nodeSize m cur ≥ total ∧ (bf = 0 ∨ nodeSize m bf > nodeSize m cur)
        · rw [if_pos hu] at h
          have hinv1 : (cur = 0 ∧ ∀ x ∈ pre ++ [cur], nodeSize m x < total) ∨
              (cur ≠ 0 ∧ ∃ p1 p2, pre ++ [cur] = p1 ++ cur :: p2 ∧
                (∀ x ∈ p1, nodeSize m x < total ∨ nodeSize m cur < nodeSize m x) ∧
                (∀ x ∈ p2, nodeSize m x < total ∨ nodeSize m cur ≤ nodeSize m x)) := by
            refine Or.inr ⟨hc.1, pre, [], rfl, ?_, by simp⟩
            intro x hx
            rcases hinv with ⟨_, hall⟩ | ⟨hbf0, p1, p2, hpre, h1, h2⟩
            · exact Or.inl (hall x hx)
            · have hgt : nodeSize m bf > nodeSize m cur := by
                rcases hu.2 with h0 | hgt
                · exact absurd h0 hbf0
                · exact hgt
              rw [hpre] at hx
              rcases List.mem_append.1 hx with hx1 | hx2
              · rcases h1 x hx1 with h | h
                · exact Or.inl h
                · exact Or.inr (by omega)
              · rcases List.mem_cons.1 hx2 with rfl | hx3
                · exact Or.inr hgt
                · rcases h2 x hx3 with h | h
                  · exact Or.inl h
                  · exact Or.inr (by omega)
          have := ih (pre ++ [cur]) rest (nodeNext m cur) cur cur aux B P hrest hinv1 h
          rw [happ] at this; exact this
        · rw [if_neg hu] at h
          have hinv1 : (bf = 0 ∧ ∀ x ∈ pre ++ [cur], nodeSize m x < total) ∨
              (bf ≠ 0 ∧ ∃ p1 p2, pre ++ [cur] = p1 ++ bf :: p2 ∧
                (∀ x ∈ p1, nodeSize m x < total ∨ nodeSize m bf < nodeSize m x) ∧
                (∀ x ∈ p2, nodeSize m x < total ∨ nodeSize m bf ≤ nodeSize m x)) := by
            rcases hinv with ⟨hbf0, hall⟩ | ⟨hbf0, p1, p2, hpre, h1, h2⟩
            · refine Or.inl ⟨hbf0, ?_⟩
              intro x hx
              rcases List.mem_append.1 hx with hx1 | hx2
              · exact hall x hx1
              · have hxc : x = cur := by simpa using hx2
                subst hxc
                by_contra hn
                exact hu ⟨by omega, Or.inl hbf0⟩
            · refine Or.inr ⟨hbf0, p1, p2 ++ [cur], by rw [hpre]; simp, h1, ?_⟩
              intro x hx
              rcases List.mem_append.1 hx with hx1 | hx2
              · exact h2 x hx1
              · have hxc : x = cur := by simpa using hx2
                subst hxc
                by_contra hn
                push_neg at hn
                exact hu ⟨by omega, Or.inr (by omega)⟩
          have := ih (pre ++ [cur]) rest (nodeNext m cur) cur bf pb B P hrest hinv1 h
          rw [happ] at this; exact this
    · rw [if_neg hc] at h
      cases h
      rcases hinv with ⟨hbf0, _⟩ | ⟨_, p1, p2, hpre, h1, _⟩
      · exact Or.inl hbf0
      · exact Or.inr ⟨p1, p2 ++ suf, by rw [hpre]; simp, h1⟩

theorem takeBlock_ptr (s : Heap) (T B P : Nat) : (takeBlock s T B P).ptr = B + 4 := by
  unfold takeBlock
  split_ifs <;> rfl

theorem takeBlock_grown (s : Heap) (T B P : Nat) : (takeBlock s T B P).grown = none := by
  unfold takeBlock
  split_ifs <;> rfl

theorem growHeap_grown (sbrk : Nat → Nat) (s : Heap) (T : Nat) :
    (growHeap sbrk s T).grown = some T := by
  unfold growHeap
  simp only []
  split_ifs <;> rfl

/-- The block kept by the search loop is not `b` when a block `a` of the same,
sufficient size lies at a lower address in the list. -/
theorem scanFit_not_later_tie (m : Mem) (l : List Nat) (total fuel h a b B P : Nat)
    (hl : FreeList m h l) (hasc : Ascending m l) (ha : a ∈ l) (hb : b ∈ l) (hab : a < b)
    (hsz : nodeSize m a = nodeSize m b) (hfit : total ≤ nodeSize m a)
    (hs : scanFit m total fuel h h 0 0 = some (B, P)) : B ≠ b := by
  intro hBb
  subst hBb
  rcases scanFit_best m total fuel [] l h h 0 0 B P hl (Or.inl ⟨rfl, by simp⟩) hs with h0 | h1
  · -- `NULL` is not a block of the list
    subst h0
    have hne : ∀ (l : List Nat) (h : Nat), FreeList m h l → (0 : Nat) ∉ l := by
      intro l
      induction l with
      | nil => intro _ _; simp
      | cons c t ih =>
        intro h hl hmem
        rcases List.mem_cons.1 hmem with h0 | ht
        · exact hl.2.1 h0.symm
        · exact ih _ hl.2.2 ht
    exact hne l h hl hb
  · obtain ⟨p1, p2, hl12, h1⟩ := h1
    simp only [List.nil_append] at hl12
    subst hl12
    have hpw := ascending_pairwise m _ hasc
    rcases List.mem_append.1 ha with ha1 | ha2
    · rcases h1 a ha1 with h | h <;> omega
    · rcases List.mem_cons.1 ha2 with rfl | ha3
      · omega
      · have := (List.pairwise_cons.1 (List.pairwise_append.1 hpw).2.1).1 a ha3
        unfold Apart at this; omega

/-- C16: in a well-formed state, when two free-list blocks `a < b` have the same
size and that size is at least `total`, the search loop of `mymalloc` never ends
with `bestfit = b`, and no call that takes its block from the free list returns
`b + 4`. -/
theorem tie_break_keeps_lower_address (fuel : Nat) (sbrk : Nat → Nat) (s : Heap)
    (l : List Nat) (S a b : Nat) (hwf : WellFormed s l) (ha : a ∈ l) (hb : b ∈ l)
    (hab : a < b) (hsz : nodeSize s.mem a = nodeSize s.mem b)
    (hfit : totalSize S ≤ nodeSize s.mem a) :
    (∀ B P, scanFit s.mem (totalSize S) fuel s.list_start s.list_start 0 0 = some (B, P)
        → B ≠ b)
    ∧ ∀ r, mymalloc fuel sbrk s S = some r → r.grown = none → r.ptr ≠ b + 4 := by
  obtain ⟨hinit, _, hl, hasc, _⟩ := hwf
  have h1 : ∀ B P, scanFit s.mem (totalSize S) fuel s.list_start s.list_start 0 0
      = some (B, P) → B ≠ b :=
    fun B P hs => scanFit_not_later_tie s.mem l _ fuel _ a b B P hl hasc ha hb hab hsz hfit hs
  refine ⟨h1, ?_⟩
  intro r hr hg
  unfold mymalloc at hr
  rw [if_neg hinit] at hr
  by_cases hS : S = 0
  · simp only [if_pos hS] at hr
    cases hr
    show (0 : Nat) ≠ b + 4
    omega
  · simp only [if_neg hS] at hr
    unfold mallocReady at hr
    by_cases hls : s.list_start ≠ 0
    · simp only [if_pos hls] at hr
      cases hsc : scanFit s.mem (totalSize S) fuel s.list_start s.list_start 0 0 with
      | none => rw [hsc] at hr; cases hr
      | some bp =>
        obtain ⟨B, P⟩ := bp
        rw [hsc] at hr
        simp only [] at hr
        by_cases hB : B ≠ 0
        · rw [if_pos hB] at hr
          cases hr
          rw [takeBlock_ptr]
          have := h1 B P hsc
          omega
        · rw [if_neg hB] at hr
          cases hr
          rw [growHeap_grown] at hg
          cases hg
    · simp only [if_neg hls] at hr
      cases hr
      rw [growHeap_grown] at hg
      cases hg

/-- The witness of `tie_break_keeps_lower_address`: with two free blocks of 32
bytes at 4096 and 4144 and a request of 8 bytes the search ends on the block at
4096, not on the one at 4144. -/
theorem tie_break_keeps_lower_address_witness :
    scanFit tieHeap.mem (totalSize 8) 3 tieHeap.list_start tieHeap.list_start 0 0
      = some (4096, 4096) ∧ (4096 : Nat) ≠ 4144 :=
  ⟨by decide, (tie_break_keeps_lower_address 3 (fun _ => 4192) tieHeap [4096, 4144] 8 4096 4144
    (by decide) (by decide) (by decide) (by decide) (by decide) (by decide)).1 4096 4096
    (by decide)⟩

/-! ## Requests near `2 ^ 32` -/

/-- C13, on the code: in a fresh process `mymalloc (4294967295)` computes
`total_size = 16` and returns the non-null pointer 4100 to a block whose size
word is 16, far below `S + 8`. -/
theorem huge_request_gets_small_block :
    runHugeRequest = some (16, 4100, 16) := by
  decide

/-- C14, on the code: in a fresh process `mymalloc (4294967281)` computes
`total_size = 0` and returns the non-null pointer 4100 while
`heap_start = heap_end = 4096`: the pointer is not below `heap_end`. -/
theorem zero_block_lies_outside_heap :
    runZeroBlock = some (0, 4100, 4096, 4096) := by
  decide

/-! ## Runs of `myfree` -/

/-- C17, on the code: two adjacent blocks of `2 ^ 31` bytes at 4096 and
`4096 + 2 ^ 31` are freed one after the other. Both calls return 0; after the
first the list holds the block at 4096 with size `2 ^ 31`, after the second it
holds one block at 4096 whose size word is 0, not the sum `2 ^ 32`. The state
in which the second call is made is well-formed and the block freed is
allocated in it, with intact tags. -/
theorem merged_size_wraps :
    runMergeWrap = some (2147483648, 4100, 2147487748, 0, 0, [(4096, 2147483648)],
      [(4096, 0)])
    ∧ runMergeWrapBefore.map (fun w => decide (WellFormed w.heap [4096]
        ∧ Allocated w.heap [4096] 2147487744)) = some true := by
  exact ⟨rfl, by decide⟩

/-- C19, on the code: after `p = mymalloc (40)`, `myfree (p)`, `q = mymalloc (8)`
in a fresh process the managed region is `[4096, 4144)`, 48 bytes; the only
allocated block is the one of 16 bytes at `q - 4 = 4096` and the free list is
empty: the 32 bytes from 4112 on belong to neither. -/
theorem head_split_leaks_memory :
    runLeak = some (4100, 0, 4100, 16, [], 4096, 4144) := by
  rfl

/-! ## The trailing word of a free block -/

/-- C18, as stated, fails: the trailing word of a free block differs from its
size (i) for a freed block of 16 bytes, where it is 0, the upper half of the
`next` link, (ii) for the block of 64 bytes that coalescing two blocks of 32
bytes gives, where it is still 32, (iii) for the remainder of 32 bytes of a
split block of 48 bytes, where it is still 48. The leading word is the size
each time. -/
theorem free_block_trailer_is_stale :
    runOneFree.map (fun w => (w.freeBlocks, readU32 w.heap.mem (4096 + 16 - 4)))
      = some ([(4096, 16)], 0)
    ∧ runCoalesce.map (fun w => (w.freeBlocks, readU32 w.heap.mem (4096 + 64 - 4)))
      = some ([(4096, 64)], 32)
    ∧ runInnerSplit.bind (fun w => (w.malloc 4 8).map fun r =>
          (r.1.freeBlocks, readU32 r.1.heap.mem (4192 + 32 - 4)))
      = some ([(4096, 64), (4192, 32)], 48) := by
  decide

/-! ## The mutex discipline -/

/-- C20, on the code: the call `mymalloc (16)` that hands out the free block at
4128 whole locks the mutex, reads the flag and the list (lines 112 to 145),
unlinks the block (line 147), unlocks (line 148) and only then evaluates
`allocate (bestfit->size, bestfit)` (line 149): the read of the size and the two
tag stores are made after the release. -/
theorem tags_written_after_unlock :
    mymallocEvents 4 (fun _ => 4216) demoHeap 16
      = some [.lock, .access 112, .access 124, .access 131, .access 145, .access 147,
          .unlock, .access 149]
    ∧ (mymallocEvents 4 (fun _ => 4216) demoHeap 16).map disciplined = some false := by
  decide

/-! ## What `insertList` writes -/

theorem writePtr_outside (m : Mem) (a p x : Nat) (h : x < a ∨ a + 8 ≤ x) :
    writePtr m a p x = m x := by
  unfold writePtr
  rw [writeU32_outside _ _ _ _ (by omega), writeU32_outside _ _ _ _ (by omega)]

theorem writeNode_outside (m : Mem) (n size next x : Nat) (h : ¬ NodeHead n x) :
    writeNode m n size next x = m x := by
  unfold NodeHead at h
  unfold writeNode
  rw [writePtr_outside _ _ _ _ (by omega), writeU32_outside _ _ _ _ (by omega)]

theorem mergeBlocks_outside (m : Mem) (b1 b2 x : Nat) (h : ¬ NodeHead b1 x) :
    mergeBlocks m b1 b2 x = m x := by
  unfold NodeHead at h
  unfold mergeBlocks
  rw [writePtr_outside _ _ _ _ (by omega), writeU32_outside _ _ _ _ (by omega)]

theorem insertList_outside (s : Heap) (size offset prev x : Nat)
    (h1 : ¬ NodeHead offset x) (h2 : ¬ NodeHead prev x) :
    (insertList s size offset prev).mem x = s.mem x := by
  have hp : ∀ m : Mem, ∀ p, writePtr m (prev + 8) p x = m x := by
    intro m p
    unfold NodeHead at h2
    exact writePtr_outside _ _ _ _ (by omega)
  unfold insertList
  simp only []
  split_ifs
  all_goals
    dsimp only
    simp only [mergeBlocks_outside _ _ _ _ h1, mergeBlocks_outside _ _ _ _ h2, hp,
      writeNode_outside _ _ _ _ _ h1]

/-! ## Fields of a node after a store -/

theorem readU32_congr (m m1 : Mem) (a : Nat) (h : ∀ y, a ≤ y → y < a + 4 → m1 y = m y) :
    readU32 m1 a = readU32 m a := by
  unfold readU32
  rw [h a (by omega) (by omega), h (a + 1) (by omega) (by omega),
    h (a + 2) (by omega) (by omega), h (a + 3) (by omega) (by omega)]

theorem readPtr_congr (m m1 : Mem) (a : Nat) (h : ∀ y, a ≤ y → y < a + 8 → m1 y = m y) :
    readPtr m1 a = readPtr m a := by
  unfold readPtr
  rw [readU32_congr m m1 a (fun y h1 h2 => h y h1 (by omega)),
    readU32_congr m m1 (a + 4) (fun y h1 h2 => h y (by omega) (by omega))]

theorem nodeSize_writeNode_same (m : Mem) (n sz nx : Nat) :
    nodeSize (writeNode m n sz nx) n = sz % U32 := by
  unfold nodeSize writeNode
  rw [readU32_writePtr_disj _ _ _ _ (by omega), readU32_writeU32_same]

theorem nodeNext_writeNode_same (m : Mem) (n sz nx : Nat) (h : nx < PTR) :
    nodeNext (writeNode m n sz nx) n = nx := by
  unfold nodeNext writeNode
  exact readPtr_writePtr_same _ _ _ h

theorem nodeSize_writeNode_other (m : Mem) (n sz nx x : Nat) (h : x + 4 ≤ n ∨ n + 16 ≤ x) :
    nodeSize (writeNode m n sz nx) x = nodeSize m x := by
  unfold nodeSize writeNode
  rw [readU32_writePtr_disj _ _ _ _ (by omega), readU32_writeU32_disj _ _ _ _ (by omega)]

theorem nodeNext_writeNode_other (m : Mem) (n sz nx x : Nat) (h : x + 16 ≤ n ∨ n + 16 ≤ x) :
    nodeNext (writeNode m n sz nx) x = nodeNext m x := by
  unfold nodeNext writeNode
  rw [readPtr_writePtr_disj _ _ _ _ (by omega), readPtr_writeU32_disj _ _ _ _ (by omega)]

theorem nodeSize_setNext (m : Mem) (p v x : Nat) (h : x + 4 ≤ p + 8 ∨ p + 16 ≤ x) :
    nodeSize (writePtr m (p + 8) v) x = nodeSize m x := by
  unfold nodeSize
  exact readU32_writePtr_disj _ _ _ _ (by omega)

theorem nodeNext_setNext_same (m : Mem) (p v : Nat) (h : v < PTR) :
    nodeNext (writePtr m (p + 8) v) p = v := by
  unfold nodeNext
  exact readPtr_writePtr_same _ _ _ h

theorem nodeNext_setNext_other (m : Mem) (p v x : Nat) (h : x + 8 ≤ p ∨ p + 8 ≤ x) :
    nodeNext (writePtr m (p + 8) v) x = nodeNext m x := by
  unfold nodeNext
  exact readPtr_writePtr_disj _ _ _ _ (by omega)

theorem nodeSize_mergeBlocks_same (m : Mem) (b1 b2 : Nat) :
    nodeSize (mergeBlocks m b1 b2) b1 = (nodeSize m b1 + nodeSize m b2) % U32 := by
  show nodeSize (writePtr (writeU32 m b1 ((nodeSize m b1 + nodeSize m b2) % U32)) (b1 + 8)
    (nodeNext (writeU32 m b1 ((nodeSize m b1 + nodeSize m b2) % U32)) b2)) b1 = _
  rw [nodeSize_setNext _ _ _ _ (by omega)]
  show readU32 (writeU32 m b1 _) b1 = _
  rw [readU32_writeU32_same, Nat.mod_mod]

theorem nodeNext_mergeBlocks_same (m : Mem) (b1 b2 : Nat) (h : b2 + 16 ≤ b1 ∨ b1 + 4 ≤ b2 + 8) :
    nodeNext (mergeBlocks m b1 b2) b1 = nodeNext m b2 := by
  show nodeNext (writePtr (writeU32 m b1 ((nodeSize m b1 + nodeSize m b2) % U32)) (b1 + 8)
    (nodeNext (writeU32 m b1 ((nodeSize m b1 + nodeSize m b2) % U32)) b2)) b1 = _
  rw [nodeNext_setNext_same _ _ (nodeNext (writeU32 m b1 ((nodeSize m b1 + nodeSize m b2) % U32)) b2)
    (readPtr_lt _ _)]
  unfold nodeNext
  exact readPtr_writeU32_disj _ _ _ _ (by omega)

theorem nodeSize_mergeBlocks_other (m : Mem) (b1 b2 x : Nat) (h : x + 4 ≤ b1 ∨ b1 + 16 ≤ x) :
    nodeSize (mergeBlocks m b1 b2) x = nodeSize m x := by
  unfold nodeSize
  apply readU32_congr
  intro y h1 h2
  exact mergeBlocks_outside _ _ _ _ (by unfold NodeHead; omega)

theorem nodeNext_mergeBlocks_other (m : Mem) (b1 b2 x : Nat) (h : x + 16 ≤ b1 ∨ b1 + 16 ≤ x) :
    nodeNext (mergeBlocks m b1 b2) x = nodeNext m x := by
  unfold nodeNext
  apply readPtr_congr
  intro y h1 h2
  exact mergeBlocks_outside _ _ _ _ (by unfold NodeHead; omega)

/-! ## Cutting and splicing free lists -/

theorem freeList_after (m : Mem) (p : Nat) (rest : List Nat) :
    ∀ (l1 : List Nat) (h : Nat), FreeList m h (l1 ++ p :: rest) →
      FreeList m (nodeNext m p) rest ∧ p ≠ 0
  | [], _, hl => ⟨hl.2.2, hl.2.1⟩
  | _ :: l1, _, hl => freeList_after m p rest l1 _ hl.2.2

theorem freeList_splice (m m1 : Mem) (p : Nat) (old new : List Nat) :
    ∀ (l1 : List Nat) (h : Nat), FreeList m h (l1 ++ p :: old) →
      (∀ x ∈ l1, nodeNext m1 x = nodeNext m x) → FreeList m1 (nodeNext m1 p) new →
      FreeList m1 h (l1 ++ p :: new)
  | [], _, hl, _, hn => ⟨hl.1, hl.2.1, hn⟩
  | a :: l1, _, hl, h1, hn => by
    refine ⟨hl.1, hl.2.1, ?_⟩
    rw [h1 a (List.mem_cons_self _ _)]
    exact freeList_splice m m1 p old new l1 _ hl.2.2
      (fun c hc => h1 c (List.mem_cons_of_mem _ hc)) hn

theorem freeList_nonzero (m : Mem) : ∀ (l : List Nat) (h : Nat), FreeList m h l → ∀ x ∈ l, x ≠ 0
  | [], _, _, _, hx => by cases hx
  | a :: l, _, hl, x, hx => by
    rcases List.mem_cons.1 hx with rfl | ht
    · exact hl.2.1
    · exact freeList_nonzero m l _ hl.2.2 x ht

/-- The loop of `myfree` stops on the last block below `ptr`. -/
theorem findPrev_spec (m : Mem) (ptr p : Nat) (l2 : List Nat) (h2 : ∀ x ∈ l2, ptr ≤ x) :
    ∀ (l1 : List Nat) (h fuel : Nat), FreeList m h (l1 ++ p :: l2) →
      (∀ x ∈ l1, x < ptr) → p < ptr → l1.length < fuel → findPrev m ptr fuel h = some p := by
  intro l1
  induction l1 with
  | nil =>
    intro h fuel hl _ _ hlen
    obtain ⟨f, rfl⟩ : ∃ f, fuel = f + 1 := ⟨fuel - 1, by simp at hlen; omega⟩
    obtain ⟨hh, _, hrest⟩ := hl
    subst hh
    unfold findPrev
    rw [if_neg]
    rintro ⟨hn0, hlt⟩
    cases l2 with
    | nil => exact hn0 hrest
    | cons q t =>
      have hq : nodeNext m h = q := hrest.1
      have := h2 q (List.mem_cons_self _ _)
      omega
  | cons a t ih =>
    intro h fuel hl h1 hp hlen
    obtain ⟨f, rfl⟩ : ∃ f, fuel = f + 1 := ⟨fuel - 1, by simp at hlen; omega⟩
    obtain ⟨hh, _, hrest⟩ := hl
    subst hh
    unfold findPrev
    have hnext : nodeNext m h ≠ 0 ∧ nodeNext m h < ptr := by
      cases t with
      | nil =>
        have : nodeNext m h = p := hrest.1
        rw [this]; exact ⟨hrest.2.1, hp⟩
      | cons c t2 =>
        have : nodeNext m h = c := hrest.1
        rw [this]
        exact ⟨hrest.2.1, h1 c (by simp)⟩
    rw [if_pos hnext]
    exact ih _ f hrest (fun x hx => h1 x (List.mem_cons_of_mem _ hx)) hp
      (by simp at hlen; omega)

/-- A block that overlaps no free block cuts the ascending list in two. -/
theorem split_around (m : Mem) (b sz : Nat) :
    ∀ l : List Nat, Ascending m l → (∀ x ∈ l, x + nodeSize m x ≤ b ∨ b + sz ≤ x) →
      ∃ l1 l2, l = l1 ++ l2 ∧ (∀ x ∈ l1, x + nodeSize m x ≤ b) ∧ (∀ x ∈ l2, b + sz ≤ x) := by
  intro l
  induction l with
  | nil => intro _ _; exact ⟨[], [], rfl, by simp, by simp⟩
  | cons a t ih =>
    intro hasc hdis
    have hpw := ascending_pairwise m _ hasc
    have hasc_t : Ascending m t := pairwise_ascending m t (List.pairwise_cons.1 hpw).2
    rcases hdis a (List.mem_cons_self _ _) with ha | ha
    · obtain ⟨l1, l2, h12, h1, h2⟩ := ih hasc_t (fun x hx => hdis x (List.mem_cons_of_mem _ hx))
      refine ⟨a :: l1, l2, by rw [h12]; rfl, ?_, h2⟩
      intro x hx
      rcases List.mem_cons.1 hx with rfl | hx1
      · exact ha
      · exact h1 x hx1
    · refine ⟨[], a :: t, rfl, by simp, ?_⟩
      intro x hx
      rcases List.mem_cons.1 hx with rfl | hx1
      · exact ha
      · have := (List.pairwise_cons.1 hpw).1 x hx1
        unfold Apart at this; omega

/-! ## The memory `insertList` leaves -/

theorem insertList_after (s : Heap) (sz b p : Nat)
    (hcond : ¬ (p = s.list_start ∧ (p = 0 ∨ b < p))) :
    insertList s sz b p = { s with mem :=
      (if (wordOff p (nodeSize (linkAfter s.mem sz b p) p / 4) = b) then
        (if (wordOff p (nodeSize (mergeBlocks (linkAfter s.mem sz b p) p b) p / 4)
            = nodeNext (mergeBlocks (linkAfter s.mem sz b p) p b) p) then
          mergeBlocks (mergeBlocks (linkAfter s.mem sz b p) p b) p
            (nodeNext (mergeBlocks (linkAfter s.mem sz b p) p b) p)
        else mergeBlocks (linkAfter s.mem sz b p) p b)
      else
        (if (wordOff b (nodeSize (linkAfter s.mem sz b p) b / 4)
            = nodeNext (linkAfter s.mem sz b p) b) then
          mergeBlocks (linkAfter s.mem sz b p) b (nodeNext (linkAfter s.mem sz b p) b)
        else linkAfter s.mem sz b p)) } := by
  unfold insertList linkAfter
  rw [if_neg hcond]
  by_cases hL : wordOff p
      (nodeSize (writePtr (writeNode s.mem b sz (nodeNext s.mem p)) (p + 8) b) p / 4) = b
  · simp only [hL, decide_True, if_true]
  · simp only [hL, decide_False, if_false, Bool.false_eq_true]

theorem insertList_front (s : Heap) (sz b : Nat)
    (hcond : s.list_start = 0 ∨ b < s.list_start) :
    insertList s sz b s.list_start = { s with
      mem :=
        (if (s.list_start ≠ 0
            ∧ wordOff b (nodeSize (writeNode s.mem b sz s.list_start) b / 4) = s.list_start) then
          mergeBlocks (writeNode s.mem b sz s.list_start) b s.list_start
        else writeNode s.mem b sz s.list_start),
      list_start := b } := by
  unfold insertList
  rw [if_pos ⟨rfl, hcond⟩]

/-- The fields of `prev` and of the new node after lines 70-72. -/
theorem linkAfter_fields (m : Mem) (sz b p : Nat) (hpb : p + 16 ≤ b) (hb : b < PTR)
    (hsz : sz < U32) :
    nodeSize (linkAfter m sz b p) p = nodeSize m p
    ∧ nodeNext (linkAfter m sz b p) p = b
    ∧ nodeSize (linkAfter m sz b p) b = sz
    ∧ nodeNext (linkAfter m sz b p) b = nodeNext m p := by
  unfold linkAfter
  refine ⟨?_, ?_, ?_, ?_⟩
  · rw [nodeSize_setNext _ _ _ _ (by omega), nodeSize_writeNode_other _ _ _ _ _ (by omega)]
  · exact nodeNext_setNext_same _ _ _ hb
  · rw [nodeSize_setNext _ _ _ _ (by omega), nodeSize_writeNode_same, Nat.mod_eq_of_lt hsz]
  · rw [nodeNext_setNext_other _ _ _ _ (by omega)]
    exact nodeNext_writeNode_same _ _ _ _ (readPtr_lt _ _)

theorem linkAfter_other (m : Mem) (sz b p x : Nat) (hxb : x + 16 ≤ b ∨ b + 16 ≤ x)
    (hxp : x + 16 ≤ p ∨ p + 16 ≤ x) :
    nodeSize (linkAfter m sz b p) x = nodeSize m x
    ∧ nodeNext (linkAfter m sz b p) x = nodeNext m x := by
  unfold linkAfter
  constructor
  · rw [nodeSize_setNext _ _ _ _ (by omega), nodeSize_writeNode_other _ _ _ _ _ (by omega)]
  · rw [nodeNext_setNext_other _ _ _ _ (by omega), nodeNext_writeNode_other _ _ _ _ _ (by omega)]

/-- The fields of `prev = p` and of the inserted block `b` after `insertList`
on its general path, in the four cases of coalescing: `b` starts where `p` ends
or not, the successor of `p` starts where `b` ends or not. -/
theorem insertList_after_fields (s : Heap) (sz b p : Nat)
    (hp0 : p ≠ 0) (hsp : 16 ≤ nodeSize s.mem p) (hsp4 : nodeSize s.mem p % 4 = 0)
    (hpb : p + nodeSize s.mem p ≤ b) (hsz : 16 ≤ sz) (hsz4 : sz % 4 = 0)
    (hbP : b + sz < PTR)
    (hw1 : nodeSize s.mem p + sz < U32)
    (hw2 : b + sz = nodeNext s.mem p → nodeSize s.mem p + sz + nodeSize s.mem (b + sz) < U32) :
    (insertList s sz b p).list_start = s.list_start ∧
    (p + nodeSize s.mem p = b → b + sz = nodeNext s.mem p →
      nodeSize (insertList s sz b p).mem p
          = nodeSize s.mem p + sz + nodeSize s.mem (b + sz)
        ∧ nodeNext (insertList s sz b p).mem p = nodeNext s.mem (b + sz)) ∧
    (p + nodeSize s.mem p = b → b + sz ≠ nodeNext s.mem p →
      nodeSize (insertList s sz b p).mem p = nodeSize s.mem p + sz
        ∧ nodeNext (insertList s sz b p).mem p = nodeNext s.mem p) ∧
    (p + nodeSize s.mem p ≠ b → b + sz = nodeNext s.mem p →
      nodeSize (insertList s sz b p).mem p = nodeSize s.mem p
        ∧ nodeNext (insertList s sz b p).mem p = b
        ∧ nodeSize (insertList s sz b p).mem b = sz + nodeSize s.mem (b + sz)
        ∧ nodeNext (insertList s sz b p).mem b = nodeNext s.mem (b + sz)) ∧
    (p + nodeSize s.mem p ≠ b → b + sz ≠ nodeNext s.mem p →
      nodeSize (insertList s sz b p).mem p = nodeSize s.mem p
        ∧ nodeNext (insertList s sz b p).mem p = b
        ∧ nodeSize (insertList s sz b p).mem b = sz
        ∧ nodeNext (insertList s sz b p).mem b = nodeNext s.mem p) := by
  have hcond : ¬ (p = s.list_start ∧ (p = 0 ∨ b < p)) := by
    rintro ⟨_, h | h⟩
    · exact hp0 h
    · omega
  obtain ⟨f1, f2, f3, f4⟩ := linkAfter_fields s.mem sz b p (by omega) (by omega) (by omega)
  have hq := linkAfter_other s.mem sz b p (b + sz) (by omega) (by omega)
  have hcL : wordOff p (nodeSize (linkAfter s.mem sz b p) p / 4) = b
      ↔ p + nodeSize s.mem p = b := by
    rw [f1]; unfold wordOff; constructor <;> intro h <;> omega
  have hcR : wordOff b (nodeSize (linkAfter s.mem sz b p) b / 4)
        = nodeNext (linkAfter s.mem sz b p) b
      ↔ b + sz = nodeNext s.mem p := by
    rw [f3, f4]; unfold wordOff; constructor <;> intro h <;> omega
  -- after merging `b` into `p`
  have g1 : nodeSize (mergeBlocks (linkAfter s.mem sz b p) p b) p = nodeSize s.mem p + sz := by
    rw [nodeSize_mergeBlocks_same, f1, f3, Nat.mod_eq_of_lt hw1]
  have g2 : nodeNext (mergeBlocks (linkAfter s.mem sz b p) p b) p = nodeNext s.mem p := by
    rw [nodeNext_mergeBlocks_same _ _ _ (by omega), f4]
  have hcR2 : p + nodeSize s.mem p = b →
      (wordOff p (nodeSize (mergeBlocks (linkAfter s.mem sz b p) p b) p / 4)
        = nodeNext (mergeBlocks (linkAfter s.mem sz b p) p b) p
      ↔ b + sz = nodeNext s.mem p) := by
    intro hL
    rw [g1, g2]; unfold wordOff; constructor <;> intro h <;> omega
  rw [insertList_after s sz b p hcond]
  refine ⟨rfl, ?_, ?_, ?_, ?_⟩
  · intro hL hR
    dsimp only
    rw [if_pos (hcL.2 hL), if_pos ((hcR2 hL).2 hR), g2, ← hR]
    constructor
    · have hw3 := hw2 hR
      rw [nodeSize_mergeBlocks_same, g1, nodeSize_mergeBlocks_other _ _ _ _ (by omega), hq.1,
        Nat.mod_eq_of_lt hw3]
    · rw [nodeNext_mergeBlocks_same _ _ _ (by omega),
        nodeNext_mergeBlocks_other _ _ _ _ (by omega), hq.2]
  · intro hL hR
    dsimp only
    rw [if_pos (hcL.2 hL), if_neg (fun h => hR ((hcR2 hL).1 h))]
    exact ⟨g1, g2⟩
  · intro hL hR
    dsimp only
    rw [if_neg (fun h => hL (hcL.1 h)), if_pos (hcR.2 hR), f4, ← hR]
    refine ⟨?_, ?_, ?_, ?_⟩
    · rw [nodeSize_mergeBlocks_other _ _ _ _ (by omega), f1]
    · rw [nodeNext_mergeBlocks_other _ _ _ _ (by omega), f2]
    · have hw3 := hw2 hR
      rw [nodeSize_mergeBlocks_same, f3, hq.1, Nat.mod_eq_of_lt (by omega)]
    · rw [nodeNext_mergeBlocks_same _ _ _ (by omega), hq.2]
  · intro hL hR
    dsimp only
    rw [if_neg (fun h => hL (hcL.1 h)), if_neg (fun h => hR (hcR.1 h))]
    exact ⟨f1, f2, f3, f4⟩

/-- Nodes at least 16 bytes away from `b` and from `p` keep their fields. -/
theorem insertList_other (s : Heap) (sz b p x : Nat) (hxb : x + 16 ≤ b ∨ b + 16 ≤ x)
    (hxp : x + 16 ≤ p ∨ p + 16 ≤ x) :
    nodeSize (insertList s sz b p).mem x = nodeSize s.mem x
    ∧ nodeNext (insertList s sz b p).mem x = nodeNext s.mem x := by
  constructor
  · unfold nodeSize
    apply readU32_congr
    intro y h1 h2
    exact insertList_outside s sz b p y (by unfold NodeHead; omega) (by unfold NodeHead; omega)
  · unfold nodeNext
    apply readPtr_congr
    intro y h1 h2
    exact insertList_outside s sz b p y (by unfold NodeHead; omega) (by unfold NodeHead; omega)

/-- The fields of the inserted block `b` after `insertList` on its first path
(empty list, or `b` below the head), with and without coalescing. -/
theorem insertList_front_fields (s : Heap) (sz b : Nat)
    (hcond : s.list_start = 0 ∨ b < s.list_start) (hh : s.list_start < PTR)
    (hsz : 16 ≤ sz) (hsz4 : sz % 4 = 0) (hszU : sz < U32)
    (hw : b + sz = s.list_start → sz + nodeSize s.mem (b + sz) < U32) :
    (insertList s sz b s.list_start).list_start = b ∧
    (b + sz = s.list_start →
      nodeSize (insertList s sz b s.list_start).mem b = sz + nodeSize s.mem (b + sz)
        ∧ nodeNext (insertList s sz b s.list_start).mem b = nodeNext s.mem (b + sz)) ∧
    (b + sz ≠ s.list_start →
      nodeSize (insertList s sz b s.list_start).mem b = sz
        ∧ nodeNext (insertList s sz b s.list_start).mem b = s.list_start) ∧
    (∀ x, x + 16 ≤ b ∨ b + 16 ≤ x →
      nodeSize (insertList s sz b s.list_start).mem x = nodeSize s.mem x
        ∧ nodeNext (insertList s sz b s.list_start).mem x = nodeNext s.mem x) := by
  have f1 : nodeSize (writeNode s.mem b sz s.list_start) b = sz := by
    rw [nodeSize_writeNode_same, Nat.mod_eq_of_lt (by omega)]
  have f2 : nodeNext (writeNode s.mem b sz s.list_start) b = s.list_start :=
    nodeNext_writeNode_same _ _ _ _ hh
  have hc : (s.list_start ≠ 0
      ∧ wordOff b (nodeSize (writeNode s.mem b sz s.list_start) b / 4) = s.list_start)
      ↔ b + sz = s.list_start := by
    rw [f1]; unfold wordOff
    constructor
    · rintro ⟨_, h⟩; omega
    · intro h; constructor <;> omega
  rw [insertList_front s sz b hcond]
  refine ⟨rfl, ?_, ?_, ?_⟩
  · intro hR
    dsimp only
    rw [if_pos (hc.2 hR), ← hR]
    constructor
    · have e1 : nodeSize (writeNode s.mem b sz (b + sz)) b = sz := by
        rw [nodeSize_writeNode_same, Nat.mod_eq_of_lt (by omega)]
      have e2 : nodeSize (writeNode s.mem b sz (b + sz)) (b + sz) = nodeSize s.mem (b + sz) :=
        nodeSize_writeNode_other _ _ _ _ _ (by omega)
      rw [nodeSize_mergeBlocks_same, e1, e2, Nat.mod_eq_of_lt (hw hR)]
    · rw [nodeNext_mergeBlocks_same _ _ _ (by omega),
        nodeNext_writeNode_other _ _ _ _ _ (by omega)]
  · intro hR
    dsimp only
    rw [if_neg (fun h => hR (hc.1 h))]
    exact ⟨f1, f2⟩
  · intro x hx
    dsimp only
    split_ifs
    · rw [nodeSize_mergeBlocks_other _ _ _ _ (by omega),
        nodeNext_mergeBlocks_other _ _ _ _ (by omega),
        nodeSize_writeNode_other _ _ _ _ _ (by omega),
        nodeNext_writeNode_other _ _ _ _ _ (by omega)]
      exact ⟨rfl, rfl⟩
    · rw [nodeSize_writeNode_other _ _ _ _ _ (by omega),
        nodeNext_writeNode_other _ _ _ _ _ (by omega)]
      exact ⟨rfl, rfl⟩

/-- The new list is ascending: the blocks of `A` and `Bt` kept their sizes and
the block `c`, of size `csz`, lies strictly between them. -/
theorem ascending_insert (m M : Mem) (A Bt : List Nat) (c csz : Nat)
    (hA : A.Pairwise (Apart m)) (hB : Bt.Pairwise (Apart m))
    (hsame : ∀ x ∈ A ++ Bt, nodeSize M x = nodeSize m x) (hc : nodeSize M c = csz)
    (hlo : ∀ x ∈ A, x + nodeSize m x < c) (hhi : ∀ y ∈ Bt, c + csz < y) :
    Ascending M (A ++ c :: Bt) := by
  apply pairwise_ascending
  have hA' : A.Pairwise (Apart M) := by
    refine hA.imp_of_mem ?_
    intro x y hx _ hxy
    unfold Apart at *
    rw [hsame x (List.mem_append_left _ hx)]; exact hxy
  have hB' : Bt.Pairwise (Apart M) := by
    refine hB.imp_of_mem ?_
    intro x y hx _ hxy
    unfold Apart at *
    rw [hsame x (List.mem_append_right _ hx)]; exact hxy
  refine List.pairwise_append.2 ⟨hA', List.pairwise_cons.2 ⟨?_, hB'⟩, ?_⟩
  · intro y hy
    unfold Apart; rw [hc]; exact hhi y hy
  · intro x hx y hy
    unfold Apart
    rw [hsame x (List.mem_append_left _ hx)]
    rcases List.mem_cons.1 hy with rfl | hy1
    · exact hlo x hx
    · have h1 := hlo x hx
      have h2 := hhi y hy1
      omega

/-! ## The free list after `myfree` -/

/-- The state after an insertion is well-formed: the blocks of `A` and `Bt` are
old blocks that kept their sizes, the block `c` lies strictly between them, and
the links run through `A`, `c` and `Bt`. -/
theorem wellFormed_insert (s s1 : Heap) (l A Bt : List Nat) (c csz : Nat)
    (hwf : WellFormed s l) (hi : s1.initialized = s.initialized)
    (hs : s1.heap_start = s.heap_start) (he : s1.heap_end = s.heap_end)
    (hsub : ∀ x ∈ A ++ Bt, x ∈ l)
    (hA : A.Pairwise (Apart s.mem)) (hB : Bt.Pairwise (Apart s.mem))
    (hsame : ∀ x ∈ A ++ Bt, nodeSize s1.mem x = nodeSize s.mem x)
    (hc : nodeSize s1.mem c = csz)
    (hc1 : s.heap_start ≤ c) (hc2 : c + csz ≤ s.heap_end) (hc3 : 16 ≤ csz) (hc4 : csz % 8 = 0)
    (hlo : ∀ x ∈ A, x + nodeSize s.mem x < c) (hhi : ∀ y ∈ Bt, c + csz < y)
    (hfl : FreeList s1.mem s1.list_start (A ++ c :: Bt)) :
    WellFormed s1 (A ++ c :: Bt) := by
  obtain ⟨hinit, hend, _, _, hblk⟩ := hwf
  refine ⟨by rw [hi]; exact hinit, by rw [he]; exact hend, hfl,
    ascending_insert s.mem s1.mem A Bt c csz hA hB hsame hc hlo hhi, ?_⟩
  intro x hx
  rw [hs, he]
  rcases List.mem_append.1 hx with hxA | hxc
  · rw [hsame x (List.mem_append_left _ hxA)]
    exact hblk x (hsub x (List.mem_append_left _ hxA))
  · rcases List.mem_cons.1 hxc with rfl | hxB
    · rw [hc]; exact ⟨hc1, hc2, hc3, hc4⟩
    · rw [hsame x (List.mem_append_right _ hxB)]
      exact hblk x (hsub x (List.mem_append_right _ hxB))

/-- The general path of `insertList`: the block `b` of `sz` bytes goes after `p`,
the last free block below it, and is coalesced with `p` and with the successor
of `p` when they touch it. -/
theorem insert_after_spec (s : Heap) (l1 l2 : List Nat) (p b sz : Nat)
    (hwf : WellFormed s (l1 ++ p :: l2)) (hb0 : b ≠ 0) (hsz16 : 16 ≤ sz)
    (hsz8 : sz % 8 = 0) (hlo : s.heap_start ≤ b) (hhi : b + sz ≤ s.heap_end)
    (hp : p + nodeSize s.mem p ≤ b) (h2 : ∀ y ∈ l2, b + sz ≤ y)
    (hsmall : s.heap_end < s.heap_start + U32) :
    ∃ A Bt c left right,
      WellFormed (insertList s (sz) b p) (A ++ c :: Bt) ∧
      (∀ x ∈ A ++ Bt, nodeSize (insertList s (sz) b p).mem x = nodeSize s.mem x) ∧
      nodeSize (insertList s (sz) b p).mem c = left + sz + right ∧
      ((A = l1 ++ [p] ∧ c = b ∧ left = 0 ∧ ∀ x ∈ l1 ++ p :: l2, x + nodeSize s.mem x ≠ b)
        ∨ (l1 ++ [p] = A ++ [c] ∧ c + nodeSize s.mem c = b ∧ left = nodeSize s.mem c)) ∧
      ((Bt = l2 ∧ right = 0 ∧ b + sz ∉ l1 ++ p :: l2)
        ∨ (l2 = (b + sz) :: Bt
          ∧ right = nodeSize s.mem (b + sz))) := by
  have hwf0 := hwf
  obtain ⟨hinit, hend, hl, hasc, hblk⟩ := hwf
  have hpw := ascending_pairwise s.mem _ hasc
  obtain ⟨hpw1, hpw2, hcross⟩ := List.pairwise_append.1 hpw
  obtain ⟨hpl2, hpwl2⟩ := List.pairwise_cons.1 hpw2
  have hpmem : p ∈ l1 ++ p :: l2 := by simp
  obtain ⟨hp1, hp2, hp3, hp4⟩ := hblk p hpmem
  obtain ⟨hnx, hp0⟩ := freeList_after s.mem p l2 l1 _ hl
  have hszU : sz < U32 := by omega
  -- distances
  have hfarA : ∀ x ∈ l1, x + 16 ≤ p ∧ x + 16 ≤ b ∧ x + nodeSize s.mem x < p := by
    intro x hx
    have h16 := (hblk x (by simp [hx])).2.2.1
    have := hcross x hx p (List.mem_cons_self _ _)
    unfold Apart at this
    exact ⟨by omega, by omega, this⟩
  have hfarB : ∀ y ∈ l2, b + 16 ≤ y ∧ p + 16 ≤ y := by
    intro y hy
    have := h2 y hy
    exact ⟨by omega, by omega⟩
  have hsameA : ∀ x ∈ l1, nodeSize (insertList s (sz) b p).mem x = nodeSize s.mem x
      ∧ nodeNext (insertList s (sz) b p).mem x = nodeNext s.mem x := by
    intro x hx
    obtain ⟨a1, a2, _⟩ := hfarA x hx
    exact insertList_other s _ b p x (Or.inl a2) (Or.inl a1)
  have hsameB : ∀ y ∈ l2, nodeSize (insertList s (sz) b p).mem y = nodeSize s.mem y
      ∧ nodeNext (insertList s (sz) b p).mem y = nodeNext s.mem y := by
    intro y hy
    obtain ⟨a1, a2⟩ := hfarB y hy
    exact insertList_other s _ b p y (Or.inr a1) (Or.inr a2)
  -- the successor of `p`
  have hsucc : b + sz = nodeNext s.mem p →
      ∃ t, l2 = (b + sz) :: t := by
    intro hR
    cases l2 with
    | nil =>
      have h0 : nodeNext s.mem p = 0 := hnx
      omega
    | cons q t => exact ⟨t, by rw [hR, hnx.1]⟩
  have hnosucc : b + sz ≠ nodeNext s.mem p →
      ∀ y ∈ l2, b + sz < y := by
    intro hR y hy
    cases l2 with
    | nil => cases hy
    | cons q t =>
      have hq : nodeNext s.mem p = q := hnx.1
      have hqb := h2 q (List.mem_cons_self _ _)
      rcases List.mem_cons.1 hy with rfl | hyt
      · omega
      · have := (List.pairwise_cons.1 hpwl2).1 y hyt
        unfold Apart at this; omega
  have hw2 : b + sz = nodeNext s.mem p →
      nodeSize s.mem p + sz + nodeSize s.mem (b + sz) < U32 := by
    intro hR
    obtain ⟨t, ht⟩ := hsucc hR
    have := (hblk (b + sz) (by rw [ht]; simp)).2.1
    omega
  obtain ⟨F0, FLR, FL, FR, FN⟩ := insertList_after_fields s (sz) b p hp0 hp3
    (by omega) hp hsz16 (by omega) (by omega) (by omega) hw2
  obtain ⟨B1, B2, B3⟩ := insertList_bounds s (sz) b p
  by_cases hL : p + nodeSize s.mem p = b
  · by_cases hR : b + sz = nodeNext s.mem p
    · -- both neighbours are merged
      obtain ⟨t, ht⟩ := hsucc hR
      obtain ⟨e1, e2⟩ := FLR hL hR
      subst ht
      have hq := (hblk (b + sz) (by simp))
      have htq := (List.pairwise_cons.1 hpwl2).1
      refine ⟨l1, t, p, nodeSize s.mem p, nodeSize s.mem (b + sz), ?_, ?_, e1,
        Or.inr ⟨rfl, hL, rfl⟩, Or.inr ⟨rfl, rfl⟩⟩
      · refine wellFormed_insert s _ _ l1 t p _ hwf0 B3 B1 B2 ?_ hpw1
          (List.pairwise_cons.1 hpwl2).2 ?_ e1 hp1 (by omega) (by omega) (by omega) ?_ ?_ ?_
        · intro x hx
          rcases List.mem_append.1 hx with h | h
          · simp [h]
          · simp [h]
        · intro x hx
          rcases List.mem_append.1 hx with h | h
          · exact (hsameA x h).1
          · exact (hsameB x (List.mem_cons_of_mem _ h)).1
        · intro x hx; exact (hfarA x hx).2.2
        · intro y hy
          have := htq y hy
          unfold Apart at this; omega
        · rw [F0]
          refine freeList_splice s.mem _ p _ t l1 _ hl (fun x hx => (hsameA x hx).2) ?_
          rw [e2]
          exact freeList_congr s.mem _ t _
            (fun y hy => (hsameB y (List.mem_cons_of_mem _ hy)).2) hnx.2.2
      · intro x hx
        rcases List.mem_append.1 hx with h | h
        · exact (hsameA x h).1
        · exact (hsameB x (List.mem_cons_of_mem _ h)).1
    · -- only `p` is merged
      obtain ⟨e1, e2⟩ := FL hL hR
      have hgap := hnosucc hR
      refine ⟨l1, l2, p, nodeSize s.mem p, 0, ?_, ?_, by rw [e1]; omega,
        Or.inr ⟨rfl, hL, rfl⟩, Or.inl ⟨rfl, rfl, ?_⟩⟩
      · refine wellFormed_insert s _ _ l1 l2 p _ hwf0 B3 B1 B2 ?_ hpw1 hpwl2 ?_ e1 hp1
          (by omega) (by omega) (by omega) ?_ ?_ ?_
        · intro x hx
          rcases List.mem_append.1 hx with h | h
          · simp [h]
          · simp [h]
        · intro x hx
          rcases List.mem_append.1 hx with h | h
          · exact (hsameA x h).1
          · exact (hsameB x h).1
        · intro x hx; exact (hfarA x hx).2.2
        · intro y hy
          have := hgap y hy
          omega
        · rw [F0]
          refine freeList_splice s.mem _ p _ l2 l1 _ hl (fun x hx => (hsameA x hx).2) ?_
          rw [e2]
          exact freeList_congr s.mem _ l2 _ (fun y hy => (hsameB y hy).2) hnx
      · intro x hx
        rcases List.mem_append.1 hx with h | h
        · exact (hsameA x h).1
        · exact (hsameB x h).1
      · intro hmem
        rcases List.mem_append.1 hmem with h | h
        · have := (hfarA _ h).2.1; omega
        · rcases List.mem_cons.1 h with h | h
          · omega
          · have := hgap _ h; omega
  · have hnoL : ∀ x ∈ l1 ++ p :: l2, x + nodeSize s.mem x ≠ b := by
      intro x hx
      rcases List.mem_append.1 hx with h | h
      · have := (hfarA x h).2.2; omega
      · rcases List.mem_cons.1 h with rfl | h
        · exact hL
        · have := (hfarB x h).1; omega
    have hlist : (l1 ++ [p]) ++ b :: l2 = l1 ++ p :: b :: l2 := by simp
    have hA : (l1 ++ [p]).Pairwise (Apart s.mem) := by
      have : (l1 ++ [p]) ++ l2 = l1 ++ p :: l2 := by simp
      rw [← this] at hpw
      exact (List.pairwise_append.1 hpw).1
    have hloA : ∀ x ∈ l1 ++ [p], x + nodeSize s.mem x < b := by
      intro x hx
      rcases List.mem_append.1 hx with h | h
      · have := (hfarA x h).2.2; omega
      · have : x = p := by simpa using h
        subst this; omega
    by_cases hR : b + sz = nodeNext s.mem p
    · -- only the successor is merged
      obtain ⟨t, ht⟩ := hsucc hR
      obtain ⟨e1, e2, e3, e4⟩ := FR hL hR
      subst ht
      have hq := (hblk (b + sz) (by simp))
      have htq := (List.pairwise_cons.1 hpwl2).1
      have hsame : ∀ x ∈ (l1 ++ [p]) ++ t,
          nodeSize (insertList s (sz) b p).mem x = nodeSize s.mem x := by
        intro x hx
        rcases List.mem_append.1 hx with h | h
        · rcases List.mem_append.1 h with h | h
          · exact (hsameA x h).1
          · have : x = p := by simpa using h
            subst this; exact e1
        · exact (hsameB x (List.mem_cons_of_mem _ h)).1
      refine ⟨l1 ++ [p], t, b, 0, nodeSize s.mem (b + sz), ?_, hsame,
        by rw [e3]; omega, Or.inl ⟨rfl, rfl, rfl, hnoL⟩, Or.inr ⟨rfl, rfl⟩⟩
      refine wellFormed_insert s _ _ (l1 ++ [p]) t b _ hwf0 B3 B1 B2 ?_ hA
        (List.pairwise_cons.1 hpwl2).2 hsame e3 hlo (by omega) (by omega) (by omega) hloA ?_ ?_
      · intro x hx
        rcases List.mem_append.1 hx with h | h
        · rcases List.mem_append.1 h with h | h
          · simp [h]
          · have : x = p := by simpa using h
            subst this; simp
        · simp [h]
      · intro y hy
        have := htq y hy
        unfold Apart at this; omega
      · rw [F0, show (l1 ++ [p]) ++ b :: t = l1 ++ p :: b :: t by simp]
        refine freeList_splice s.mem _ p _ (b :: t) l1 _ hl (fun x hx => (hsameA x hx).2) ?_
        rw [e2]
        refine ⟨rfl, hb0, ?_⟩
        rw [e4]
        exact freeList_congr s.mem _ t _
          (fun y hy => (hsameB y (List.mem_cons_of_mem _ hy)).2) hnx.2.2
    · -- no neighbour is merged
      obtain ⟨e1, e2, e3, e4⟩ := FN hL hR
      have hgap := hnosucc hR
      have hsame : ∀ x ∈ (l1 ++ [p]) ++ l2,
          nodeSize (insertList s (sz) b p).mem x = nodeSize s.mem x := by
        intro x hx
        rcases List.mem_append.1 hx with h | h
        · rcases List.mem_append.1 h with h | h
          · exact (hsameA x h).1
          · have : x = p := by simpa using h
            subst this; exact e1
        · exact (hsameB x h).1
      refine ⟨l1 ++ [p], l2, b, 0, 0, ?_, hsame, by rw [e3]; omega,
        Or.inl ⟨rfl, rfl, rfl, hnoL⟩, Or.inl ⟨rfl, rfl, ?_⟩⟩
      · refine wellFormed_insert s _ _ (l1 ++ [p]) l2 b _ hwf0 B3 B1 B2 ?_ hA hpwl2 hsame e3 hlo
          hhi hsz16 hsz8 hloA hgap ?_
        · intro x hx
          rcases List.mem_append.1 hx with h | h
          · rcases List.mem_append.1 h with h | h
            · simp [h]
            · have : x = p := by simpa using h
              subst this; simp
          · simp [h]
        · rw [F0, hlist]
          refine freeList_splice s.mem _ p _ (b :: l2) l1 _ hl (fun x hx => (hsameA x hx).2) ?_
          rw [e2]
          refine ⟨rfl, hb0, ?_⟩
          rw [e4]
          exact freeList_congr s.mem _ l2 _ (fun y hy => (hsameB y hy).2) hnx
      · intro hmem
        rcases List.mem_append.1 hmem with h | h
        · have := (hfarA _ h).2.1; omega
        · rcases List.mem_cons.1 h with h | h
          · omega
          · have := hgap _ h; omega

/-- The first path of `insertList`: the block `b` of `sz` bytes lies below every
free block; it becomes the head and is coalesced with the old head when they
touch. -/
theorem insert_front_spec (s : Heap) (l2 : List Nat) (b sz : Nat)
    (hwf : WellFormed s l2) (hb0 : b ≠ 0) (hsz16 : 16 ≤ sz) (hsz8 : sz % 8 = 0)
    (hlo : s.heap_start ≤ b) (hhi : b + sz ≤ s.heap_end)
    (h2 : ∀ y ∈ l2, b + sz ≤ y) (hsmall : s.heap_end < s.heap_start + U32) :
    (s.list_start = 0 ∨ b + 4 < s.list_start) ∧
    ∃ Bt right,
      WellFormed (insertList s (sz) b s.list_start) (b :: Bt) ∧
      (∀ x ∈ Bt, nodeSize (insertList s (sz) b s.list_start).mem x
        = nodeSize s.mem x) ∧
      nodeSize (insertList s (sz) b s.list_start).mem b
        = sz + right ∧
      ((Bt = l2 ∧ right = 0 ∧ b + sz ∉ l2)
        ∨ (l2 = (b + sz) :: Bt
          ∧ right = nodeSize s.mem (b + sz))) := by
  have hwf0 := hwf
  obtain ⟨hinit, hend, hl, hasc, hblk⟩ := hwf
  have hpw := ascending_pairwise s.mem _ hasc
  have hszU : sz < U32 := by omega
  have hhead : s.list_start = 0 ∨ (s.list_start ∈ l2) := by
    cases l2 with
    | nil => exact Or.inl hl
    | cons q t => exact Or.inr (by rw [hl.1]; simp)
  have hcond4 : s.list_start = 0 ∨ b + 4 < s.list_start := by
    rcases hhead with h | h
    · exact Or.inl h
    · have := h2 _ h; exact Or.inr (by omega)
  have hcond : s.list_start = 0 ∨ b < s.list_start := by
    rcases hcond4 with h | h
    · exact Or.inl h
    · exact Or.inr (by omega)
  have hh : s.list_start < PTR := by
    rcases hhead with h | h
    · rw [h]; unfold PTR; omega
    · have := (hblk _ h).2.1; omega
  have hw : b + sz = s.list_start →
      sz + nodeSize s.mem (b + sz) < U32 := by
    intro hR
    rcases hhead with h | h
    · omega
    · rw [← hR] at h
      have := (hblk _ h).2.1
      omega
  obtain ⟨F0, FR, FN, FO⟩ := insertList_front_fields s (sz) b hcond hh hsz16
    (by omega) hszU hw
  obtain ⟨B1, B2, B3⟩ := insertList_bounds s (sz) b s.list_start
  have hsameB : ∀ y ∈ l2,
      nodeSize (insertList s (sz) b s.list_start).mem y = nodeSize s.mem y
      ∧ nodeNext (insertList s (sz) b s.list_start).mem y = nodeNext s.mem y := by
    intro y hy
    have := h2 y hy
    exact FO y (Or.inr (by omega))
  refine ⟨hcond4, ?_⟩
  by_cases hR : b + sz = s.list_start
  · obtain ⟨e1, e2⟩ := FR hR
    cases l2 with
    | nil =>
      have h0 : s.list_start = 0 := hl
      omega
    | cons q t =>
      have hq : s.list_start = q := hl.1
      have hqb : q = b + sz := by omega
      subst hqb
      have hqblk := hblk (b + sz) (by simp)
      have htq := (List.pairwise_cons.1 hpw).1
      refine ⟨t, nodeSize s.mem (b + sz), ?_, ?_, e1, Or.inr ⟨rfl, rfl⟩⟩
      · refine wellFormed_insert s _ _ [] t b _ hwf0 B3 B1 B2 ?_ List.Pairwise.nil
          (List.pairwise_cons.1 hpw).2 ?_ e1 hlo (by omega) (by omega) (by omega) (by simp) ?_ ?_
        · intro x hx; simp at hx; simp [hx]
        · intro x hx; simp at hx
          exact (hsameB x (List.mem_cons_of_mem _ hx)).1
        · intro y hy
          have := htq y hy
          unfold Apart at this; omega
        · show FreeList _ _ (b :: t)
          rw [F0]
          refine ⟨rfl, hb0, ?_⟩
          rw [e2]
          exact freeList_congr s.mem _ t _
            (fun y hy => (hsameB y (List.mem_cons_of_mem _ hy)).2) hl.2.2
      · intro x hx
        exact (hsameB x (List.mem_cons_of_mem _ hx)).1
  · obtain ⟨e1, e2⟩ := FN hR
    have hgap : ∀ y ∈ l2, b + sz < y := by
      intro y hy
      cases l2 with
      | nil => cases hy
      | cons q t =>
        have hq : s.list_start = q := hl.1
        have hqb := h2 q (List.mem_cons_self _ _)
        rcases List.mem_cons.1 hy with rfl | hyt
        · omega
        · have := (List.pairwise_cons.1 hpw).1 y hyt
          unfold Apart at this; omega
    refine ⟨l2, 0, ?_, fun x hx => (hsameB x hx).1, by rw [e1]; omega, Or.inl ⟨rfl, rfl, ?_⟩⟩
    · refine wellFormed_insert s _ _ [] l2 b _ hwf0 B3 B1 B2 ?_ List.Pairwise.nil hpw ?_ e1 hlo
        hhi hsz16 hsz8 (by simp) hgap ?_
      · intro x hx; simpa using hx
      · intro x hx; simp at hx; exact (hsameB x hx).1
      · show FreeList _ _ (b :: l2)
        rw [F0]
        refine ⟨rfl, hb0, ?_⟩
        rw [e2]
        exact freeList_congr s.mem _ l2 _ (fun y hy => (hsameB y hy).2) hl
    · intro hmem
      have := hgap _ hmem
      omega

/-! ## `myfree` on an allocated block -/

/-- The head of a non-empty free list lies in the list and is not `NULL`. -/
theorem freeList_start_mem (m : Mem) (h : Nat) :
    ∀ l : List Nat, l ≠ [] → FreeList m h l → h ∈ l ∧ h ≠ 0
  | [], hne, _ => absurd rfl hne
  | a :: t, _, hl => ⟨by rw [hl.1]; exact List.mem_cons_self _ _, by rw [hl.1]; exact hl.2.1⟩

/-- The checks of `myfree` pass for the user pointer of an allocated block. -/
theorem freeAccepts_of_allocated (s : Heap) (l : List Nat) (b : Nat)
    (hinit : s.initialized ≠ 0) (hend : s.heap_end < PTR) (hal : Allocated s l b) :
    FreeAccepts s (b + 4) ∧ headerAddr (b + 4) = b := by
  obtain ⟨hb0, hsz16, hsz8, hfoot, hlo, hhi, _⟩ := hal
  have hhdr : headerAddr (b + 4) = b := by
    rw [headerAddr_eq _ (by omega) (by omega)]; omega
  have hftr : footerAddr (b + 4) (nodeSize s.mem b) = b + nodeSize s.mem b - 4 := by
    rw [footerAddr_eq _ _ (by omega) (by omega) (by omega)]; omega
  refine ⟨⟨hinit, by omega, ?_, by omega, by omega⟩, hhdr⟩
  rw [hhdr]
  show nodeSize s.mem b = readU32 s.mem (footerAddr (b + 4) (nodeSize s.mem b))
  rw [hftr, hfoot]

/-- The two paths of `myfree` on an allocated block: the free list splits into
the blocks below and the blocks above it, and the block is inserted at the front
when none is below, after the last block below otherwise. -/
theorem myfree_allocated (fuel : Nat) (s : Heap) (l : List Nat) (b : Nat)
    (hwf : WellFormed s l) (hal : Allocated s l b)
    (hsmall : s.heap_end < s.heap_start + U32) (hfuel : l.length < fuel) :
    ∃ l1 l2, l = l1 ++ l2 ∧ (∀ x ∈ l1, x + nodeSize s.mem x ≤ b) ∧
      (∀ x ∈ l2, b + nodeSize s.mem b ≤ x) ∧
      ((l1 = [] ∧ myfree fuel s (b + 4)
          = some (insertList s (nodeSize s.mem b) b s.list_start, 0))
        ∨ ∃ l1a p, l1 = l1a ++ [p] ∧ myfree fuel s (b + 4)
          = some (insertList s (nodeSize s.mem b) b p, 0)) := by
  have hwf0 := hwf
  obtain ⟨hinit, hend, hl, hasc, hblk⟩ := hwf
  obtain ⟨hacc, hhdr⟩ := freeAccepts_of_allocated s l b hinit hend hal
  obtain ⟨hb0, hsz16, hsz8, hfoot, hlo, hhi, hdis⟩ := hal
  obtain ⟨l1, l2, hl12, h1, h2⟩ := split_around s.mem b (nodeSize s.mem b) l hasc hdis
  refine ⟨l1, l2, hl12, h1, h2, ?_⟩
  rw [myfree_of_accepts fuel s _ hacc, hhdr]
  show (l1 = [] ∧ (if s.list_start = 0 ∨ s.list_start > b + 4 then
        some (insertList s (nodeSize s.mem b) b s.list_start, 0)
      else (findPrev s.mem (b + 4) fuel s.list_start).map fun current =>
        (insertList s (nodeSize s.mem b) b current, 0))
        = some (insertList s (nodeSize s.mem b) b s.list_start, 0))
    ∨ ∃ l1a p, l1 = l1a ++ [p] ∧ (if s.list_start = 0 ∨ s.list_start > b + 4 then
        some (insertList s (nodeSize s.mem b) b s.list_start, 0)
      else (findPrev s.mem (b + 4) fuel s.list_start).map fun current =>
        (insertList s (nodeSize s.mem b) b current, 0))
        = some (insertList s (nodeSize s.mem b) b p, 0)
  rcases List.eq_nil_or_concat l1 with h | ⟨l1a, p, h⟩
  on_goal 2 => rw [List.concat_eq_append] at h
  · left
    subst h
    refine ⟨rfl, ?_⟩
    simp only [List.nil_append] at hl12
    subst hl12
    have hc := (insert_front_spec s l b (nodeSize s.mem b) hwf0 hb0 hsz16 hsz8 hlo hhi h2
      hsmall).1
    rw [if_pos (by rcases hc with h | h; exact Or.inl h; exact Or.inr h)]
  · right
    refine ⟨l1a, p, h, ?_⟩
    subst h
    have hlist : l = l1a ++ p :: l2 := by rw [hl12]; simp
    subst hlist
    have hne : l1a ++ p :: l2 ≠ [] := by simp
    obtain ⟨hmem, hnz⟩ := freeList_start_mem s.mem s.list_start _ hne hl
    have hstart : s.list_start ∈ l1a ++ [p] := by
      cases l1a with
      | nil => rw [hl.1]; simp
      | cons a t => rw [hl.1]; simp
    have hbelow := h1 _ hstart
    rw [if_neg (by rintro (h | h); exact hnz h; omega)]
    have hp := h1 p (by simp)
    have hfp := findPrev_spec s.mem (b + 4) p l2
      (fun x hx => by have := h2 x hx; omega) l1a s.list_start fuel hl
      (fun x hx => by have := h1 x (by simp [hx]); omega) (by omega)
      (by simp at hfuel; omega)
    rw [hfp]
    rfl

/-- Support for C17: in a well-formed state whose managed region is shorter than
`2 ^ 32` bytes, `myfree` of an allocated block `b` returns 0 and leaves a
well-formed list `A ++ c :: Bt`, where the old list is `l1 ++ l2` with `l1` the
blocks below `b` and `l2` the blocks above it: `c` is `b`, or the last block of
`l1` when that block ends exactly at `b`; the first block of `l2` is absorbed
when it starts exactly at the end of `b`; the size of `c` is the sum of the
merged sizes and every other block keeps its size. -/
theorem myfree_coalesces (fuel : Nat) (s : Heap) (l : List Nat) (b : Nat)
    (hwf : WellFormed s l) (hal : Allocated s l b)
    (hsmall : s.heap_end < s.heap_start + U32) (hfuel : l.length < fuel) :
    ∃ l1 l2 s1, l = l1 ++ l2 ∧ (∀ x ∈ l1, x + nodeSize s.mem x ≤ b) ∧
      (∀ x ∈ l2, b + nodeSize s.mem b ≤ x) ∧
      myfree fuel s (b + 4) = some (s1, 0) ∧
      s1.heap_start = s.heap_start ∧ s1.heap_end = s.heap_end ∧
      ∃ A Bt c left right,
        WellFormed s1 (A ++ c :: Bt) ∧
        (∀ x ∈ A ++ Bt, nodeSize s1.mem x = nodeSize s.mem x) ∧
        nodeSize s1.mem c = left + nodeSize s.mem b + right ∧
        ((A = l1 ∧ c = b ∧ left = 0 ∧ ∀ x ∈ l, x + nodeSize s.mem x ≠ b)
          ∨ (l1 = A ++ [c] ∧ c + nodeSize s.mem c = b ∧ left = nodeSize s.mem c)) ∧
        ((Bt = l2 ∧ right = 0 ∧ b + nodeSize s.mem b ∉ l)
          ∨ (l2 = (b + nodeSize s.mem b) :: Bt
            ∧ right = nodeSize s.mem (b + nodeSize s.mem b))) := by
  obtain ⟨l1, l2, hl12, h1, h2, hcase⟩ := myfree_allocated fuel s l b hwf hal hsmall hfuel
  obtain ⟨hb0, hsz16, hsz8, hfoot, hlo, hhi, hdis⟩ := hal
  rcases hcase with ⟨hnil, hfree⟩ | ⟨l1a, p, hl1, hfree⟩
  · subst hnil
    simp only [List.nil_append] at hl12
    subst hl12
    obtain ⟨_, Bt, right, w1, w2, w3, w4⟩ :=
      insert_front_spec s l b (nodeSize s.mem b) hwf hb0 hsz16 hsz8 hlo hhi h2 hsmall
    obtain ⟨i1, i2, _⟩ := insertList_bounds s (nodeSize s.mem b) b s.list_start
    refine ⟨[], l, _, rfl, h1, h2, hfree, i1, i2, [], Bt, b, 0, right, ?_, ?_, ?_, ?_, w4⟩
    · simpa using w1
    · simpa using w2
    · rw [w3]; omega
    · left
      refine ⟨rfl, rfl, rfl, ?_⟩
      intro x hx
      have := h2 x hx
      omega
  · subst hl1
    have hlist : l = l1a ++ p :: l2 := by rw [hl12]; simp
    subst hlist
    obtain ⟨A, Bt, c, left, right, w1, w2, w3, w4, w5⟩ :=
      insert_after_spec s l1a l2 p b (nodeSize s.mem b) hwf hb0 hsz16 hsz8 hlo hhi
        (h1 p (by simp)) h2 hsmall
    obtain ⟨i1, i2, _⟩ := insertList_bounds s (nodeSize s.mem b) b p
    exact ⟨l1a ++ [p], l2, _, by simp, h1, h2, hfree, i1, i2, A, Bt, c, left, right,
      w1, w2, w3, w4, w5⟩

/-- The witness of `myfree_coalesces`: the allocated block at 4112 of the state
with free blocks at 4096, 4128 and 4176. -/
theorem myfree_coalesces_witness :
    ∃ l1 l2 s1, [4096, 4128, 4176] = l1 ++ l2 ∧
      (∀ x ∈ l1, x + nodeSize demoHeap.mem x ≤ 4112) ∧
      (∀ x ∈ l2, 4112 + nodeSize demoHeap.mem 4112 ≤ x) ∧
      myfree 4 demoHeap (4112 + 4) = some (s1, 0) ∧
      s1.heap_start = demoHeap.heap_start ∧ s1.heap_end = demoHeap.heap_end ∧
      ∃ A Bt c left right,
        WellFormed s1 (A ++ c :: Bt) ∧
        (∀ x ∈ A ++ Bt, nodeSize s1.mem x = nodeSize demoHeap.mem x) ∧
        nodeSize s1.mem c = left + nodeSize demoHeap.mem 4112 + right ∧
        ((A = l1 ∧ c = 4112 ∧ left = 0
            ∧ ∀ x ∈ [4096, 4128, 4176], x + nodeSize demoHeap.mem x ≠ 4112)
          ∨ (l1 = A ++ [c] ∧ c + nodeSize demoHeap.mem c = 4112
            ∧ left = nodeSize demoHeap.mem c)) ∧
        ((Bt = l2 ∧ right = 0 ∧ 4112 + nodeSize demoHeap.mem 4112 ∉ [4096, 4128, 4176])
          ∨ (l2 = (4112 + nodeSize demoHeap.mem 4112) :: Bt
            ∧ right = nodeSize demoHeap.mem (4112 + nodeSize demoHeap.mem 4112))) :=
  myfree_coalesces 4 demoHeap [4096, 4128, 4176] 4112 (by decide) (by decide) (by decide)
    (by decide)

/-! ## The words of a free block -/

/-- In a block of 16 bytes the last word is the upper half of the `next` field. -/
theorem last_word_of_min_block (m : Mem) (n : Nat) :
    readU32 m (n + 16 - 4) = nodeNext m n / U32 := by
  have h := readU32_lt m (n + 8)
  have e : n + 16 - 4 = n + 8 + 4 := by omega
  unfold nodeNext readPtr
  unfold U32 at h ⊢
  rw [e]
  omega

/-- In a well-formed state whose managed region is shorter than `2 ^ 32` bytes,
`myfree` of an allocated block `b` returns 0 and leaves a well-formed free list.
One block `c` of the new list contains `b`: it starts at `b` or is the old free
block ending at `b`, and its size word reaches the end of `b` or the end of the
old free block that started there; every other block is a block of the old list
with its old size word. The call writes only inside the first 16 bytes of `b`
and of one other block `p`. -/
theorem myfree_wellFormed (fuel : Nat) (s : Heap) (l : List Nat) (b : Nat)
    (hwf : WellFormed s l) (hal : Allocated s l b)
    (hsmall : s.heap_end < s.heap_start + U32) (hfuel : l.length < fuel) :
    ∃ s1 l1 c p, myfree fuel s (b + 4) = some (s1, 0) ∧ WellFormed s1 l1 ∧ c ∈ l1 ∧
      (c = b ∨ (c ∈ l ∧ c + nodeSize s.mem c = b)) ∧
      (c + nodeSize s1.mem c = b + nodeSize s.mem b
        ∨ (b + nodeSize s.mem b ∈ l ∧ c + nodeSize s1.mem c
            = b + nodeSize s.mem b + nodeSize s.mem (b + nodeSize s.mem b))) ∧
      (∀ x ∈ l1, x ≠ c → x ∈ l ∧ nodeSize s1.mem x = nodeSize s.mem x) ∧
      (∀ x, x < b ∨ b + 16 ≤ x → x < p ∨ p + 16 ≤ x → s1.mem x = s.mem x) := by
  obtain ⟨k1, k2, hl12, h1, h2, hcase⟩ := myfree_allocated fuel s l b hwf hal hsmall hfuel
  obtain ⟨hb0, hsz16, hsz8, hfoot, hlo, hhi, hdis⟩ := hal
  have hframe : ∀ q x, x < b ∨ b + 16 ≤ x → x < q ∨ q + 16 ≤ x →
      (insertList s (nodeSize s.mem b) b q).mem x = s.mem x := by
    intro q x hx1 hx2
    apply insertList_outside
    · unfold NodeHead; omega
    · unfold NodeHead; omega
  rcases hcase with ⟨hnil, hfree⟩ | ⟨l1a, p, hl1, hfree⟩
  · subst hnil
    simp only [List.nil_append] at hl12
    subst hl12
    obtain ⟨_, Bt, right, w1, w2, w3, w4⟩ :=
      insert_front_spec s l b (nodeSize s.mem b) hwf hb0 hsz16 hsz8 hlo hhi h2 hsmall
    refine ⟨_, b :: Bt, b, s.list_start, hfree, w1, List.mem_cons_self _ _, Or.inl rfl,
      ?_, ?_, hframe _⟩
    · rcases w4 with ⟨_, hr, _⟩ | ⟨hl2, hr⟩
      · left; rw [w3, hr]; omega
      · right
        refine ⟨by rw [hl2]; exact List.mem_cons_self _ _, ?_⟩
        rw [w3, hr]; omega
    · intro x hx hxc
      rcases List.mem_cons.1 hx with h | h
      · exact absurd h hxc
      · refine ⟨?_, w2 x h⟩
        rcases w4 with ⟨hB, _, _⟩ | ⟨hl2, _⟩
        · rw [← hB]; exact h
        · rw [hl2]; exact List.mem_cons_of_mem _ h
  · subst hl1
    have hlist : l = l1a ++ p :: k2 := by rw [hl12]; simp
    subst hlist
    obtain ⟨A, Bt, c, left, right, w1, w2, w3, w4, w5⟩ :=
      insert_after_spec s l1a k2 p b (nodeSize s.mem b) hwf hb0 hsz16 hsz8 hlo hhi
        (h1 p (by simp)) h2 hsmall
    have hBt : ∀ x ∈ Bt, x ∈ k2 := by
      intro x hx
      rcases w5 with ⟨hB, _, _⟩ | ⟨hl2, _⟩
      · rw [← hB]; exact hx
      · rw [hl2]; exact List.mem_cons_of_mem _ hx
    have hA : ∀ x ∈ A, x ∈ l1a ++ [p] := by
      intro x hx
      rcases w4 with ⟨hA, _, _, _⟩ | ⟨hA, _, _⟩
      · rw [← hA]; exact hx
      · rw [hA]; exact List.mem_append_left _ hx
    have hcl : c = b ∨ (c ∈ l1a ++ p :: k2 ∧ c + nodeSize s.mem c = b) := by
      rcases w4 with ⟨_, hc, _, _⟩ | ⟨hA, hc, _⟩
      · exact Or.inl hc
      · refine Or.inr ⟨?_, hc⟩
        have : c ∈ l1a ++ [p] := by rw [hA]; simp
        have hsub : l1a ++ p :: k2 = (l1a ++ [p]) ++ k2 := by simp
        rw [hsub]; exact List.mem_append_left _ this
    have hleft : c + left = b := by
      rcases w4 with ⟨_, hc, hz, _⟩ | ⟨_, hc, hz⟩
      · omega
      · omega
    refine ⟨_, A ++ c :: Bt, c, p, hfree, w1, by simp, hcl, ?_, ?_, hframe _⟩
    · rcases w5 with ⟨_, hr, _⟩ | ⟨hl2, hr⟩
      · left; rw [w3, hr]; omega
      · right
        refine ⟨by rw [hl2]; simp, ?_⟩
        rw [w3, hr]; omega
    · intro x hx hxc
      have hsub : l1a ++ p :: k2 = (l1a ++ [p]) ++ k2 := by simp
      rcases List.mem_append.1 hx with h | h
      · exact ⟨by rw [hsub]; exact List.mem_append_left _ (hA x h),
          w2 x (List.mem_append_left _ h)⟩
      · rcases List.mem_cons.1 h with h | h
        · exact absurd h hxc
        · exact ⟨by rw [hsub]; exact List.mem_append_right _ (hBt x h),
            w2 x (List.mem_append_right _ h)⟩

/-! ## The size of the block handed out -/

theorem takeBlock_header (s : Heap) (l : List Nat) (T B P : Nat) (hwf : WellFormed s l)
    (hT : 16 ≤ T ∧ T % 8 = 0 ∧ T < U32) (hBl : B ∈ l) (hprev : IsPrev l B P)
    (hgt : T < nodeSize s.mem B) :
    T ≤ readU32 (takeBlock s T B P).heap.mem B := by
  obtain ⟨hinit, hend, hl, hasc, hblk⟩ := hwf
  obtain ⟨r1, r2, r3, _, _, r6, _, _⟩ :=
    removeList_spec s l B P hl hasc (fun b hb => (hblk b hb).2.2.1) hprev
  obtain ⟨hB1, hB2, hB3, hB4⟩ := hblk B hBl
  have hlt : nodeSize s.mem B < U32 := readU32_lt _ _
  unfold takeBlock
  by_cases hw : nodeSize s.mem B = T ∨ (nodeSize s.mem B + U32 - T) % U32 < MIN_SIZE
  · rw [if_pos hw]
    simp only [r6 B hBl]
    rw [allocate_header _ _ _ (by omega) (by omega) (by omega) hlt]
    omega
  · rw [if_neg hw]
    simp only []
    rw [allocate_header _ _ _ (by omega) (by omega) (by omega) hT.2.2]

theorem growHeap_header (sbrk : Nat → Nat) (s : Heap) (T : Nat)
    (hT : 16 ≤ T ∧ T % 8 = 0 ∧ T < U32)
    (hext : sbrk T = SBRK_FAILED ∨ sbrk T + U32 < PTR)
    (hp : (growHeap sbrk s T).ptr ≠ 0) :
    T ≤ readU32 (growHeap sbrk s T).heap.mem ((growHeap sbrk s T).ptr - 4) := by
  unfold growHeap at hp ⊢
  simp only [] at hp ⊢
  by_cases hf : sbrk T ≠ SBRK_FAILED
  · rw [if_pos hf]
    have hx : sbrk T + U32 < PTR := by
      rcases hext with h | h
      · exact absurd h hf
      · exact h
    show T ≤ readU32 (allocate s.mem T (sbrk T)) (sbrk T + 4 - 4)
    rw [Nat.add_sub_cancel, allocate_header _ _ _ (by omega) (by omega) (by omega) hT.2.2]
  · rw [if_neg hf] at hp; exact absurd rfl hp

/-- Support for C13: for a request that does not overflow (`S + 8 ≤ 2 ^ 32 - 8`)
in a well-formed state, with fuel for the search loop, `mymalloc` returns, and
when the pointer is not `NULL` the header word at `p - 4` is at least `S + 8`. -/
theorem header_holds_request (fuel : Nat) (sbrk : Nat → Nat) (s : Heap) (l : List Nat)
    (S : Nat) (hwf : WellFormed s l) (hS : 1 ≤ S) (hS2 : S + 8 ≤ U32 - 8)
    (hext : sbrk (totalSize S) = SBRK_FAILED ∨ sbrk (totalSize S) + U32 < PTR)
    (hfuel : l.length < fuel) :
    ∃ r, mymalloc fuel sbrk s S = some r ∧
      (r.ptr ≠ 0 → S + 8 ≤ readU32 r.heap.mem (r.ptr - 4)) := by
  obtain ⟨t1, t2, t3, t4⟩ := totalSize_bounds S hS2
  have hinit := hwf.1
  unfold mymalloc
  rw [if_neg hinit]
  simp only [if_neg (show ¬ S = 0 by omega)]
  unfold mallocReady
  have hgrow : ∃ r, some (growHeap sbrk s (totalSize S)) = some r ∧
      (r.ptr ≠ 0 → S + 8 ≤ readU32 r.heap.mem (r.ptr - 4)) :=
    ⟨_, rfl, fun hp => le_trans t3 (growHeap_header sbrk s _ ⟨t1, t2, t4⟩ hext hp)⟩
  by_cases hls : s.list_start ≠ 0
  · simp only [if_pos hls]
    obtain ⟨bp, hsc⟩ := scanFit_terminates s.mem (totalSize S) l fuel s.list_start
      s.list_start 0 0 hwf.2.2.1 hfuel
    obtain ⟨B, P⟩ := bp
    rw [hsc]
    simp only []
    by_cases hB : B ≠ 0
    · rw [if_pos hB]
      obtain ⟨hBl, hprev, hgt⟩ := scanFit_selected s.mem _ fuel _ B P l hwf.2.2.1 hsc hB
      refine ⟨_, rfl, fun _ => ?_⟩
      rw [takeBlock_ptr, Nat.add_sub_cancel]
      exact le_trans t3 (takeBlock_header s l _ B P hwf ⟨t1, t2, t4⟩ hBl hprev hgt)
    · rw [if_neg hB]; exact hgrow
  · simp only [if_neg hls]; exact hgrow

/-- The witness of `header_holds_request`: a request of 20 bytes in the state
with free blocks of 16, 32 and 24 bytes. -/
theorem header_holds_request_witness :
    ∃ r, mymalloc 4 (fun _ => 4216) demoHeap 20 = some r ∧
      (r.ptr ≠ 0 → 20 + 8 ≤ readU32 r.heap.mem (r.ptr - 4)) :=
  header_holds_request 4 (fun _ => 4216) demoHeap [4096, 4128, 4176] 20 (by decide)
    (by decide) (by decide) (Or.inr (by decide)) (by decide)

/-! ## `mymalloc` keeps the free list well-formed -/

/-- A state that agrees with a well-formed one on the `size` and `next` fields of
the listed blocks, with the same list head and a heap end that did not move down,
is well-formed with the same list. -/
theorem wellFormed_frame (s s1 : Heap) (l : List Nat) (hwf : WellFormed s l)
    (hi : s1.initialized = s.initialized) (hls : s1.list_start = s.list_start)
    (hs : s1.heap_start = s.heap_start) (he : s.heap_end ≤ s1.heap_end)
    (he1 : s1.heap_end < PTR)
    (hsz : ∀ x ∈ l, nodeSize s1.mem x = nodeSize s.mem x)
    (hnx : ∀ x ∈ l, nodeNext s1.mem x = nodeNext s.mem x) :
    WellFormed s1 l := by
  obtain ⟨hinit, hend, hl, hasc, hblk⟩ := hwf
  refine ⟨by rw [hi]; exact hinit, he1, ?_, ?_, ?_⟩
  · rw [hls]; exact freeList_congr s.mem s1.mem l _ hnx hl
  · apply pairwise_ascending
    refine (ascending_pairwise s.mem l hasc).imp_of_mem ?_
    intro x y hx _ hxy
    unfold Apart at *
    rw [hsz x hx]; exact hxy
  · intro x hx
    obtain ⟨a, b, c, d⟩ := hblk x hx
    rw [hsz x hx, hs]
    exact ⟨a, by omega, c, d⟩

/-- After `removeList` the state is well-formed with the list without `B`, and
the other blocks keep their sizes. -/
theorem removeList_wellFormed (s : Heap) (l : List Nat) (B P : Nat) (hwf : WellFormed s l)
    (hprev : IsPrev l B P) :
    WellFormed (removeList s B P) (l.erase B) ∧
    (∀ x ∈ l, nodeSize (removeList s B P).mem x = nodeSize s.mem x) ∧
    (removeList s B P).heap_start = s.heap_start ∧
    (removeList s B P).heap_end = s.heap_end := by
  obtain ⟨hinit, hend, hl, hasc, hblk⟩ := hwf
  obtain ⟨r1, r2, r3, _, r5, r6, _, _⟩ :=
    removeList_spec s l B P hl hasc (fun b hb => (hblk b hb).2.2.1) hprev
  refine ⟨⟨by rw [r3]; exact hinit, by rw [r2]; exact hend, r5, ?_, ?_⟩, r6, r1, r2⟩
  · apply pairwise_ascending
    have hp := (ascending_pairwise s.mem l hasc).sublist (List.erase_sublist B l)
    refine hp.imp_of_mem ?_
    intro a b ha _ hab
    unfold Apart at *
    rw [r6 a (List.mem_of_mem_erase ha)]
    exact hab
  · intro x hx
    have hxl := List.mem_of_mem_erase hx
    rw [r6 x hxl, r1, r2]
    exact hblk x hxl

/-- On its general path `insertList` leaves `list_start` as it is. -/
theorem insertList_list_start (s : Heap) (sz b p : Nat)
    (hcond : ¬ (p = s.list_start ∧ (p = 0 ∨ b < p))) :
    (insertList s sz b p).list_start = s.list_start := by
  rw [insertList_after s sz b p hcond]

/-- The tag stores of `allocate` leave the fields of a node outside the block. -/
theorem allocate_node_outside (m : Mem) (B sz x : Nat) (h4 : sz % 4 = 0) (hsz : 8 ≤ sz)
    (hB : B + sz < PTR) (h : x + 16 ≤ B ∨ B + sz ≤ x) :
    nodeSize (allocate m sz B) x = nodeSize m x
    ∧ nodeNext (allocate m sz B) x = nodeNext m x :=
  ⟨allocate_readU32_outside m B sz x h4 hsz hB (by omega),
    allocate_readPtr_outside m B sz (x + 8) h4 hsz hB (by omega)⟩

/-- The blocks of a well-formed list other than `B` lie strictly below `B` or
strictly above its end. -/
theorem others_apart (s : Heap) (l : List Nat) (B : Nat) (hwf : WellFormed s l) (hBl : B ∈ l) :
    ∀ x ∈ l.erase B, x ∈ l ∧ x ≠ B ∧ (x + 16 ≤ B ∨ B + nodeSize s.mem B < x) := by
  obtain ⟨_, _, _, hasc, hblk⟩ := hwf
  have hnd := ascending_nodup s.mem l hasc
  intro x hx
  have hm := (List.Nodup.mem_erase_iff hnd).1 hx
  have h16 := (hblk x hm.2).2.2.1
  refine ⟨hm.2, hm.1, ?_⟩
  rcases apart_of_mem s.mem l hasc x B hm.2 hBl hm.1 with h | h
  · unfold Apart at h; left; omega
  · unfold Apart at h; right; omega

/-- Lines 147-149 of `mymalloc`: the block `B` is handed out whole. -/
theorem whole_wellFormed (s : Heap) (l : List Nat) (B P : Nat) (hwf : WellFormed s l)
    (hBl : B ∈ l) (hprev : IsPrev l B P) :
    WellFormed { removeList s B P with
        mem := allocate (removeList s B P).mem (nodeSize (removeList s B P).mem B) B }
      (l.erase B)
    ∧ ∀ x ∈ l.erase B,
        nodeSize (allocate (removeList s B P).mem (nodeSize (removeList s B P).mem B) B) x
          = nodeSize s.mem x := by
  obtain ⟨w1, r6, r1, r2⟩ := removeList_wellFormed s l B P hwf hprev
  have hap := others_apart s l B hwf hBl
  obtain ⟨hinit, hend, hl, hasc, hblk⟩ := hwf
  obtain ⟨hB1, hB2, hB3, hB4⟩ := hblk B hBl
  rw [r6 B hBl]
  have hfr : ∀ x ∈ l.erase B,
      nodeSize (allocate (removeList s B P).mem (nodeSize s.mem B) B) x
          = nodeSize (removeList s B P).mem x
      ∧ nodeNext (allocate (removeList s B P).mem (nodeSize s.mem B) B) x
          = nodeNext (removeList s B P).mem x := by
    intro x hx
    obtain ⟨_, _, h⟩ := hap x hx
    exact allocate_node_outside _ B _ x (by omega) (by omega) (by omega)
      (by rcases h with h | h <;> omega)
  refine ⟨wellFormed_frame (removeList s B P) _ (l.erase B) w1 rfl rfl rfl (le_refl _)
    w1.2.1 (fun x hx => (hfr x hx).1) (fun x hx => (hfr x hx).2), ?_⟩
  intro x hx
  rw [(hfr x hx).1, r6 x (hap x hx).1]

/-- Lines 154-158 of `mymalloc` when `B` is the head of the list: the block is
split, and the list is the old one without `B`. -/
theorem split_head_wellFormed (s : Heap) (l : List Nat) (T B n : Nat) (hwf : WellFormed s l)
    (hBl : B ∈ l) (hprev : IsPrev l B B) (hT : 16 ≤ T ∧ T % 8 = 0)
    (hn : 16 ≤ n) (hgt : T + n = nodeSize s.mem B) :
    WellFormed { insertList (removeList s B B) n (B + T) B with
        mem := allocate (insertList (removeList s B B) n (B + T) B).mem T B }
      (l.erase B)
    ∧ ∀ x ∈ l.erase B,
        nodeSize (allocate (insertList (removeList s B B) n (B + T) B).mem T B) x
          = nodeSize s.mem x := by
  obtain ⟨w1, r6, r1, r2⟩ := removeList_wellFormed s l B B hwf hprev
  have hap := others_apart s l B hwf hBl
  obtain ⟨hinit, hend, hl, hasc, hblk⟩ := hwf
  obtain ⟨hB1, hB2, hB3, hB4⟩ := hblk B hBl
  have hB0 : B ≠ 0 := freeList_nonzero s.mem l _ hl B hBl
  obtain ⟨i1, i2, i3⟩ := insertList_bounds (removeList s B B) n (B + T) B
  have hls : (insertList (removeList s B B) n (B + T) B).list_start
      = (removeList s B B).list_start :=
    insertList_list_start _ _ _ _ (by rintro ⟨_, h | h⟩; exact hB0 h; omega)
  have hfr : ∀ x ∈ l.erase B,
      nodeSize (allocate (insertList (removeList s B B) n (B + T) B).mem T B) x
          = nodeSize (removeList s B B).mem x
      ∧ nodeNext (allocate (insertList (removeList s B B) n (B + T) B).mem T B) x
          = nodeNext (removeList s B B).mem x := by
    intro x hx
    obtain ⟨_, _, h⟩ := hap x hx
    obtain ⟨a1, a2⟩ := allocate_node_outside (insertList (removeList s B B) n (B + T) B).mem
      B T x (by omega) (by omega) (by omega) (by rcases h with h | h <;> omega)
    obtain ⟨b1, b2⟩ := insertList_other (removeList s B B) n (B + T) B x
      (by rcases h with h | h <;> omega) (by rcases h with h | h <;> omega)
    exact ⟨by rw [a1, b1], by rw [a2, b2]⟩
  refine ⟨wellFormed_frame (removeList s B B) _ (l.erase B) w1 i3 hls i1
    (le_of_eq i2.symm) (by show (insertList _ _ _ _).heap_end < PTR; rw [i2]; exact w1.2.1)
    (fun x hx => (hfr x hx).1) (fun x hx => (hfr x hx).2), ?_⟩
  intro x hx
  rw [(hfr x hx).1, r6 x (hap x hx).1]

/-- Lines 154-158 of `mymalloc` when `B` comes after `P` in the list: the block
is split, and the remainder of `n` bytes at `B + T` takes the place of `B`. -/
theorem split_inner_wellFormed (s : Heap) (l1 l2 : List Nat) (T B P n : Nat)
    (hwf : WellFormed s (l1 ++ P :: B :: l2)) (hT : 16 ≤ T ∧ T % 8 = 0)
    (hn : 16 ≤ n) (hgt : T + n = nodeSize s.mem B)
    (hsmall : s.heap_end < s.heap_start + U32) :
    WellFormed { insertList (removeList s B P) n (B + T) P with
        mem := allocate (insertList (removeList s B P) n (B + T) P).mem T B }
      (l1 ++ P :: (B + T) :: l2)
    ∧ (∀ x ∈ l1 ++ P :: l2,
        nodeSize (allocate (insertList (removeList s B P) n (B + T) P).mem T B) x
          = nodeSize s.mem x)
    ∧ nodeSize (allocate (insertList (removeList s B P) n (B + T) P).mem T B) (B + T) = n := by
  have hprev : IsPrev (l1 ++ P :: B :: l2) B P := Or.inr ⟨l1, l2, rfl⟩
  have hBl : B ∈ l1 ++ P :: B :: l2 := by simp
  have hPl : P ∈ l1 ++ P :: B :: l2 := by simp
  obtain ⟨w1, r6, r1, r2⟩ := removeList_wellFormed s _ B P hwf hprev
  obtain ⟨hinit, hend, hl, hasc, hblk⟩ := hwf
  obtain ⟨hB1, hB2, hB3, hB4⟩ := hblk B hBl
  obtain ⟨hP1, hP2, hP3, hP4⟩ := hblk P hPl
  have hpw := ascending_pairwise s.mem _ hasc
  obtain ⟨hpw1, hpw2, hcross⟩ := List.pairwise_append.1 hpw
  obtain ⟨hPrest, hpw3⟩ := List.pairwise_cons.1 hpw2
  obtain ⟨hBrest, hpw4⟩ := List.pairwise_cons.1 hpw3
  have hPB : P + nodeSize s.mem P < B := hPrest B (List.mem_cons_self _ _)
  have hl1B : ∀ x ∈ l1, x + nodeSize s.mem x < B := fun x hx =>
    hcross x hx B (by simp)
  have hl2B : ∀ y ∈ l2, B + nodeSize s.mem B < y := fun y hy => hBrest y hy
  have hBl1 : B ∉ l1 := fun h => by have := hl1B B h; omega
  have he : (l1 ++ P :: B :: l2).erase B = l1 ++ P :: l2 :=
    erase_inner l1 l2 P B hBl1 (by omega)
  rw [he] at w1
  have hsub : ∀ x ∈ l1 ++ P :: l2, x ∈ l1 ++ P :: B :: l2 := by
    intro x hx
    rcases List.mem_append.1 hx with h | h
    · exact List.mem_append_left _ h
    · rcases List.mem_cons.1 h with h | h
      · rw [h]; exact hPl
      · exact List.mem_append_right _ (List.mem_cons_of_mem _ (List.mem_cons_of_mem _ h))
  have hB0 : B ≠ 0 := freeList_nonzero s.mem _ _ hl B hBl
  obtain ⟨A, Bt, c, left, right, v1, v2, v3, v4, v5⟩ :=
    insert_after_spec (removeList s B P) l1 l2 P (B + T) n w1 (by omega) hn (by omega)
      (by rw [r1]; omega) (by rw [r2]; omega) (by rw [r6 P hPl]; omega)
      (fun y hy => by have := hl2B y hy; omega) (by rw [r1, r2]; exact hsmall)
  -- neither neighbour touches the remainder
  have hA : A = l1 ++ [P] ∧ c = B + T ∧ left = 0 := by
    rcases v4 with ⟨a1, a2, a3, _⟩ | ⟨a1, a2, _⟩
    · exact ⟨a1, a2, a3⟩
    · exfalso
      have hc : [P] = [c] := (List.append_inj' a1 rfl).2
      have hcP : P = c := by simpa using hc
      rw [← hcP, r6 P hPl] at a2
      omega
  have hBt : Bt = l2 ∧ right = 0 := by
    rcases v5 with ⟨a1, a2, _⟩ | ⟨a1, _⟩
    · exact ⟨a1, a2⟩
    · exfalso
      have := hl2B (B + T + n) (by rw [a1]; exact List.mem_cons_self _ _)
      omega
  obtain ⟨hA1, hA2, hA3⟩ := hA
  obtain ⟨hBt1, hBt2⟩ := hBt
  subst hA1; subst hA2; subst hA3; subst hBt1; subst hBt2
  have hlist : (l1 ++ [P]) ++ (B + T) :: Bt = l1 ++ P :: (B + T) :: Bt := by simp
  rw [hlist] at v1
  obtain ⟨i1, i2, i3⟩ := insertList_bounds (removeList s B P) n (B + T) P
  have hfr : ∀ x ∈ l1 ++ P :: (B + T) :: Bt,
      nodeSize (allocate (insertList (removeList s B P) n (B + T) P).mem T B) x
          = nodeSize (insertList (removeList s B P) n (B + T) P).mem x
      ∧ nodeNext (allocate (insertList (removeList s B P) n (B + T) P).mem T B) x
          = nodeNext (insertList (removeList s B P) n (B + T) P).mem x := by
    intro x hx
    apply allocate_node_outside _ B T x (by omega) (by omega) (by omega)
    rcases List.mem_append.1 hx with h | h
    · have h16 := (hblk x (List.mem_append_left _ h)).2.2.1
      have := hl1B x h
      omega
    · rcases List.mem_cons.1 h with h | h
      · rw [h]; omega
      · rcases List.mem_cons.1 h with h | h
        · rw [h]; omega
        · have := hl2B x h; omega
  refine ⟨wellFormed_frame _ _ _ v1 rfl rfl rfl (le_refl _) v1.2.1
    (fun x hx => (hfr x hx).1) (fun x hx => (hfr x hx).2), ?_, ?_⟩
  · intro x hx
    have hx1 : x ∈ l1 ++ P :: (B + T) :: Bt := by
      rcases List.mem_append.1 hx with h | h
      · exact List.mem_append_left _ h
      · rcases List.mem_cons.1 h with h | h
        · rw [h]; simp
        · exact List.mem_append_right _ (List.mem_cons_of_mem _ (List.mem_cons_of_mem _ h))
    have hx2 : x ∈ (l1 ++ [P]) ++ Bt := by
      have : (l1 ++ [P]) ++ Bt = l1 ++ P :: Bt := by simp
      rw [this]; exact hx
    rw [(hfr x hx1).1, v2 x hx2, r6 x (hsub x hx)]
  · rw [(hfr (B + T) (by simp)).1, v3]
    omega

/-- Lines 142-159 of `mymalloc` keep the free list well-formed: every block of
the new list is a block of the old one other than `B`, with its old size word,
or the remainder of the split, which starts at `B + T` and ends where `B`
ended. -/
theorem takeBlock_wellFormed (s : Heap) (l : List Nat) (T B P : Nat) (hwf : WellFormed s l)
    (hT : 16 ≤ T ∧ T % 8 = 0 ∧ T < U32) (hBl : B ∈ l) (hprev : IsPrev l B P)
    (hgt : T < nodeSize s.mem B) (hsmall : s.heap_end < s.heap_start + U32) :
    ∃ l1, WellFormed (takeBlock s T B P).heap l1 ∧
      ∀ x ∈ l1,
        (x ∈ l ∧ x ≠ B ∧ nodeSize (takeBlock s T B P).heap.mem x = nodeSize s.mem x)
        ∨ (x = B + T
          ∧ x + nodeSize (takeBlock s T B P).heap.mem x = B + nodeSize s.mem B) := by
  have hap := others_apart s l B hwf hBl
  have hB4 := (hwf.2.2.2.2 B hBl).2.2.2
  have hlt : nodeSize s.mem B < U32 := readU32_lt _ _
  unfold takeBlock
  by_cases hw : nodeSize s.mem B = T ∨ (nodeSize s.mem B + U32 - T) % U32 < MIN_SIZE
  · rw [if_pos hw]
    obtain ⟨w1, w2⟩ := whole_wellFormed s l B P hwf hBl hprev
    exact ⟨l.erase B, w1, fun x hx => Or.inl ⟨(hap x hx).1, (hap x hx).2.1, w2 x hx⟩⟩
  · rw [if_neg hw]
    have e1 : (nodeSize s.mem B + U32 - T) % U32 = nodeSize s.mem B - T := by
      unfold U32 at hlt ⊢; omega
    have e2 : wordOff B (T / 4) = B + T := by unfold wordOff; omega
    have hn : 16 ≤ nodeSize s.mem B - T := by
      rw [e1] at hw
      unfold MIN_SIZE at hw
      omega
    simp only [e1, e2]
    rcases hprev with ⟨hPB, t, ht⟩ | ⟨k1, k2, hk⟩
    · subst hPB
      obtain ⟨w1, w2⟩ := split_head_wellFormed s l T P (nodeSize s.mem P - T) hwf hBl
        (Or.inl ⟨rfl, t, ht⟩) ⟨hT.1, hT.2.1⟩ hn (by omega)
      exact ⟨l.erase P, w1, fun x hx => Or.inl ⟨(hap x hx).1, (hap x hx).2.1, w2 x hx⟩⟩
    · subst hk
      obtain ⟨w1, w2, w3⟩ := split_inner_wellFormed s k1 k2 T B P (nodeSize s.mem B - T) hwf
        ⟨hT.1, hT.2.1⟩ hn (by omega) hsmall
      refine ⟨k1 ++ P :: (B + T) :: k2, w1, ?_⟩
      have hnd := ascending_nodup s.mem _ hwf.2.2.2.1
      have hBl1 : B ∉ k1 := fun h => by
        have := List.disjoint_of_nodup_append hnd h
        exact this (by simp)
      have hnd2 := (List.nodup_append.1 hnd).2.1
      have hPB : P ≠ B := by
        intro h
        have := (List.nodup_cons.1 hnd2).1
        rw [h] at this
        exact this (List.mem_cons_self _ _)
      have hBk2 : B ∉ k2 := (List.nodup_cons.1 (List.nodup_cons.1 hnd2).2).1
      intro x hx
      rcases List.mem_append.1 hx with h | h
      · exact Or.inl ⟨List.mem_append_left _ h, fun e => hBl1 (e ▸ h),
          w2 x (List.mem_append_left _ h)⟩
      · rcases List.mem_cons.1 h with h | h
        · exact Or.inl ⟨by rw [h]; simp, by rw [h]; exact hPB, w2 x (by rw [h]; simp)⟩
        · rcases List.mem_cons.1 h with h | h
          · right
            refine ⟨h, ?_⟩
            rw [h, w3]; omega
          · exact Or.inl ⟨by simp [h], fun e => hBk2 (e ▸ h), w2 x (by simp [h])⟩

/-- Lines 162-172 of `mymalloc` keep the free list: the new block lies at or
above the old end of the managed region. -/
theorem growHeap_wellFormed (sbrk : Nat → Nat) (s : Heap) (l : List Nat) (T : Nat)
    (hwf : WellFormed s l) (hT : 16 ≤ T ∧ T % 8 = 0 ∧ T < U32)
    (hext : sbrk T = SBRK_FAILED ∨ (s.heap_end ≤ sbrk T ∧ sbrk T + U32 < PTR)) :
    WellFormed (growHeap sbrk s T).heap l ∧
      ∀ x ∈ l, x + 4 ≠ (growHeap sbrk s T).ptr
        ∧ nodeSize (growHeap sbrk s T).heap.mem x = nodeSize s.mem x := by
  unfold growHeap
  simp only []
  by_cases hf : sbrk T ≠ SBRK_FAILED
  · rw [if_pos hf]
    obtain ⟨hx1, hx2⟩ : s.heap_end ≤ sbrk T ∧ sbrk T + U32 < PTR := by
      rcases hext with h | h
      · exact absurd h hf
      · exact h
    have hfr : ∀ x ∈ l, nodeSize (allocate s.mem T (sbrk T)) x = nodeSize s.mem x
        ∧ nodeNext (allocate s.mem T (sbrk T)) x = nodeNext s.mem x := by
      intro x hx
      obtain ⟨_, b, c, _⟩ := hwf.2.2.2.2 x hx
      exact allocate_node_outside _ _ _ x (by omega) (by omega) (by omega) (by omega)
    refine ⟨wellFormed_frame s _ l hwf rfl rfl rfl ?_ ?_ (fun x hx => (hfr x hx).1)
      (fun x hx => (hfr x hx).2), ?_⟩
    · show s.heap_end ≤ wordOff (sbrk T) (T / 4)
      unfold wordOff; omega
    · show wordOff (sbrk T) (T / 4) < PTR
      unfold wordOff; omega
    · intro x hx
      obtain ⟨_, b, c, _⟩ := hwf.2.2.2.2 x hx
      exact ⟨by show x + 4 ≠ sbrk T + 4; omega, (hfr x hx).1⟩
  · rw [if_neg hf]
    refine ⟨hwf, fun x hx => ⟨?_, rfl⟩⟩
    show x + 4 ≠ 0
    omega

/-! ## The bytes `mymalloc` writes -/

theorem removeList_outside (s : Heap) (B P x : Nat) (h : x < P ∨ P + 16 ≤ x) :
    (removeList s B P).mem x = s.mem x := by
  unfold removeList
  split_ifs
  · rfl
  · exact writePtr_outside _ _ _ _ (by omega)

theorem allocate_outside (m : Mem) (B sz x : Nat) (h4 : sz % 4 = 0) (hsz : 4 ≤ sz)
    (hB : B + sz < PTR) (h : x < B ∨ B + sz ≤ x) : allocate m sz B x = m x := by
  unfold allocate
  rw [wordOffBack_footer B sz h4 hsz hB, writeU32_outside _ _ _ _ (by omega),
    writeU32_outside _ _ _ _ (by omega)]

/-- Lines 142-159 of `mymalloc` write only inside `[B, B + T + 16)`, the block
handed out and the `Node` of the remainder, and inside the `Node` of `P`. -/
theorem takeBlock_outside (s : Heap) (T B P x : Nat) (hT : 16 ≤ T ∧ T % 8 = 0 ∧ T < U32)
    (hB4 : nodeSize s.mem B % 8 = 0) (hBP : B + nodeSize s.mem B < PTR)
    (hgt : T < nodeSize s.mem B) (hPB : P = B ∨ P + 16 ≤ B)
    (hxB : x < B ∨ B + T + 16 ≤ x) (hxP : x < P ∨ P + 16 ≤ x) :
    (takeBlock s T B P).heap.mem x = s.mem x := by
  have hlt : nodeSize s.mem B < U32 := readU32_lt _ _
  have e1 : (nodeSize s.mem B + U32 - T) % U32 = nodeSize s.mem B - T := by
    unfold U32 at hlt ⊢; omega
  have e2 : wordOff B (T / 4) = B + T := by unfold wordOff; omega
  unfold takeBlock
  by_cases hw : nodeSize s.mem B = T ∨ (nodeSize s.mem B + U32 - T) % U32 < MIN_SIZE
  · rw [if_pos hw]
    rw [e1] at hw
    unfold MIN_SIZE at hw
    show allocate (removeList s B P).mem (nodeSize (removeList s B P).mem B) B x = s.mem x
    have e4 : nodeSize (removeList s B P).mem B = nodeSize s.mem B := by
      unfold removeList
      split_ifs
      · rfl
      · unfold nodeSize
        exact readU32_writePtr_disj _ _ _ _ (by omega)
    rw [e4, allocate_outside _ _ _ _ (by omega) (by omega) hBP (by omega),
      removeList_outside s B P x hxP]
  · rw [if_neg hw]
    simp only [e1, e2]
    rw [allocate_outside _ _ _ _ (by omega) (by omega) (by omega) (by omega),
      insertList_outside _ _ _ _ _ (by unfold NodeHead; omega) (by unfold NodeHead; omega),
      removeList_outside s B P x hxP]

theorem growHeap_outside (sbrk : Nat → Nat) (s : Heap) (T x : Nat)
    (hT : 16 ≤ T ∧ T % 8 = 0 ∧ T < U32)
    (hext : sbrk T = SBRK_FAILED ∨ sbrk T + U32 < PTR)
    (hx : x + 4 < (growHeap sbrk s T).ptr ∨ (growHeap sbrk s T).ptr - 4 + T ≤ x) :
    (growHeap sbrk s T).heap.mem x = s.mem x := by
  unfold growHeap at hx ⊢
  simp only [] at hx ⊢
  by_cases hf : sbrk T ≠ SBRK_FAILED
  · rw [if_pos hf] at hx ⊢
    have hx2 : sbrk T + U32 < PTR := by
      rcases hext with h | h
      · exact absurd h hf
      · exact h
    have hx3 : x + 4 < sbrk T + 4 ∨ sbrk T + 4 - 4 + T ≤ x := hx
    exact allocate_outside _ _ _ _ (by omega) (by omega) (by omega) (by omega)
  · rw [if_neg hf]

/-- The predecessor found by the search loop is the selected block itself or
lies at least 16 bytes below it. -/
theorem isPrev_below (s : Heap) (l : List Nat) (B P : Nat) (hwf : WellFormed s l)
    (hprev : IsPrev l B P) : P = B ∨ P + 16 ≤ B := by
  rcases hprev with ⟨h, _⟩ | ⟨l1, l2, hl⟩
  · exact Or.inl h
  · subst hl
    obtain ⟨_, _, _, hasc, hblk⟩ := hwf
    have hpw := ascending_pairwise s.mem _ hasc
    have h1 := (List.pairwise_cons.1 (List.pairwise_append.1 hpw).2.1).1 B
      (List.mem_cons_self _ _)
    have h2 := (hblk P (by simp)).2.2.1
    unfold Apart at h1
    right; omega

/-- Every call of `mymalloc` for a request that does not overflow keeps the free
list well-formed: each block of the new list is an old block with its old size
word, or the remainder of the split of the block handed out; the call writes
only from the start of the block handed out to the end of the `Node` of the
remainder, and inside the `Node` of one other block. -/
theorem mymalloc_wellFormed (fuel : Nat) (sbrk : Nat → Nat) (s : Heap) (l : List Nat)
    (S : Nat) (hwf : WellFormed s l) (hS : 1 ≤ S) (hS2 : S + 8 ≤ U32 - 8)
    (hext : sbrk (totalSize S) = SBRK_FAILED
      ∨ (s.heap_end ≤ sbrk (totalSize S) ∧ sbrk (totalSize S) + U32 < PTR))
    (hsmall : s.heap_end < s.heap_start + U32) (hfuel : l.length < fuel) :
    ∃ r l1 p, mymalloc fuel sbrk s S = some r ∧ WellFormed r.heap l1 ∧
      (∀ x ∈ l1,
        (x ∈ l ∧ x + 4 ≠ r.ptr ∧ nodeSize r.heap.mem x = nodeSize s.mem x)
        ∨ (r.ptr - 4 ∈ l ∧ x = r.ptr - 4 + totalSize S
          ∧ x + nodeSize r.heap.mem x = r.ptr - 4 + nodeSize s.mem (r.ptr - 4))) ∧
      (∀ x, x + 4 < r.ptr ∨ r.ptr - 4 + totalSize S + 16 ≤ x → x < p ∨ p + 16 ≤ x →
        r.heap.mem x = s.mem x) := by
  obtain ⟨t1, t2, t3, t4⟩ := totalSize_bounds S hS2
  have hinit := hwf.1
  unfold mymalloc
  rw [if_neg hinit]
  simp only [if_neg (show ¬ S = 0 by omega)]
  unfold mallocReady
  have hgrow : ∃ r l1 p, some (growHeap sbrk s (totalSize S)) = some r ∧ WellFormed r.heap l1 ∧
      (∀ x ∈ l1,
        (x ∈ l ∧ x + 4 ≠ r.ptr ∧ nodeSize r.heap.mem x = nodeSize s.mem x)
        ∨ (r.ptr - 4 ∈ l ∧ x = r.ptr - 4 + totalSize S
          ∧ x + nodeSize r.heap.mem x = r.ptr - 4 + nodeSize s.mem (r.ptr - 4))) ∧
      (∀ x, x + 4 < r.ptr ∨ r.ptr - 4 + totalSize S + 16 ≤ x → x < p ∨ p + 16 ≤ x →
        r.heap.mem x = s.mem x) := by
    obtain ⟨g1, g2⟩ := growHeap_wellFormed sbrk s l _ hwf ⟨t1, t2, t4⟩ hext
    refine ⟨_, l, 0, rfl, g1, fun x hx => Or.inl ⟨hx, (g2 x hx).1, (g2 x hx).2⟩, ?_⟩
    intro x hx _
    exact growHeap_outside sbrk s _ x ⟨t1, t2, t4⟩
      (by rcases hext with h | h; exact Or.inl h; exact Or.inr h.2)
      (by rcases hx with h | h; exact Or.inl h; right; omega)
  by_cases hls : s.list_start ≠ 0
  · simp only [if_pos hls]
    obtain ⟨bp, hsc⟩ := scanFit_terminates s.mem (totalSize S) l fuel s.list_start
      s.list_start 0 0 hwf.2.2.1 hfuel
    obtain ⟨B, P⟩ := bp
    rw [hsc]
    simp only []
    by_cases hB : B ≠ 0
    · rw [if_pos hB]
      obtain ⟨hBl, hprev, hgt⟩ := scanFit_selected s.mem _ fuel _ B P l hwf.2.2.1 hsc hB
      obtain ⟨l1, k1, k2⟩ :=
        takeBlock_wellFormed s l _ B P hwf ⟨t1, t2, t4⟩ hBl hprev hgt hsmall
      obtain ⟨_, hB2, _, hB4⟩ := hwf.2.2.2.2 B hBl
      have hend := hwf.2.1
      refine ⟨_, l1, P, rfl, k1, ?_, ?_⟩
      · intro x hx
        rw [takeBlock_ptr, Nat.add_sub_cancel]
        rcases k2 x hx with ⟨a1, a2, a3⟩ | ⟨a1, a2⟩
        · exact Or.inl ⟨a1, by omega, a3⟩
        · exact Or.inr ⟨hBl, a1, a2⟩
      · intro x hx hxP
        rw [takeBlock_ptr, Nat.add_sub_cancel] at hx
        exact takeBlock_outside s _ B P x ⟨t1, t2, t4⟩ hB4 (by omega) hgt
          (isPrev_below s l B P hwf hprev) (by omega) hxP
    · rw [if_neg hB]; exact hgrow
  · simp only [if_neg hls]; exact hgrow

/-! ## The size words of the free list -/

/-- C18, amended: a free block carries a consistent leading size word, and no
trailing word is kept for it. In a well-formed state whose managed region is
shorter than `2 ^ 32` bytes both operations leave a well-formed free list, in
which every block has a leading size word that is a multiple of 8, at least 16,
and bounds a range inside the managed region that ends strictly below the next
block. (1) `myfree` of an allocated block `b` returns 0; one block `c` of the
new list contains `b`: it starts at `b` or is the old free block ending at `b`,
and its size word reaches the end of `b` or the end of the old free block that
started there; every other block is an old block with its old size word; the
call writes only inside the first 16 bytes of `b` and of one other block.
(2) `mymalloc (S)` with `S + 8 ≤ 2 ^ 32 - 8` and an extender that fails or
returns a block at or above `heap_end` returns; every block of the new list is
an old block other than the one handed out, with its old size word, or the
remainder of a split, which starts `total_size` bytes into the block handed out
and whose size word reaches the end of that block; the call writes only from
the start of the block handed out to the end of the `Node` of the remainder,
and inside the `Node` of one other block. (3) Neither operation stores a size
into the last word of a free block: that word changes only when it falls into
one of the ranges above, and in a block of 16 bytes it is the upper half of the
`next` link. -/
theorem free_blocks_carry_leading_word_only (fuel : Nat) (sbrk : Nat → Nat) (s : Heap)
    (l : List Nat) (hwf : WellFormed s l) (hsmall : s.heap_end < s.heap_start + U32)
    (hfuel : l.length < fuel) :
    (∀ b, Allocated s l b →
      ∃ s1 l1 c p, myfree fuel s (b + 4) = some (s1, 0) ∧ WellFormed s1 l1 ∧ c ∈ l1 ∧
        (c = b ∨ (c ∈ l ∧ c + nodeSize s.mem c = b)) ∧
        (c + nodeSize s1.mem c = b + nodeSize s.mem b
          ∨ (b + nodeSize s.mem b ∈ l ∧ c + nodeSize s1.mem c
              = b + nodeSize s.mem b + nodeSize s.mem (b + nodeSize s.mem b))) ∧
        (∀ x ∈ l1, x ≠ c → x ∈ l ∧ nodeSize s1.mem x = nodeSize s.mem x) ∧
        (∀ x, x < b ∨ b + 16 ≤ x → x < p ∨ p + 16 ≤ x → s1.mem x = s.mem x)) ∧
    (∀ S, 1 ≤ S → S + 8 ≤ U32 - 8 →
      (sbrk (totalSize S) = SBRK_FAILED
        ∨ (s.heap_end ≤ sbrk (totalSize S) ∧ sbrk (totalSize S) + U32 < PTR)) →
      ∃ r l1 p, mymalloc fuel sbrk s S = some r ∧ WellFormed r.heap l1 ∧
        (∀ x ∈ l1,
          (x ∈ l ∧ x + 4 ≠ r.ptr ∧ nodeSize r.heap.mem x = nodeSize s.mem x)
          ∨ (r.ptr - 4 ∈ l ∧ x = r.ptr - 4 + totalSize S
            ∧ x + nodeSize r.heap.mem x = r.ptr - 4 + nodeSize s.mem (r.ptr - 4))) ∧
        (∀ x, x + 4 < r.ptr ∨ r.ptr - 4 + totalSize S + 16 ≤ x → x < p ∨ p + 16 ≤ x →
          r.heap.mem x = s.mem x)) ∧
    (∀ (m : Mem) (x : Nat), nodeSize m x = 16 →
      readU32 m (x + nodeSize m x - 4) = nodeNext m x / U32) := by
  refine ⟨fun b hal => myfree_wellFormed fuel s l b hwf hal hsmall hfuel,
    fun S hS hS2 hext => mymalloc_wellFormed fuel sbrk s l S hwf hS hS2 hext hsmall hfuel, ?_⟩
  intro m x hx
  rw [hx]
  exact last_word_of_min_block m x

/-- The witness of `free_blocks_carry_leading_word_only`: the state with two free
blocks of 32 bytes at 4096 and 4144; the allocated block at 4176 is freed, and a
request of 8 bytes is made with the break at 4192. -/
theorem free_blocks_carry_leading_word_only_witness :
    WellFormed tieHeap [4096, 4144] ∧ Allocated tieHeap [4096, 4144] 4176 ∧
    (∃ s1 l1, myfree 3 tieHeap (4176 + 4) = some (s1, 0) ∧ WellFormed s1 l1) ∧
    (∃ r l1, mymalloc 3 (fun _ => 4192) tieHeap 8 = some r ∧ WellFormed r.heap l1) ∧
    readU32 tieHeap.mem (4176 + 16 - 4) = nodeNext tieHeap.mem 4176 / U32 := by
  have h := free_blocks_carry_leading_word_only 3 (fun _ => 4192) tieHeap [4096, 4144]
    (by decide) (by decide) (by decide)
  refine ⟨by decide, by decide, ?_, ?_, ?_⟩
  · obtain ⟨s1, l1, _, _, h1, h2, _⟩ := h.1 4176 (by decide)
    exact ⟨s1, l1, h1, h2⟩
  · obtain ⟨r, l1, _, h1, h2, _⟩ := h.2.1 8 (by decide) (by decide) (Or.inr (by decide))
    exact ⟨r, l1, h1, h2⟩
  · exact h.2.2 tieHeap.mem 4176 (by decide)

/-! ## Which calls release the mutex too early -/

theorem growEvents_disciplined (sbrk : Nat → Nat) (T : Nat) (pre : List Ev)
    (hpre : pre = [.lock, .access 112, .access 124]
      ∨ pre = [.lock, .access 112, .access 113, .access 124]
      ∨ pre = [.lock, .access 112, .access 124, .access 131]
      ∨ pre = [.lock, .access 112, .access 113, .access 124, .access 131]) :
    disciplined (pre ++ growEvents sbrk T) = true := by
  unfold growEvents
  rcases hpre with h | h | h | h <;> subst h <;> split_ifs <;> decide

/-- Support for C20: every call of `myfree` keeps the discipline. -/
theorem myfree_disciplined (fuel : Nat) (s : Heap) (ptr : Nat) (es : List Ev)
    (he : myfreeEvents fuel s ptr = some es) : disciplined es = true := by
  unfold myfreeEvents at he
  simp only [] at he
  split_ifs at he
  · cases he; decide
  · cases he; decide
  · cases he; decide
  · cases hf : findPrev s.mem ptr fuel s.list_start with
    | none => rw [hf] at he; cases he
    | some c => rw [hf] at he; cases he; decide

/-- Support for C20: a call of `mymalloc` breaks the discipline exactly when it
hands out a block of the free list, that is, when it returns a block without
asking the heap extender. -/
theorem mymalloc_discipline (fuel : Nat) (sbrk : Nat → Nat) (s : Heap) (size : Nat)
    (es : List Ev) (r : MallocOut) (he : mymallocEvents fuel sbrk s size = some es)
    (hr : mymalloc fuel sbrk s size = some r) :
    disciplined es = false ↔ (r.ptr ≠ 0 ∧ r.grown = none) := by
  unfold mymallocEvents at he
  unfold mymalloc mallocReady at hr
  simp only [] at he hr
  have hentry : ∀ tl : List Ev,
      ([Ev.lock, Ev.access 112] ++ (if s.initialized = 0 then [Ev.access 113] else [])) ++ tl
        = [Ev.lock, Ev.access 112] ++ tl
      ∨ ([Ev.lock, Ev.access 112] ++ (if s.initialized = 0 then [Ev.access 113] else [])) ++ tl
        = [Ev.lock, Ev.access 112, Ev.access 113] ++ tl := by
    intro tl
    by_cases hi : s.initialized = 0
    · right; rw [if_pos hi]; rfl
    · left; rw [if_neg hi]; rfl
  have hgrow : ∀ (pre : List Ev) (st : Heap), some (pre ++ growEvents sbrk (totalSize size)) = some es →
      some (growHeap sbrk st (totalSize size)) = some r →
      (pre = [.lock, .access 112, .access 124]
        ∨ pre = [.lock, .access 112, .access 113, .access 124]
        ∨ pre = [.lock, .access 112, .access 124, .access 131]
        ∨ pre = [.lock, .access 112, .access 113, .access 124, .access 131]) →
      (disciplined es = false ↔ (r.ptr ≠ 0 ∧ r.grown = none)) := by
    intro pre st h1 h2 hpre
    cases h1; cases h2
    rw [growEvents_disciplined sbrk _ pre hpre, growHeap_grown]
    simp
  by_cases h0 : size = 0
  · rw [if_pos h0] at he hr
    cases he; cases hr
    have : disciplined ([Ev.lock, Ev.access 112]
        ++ (if s.initialized = 0 then [Ev.access 113] else []) ++ [Ev.unlock]) = true := by
      rcases hentry [Ev.unlock] with h | h <;> rw [h] <;> decide
    rw [this]
    simp
  · rw [if_neg h0] at he hr
    split_ifs at he hr with hi hls hls
    all_goals first
      | (cases hsc : scanFit (initHeap sbrk s).mem (totalSize size) fuel
            (initHeap sbrk s).list_start (initHeap sbrk s).list_start 0 0 with
          | none => rw [hsc] at he; cases he
          | some bp =>
            obtain ⟨B, P⟩ := bp
            rw [hsc] at he hr
            simp only [] at he hr
            split_ifs at he hr
            · cases he; cases hr
              rw [takeBlock_ptr, takeBlock_grown]
              exact ⟨fun _ => ⟨by omega, rfl⟩, fun _ => by decide⟩
            · cases he; cases hr
              rw [takeBlock_ptr, takeBlock_grown]
              exact ⟨fun _ => ⟨by omega, rfl⟩, fun _ => by decide⟩
            · exact hgrow _ _ he hr (by simp))
      | (cases hsc : scanFit s.mem (totalSize size) fuel s.list_start s.list_start 0 0 with
          | none => rw [hsc] at he; cases he
          | some bp =>
            obtain ⟨B, P⟩ := bp
            rw [hsc] at he hr
            simp only [] at he hr
            split_ifs at he hr
            · cases he; cases hr
              rw [takeBlock_ptr, takeBlock_grown]
              exact ⟨fun _ => ⟨by omega, rfl⟩, fun _ => by decide⟩
            · cases he; cases hr
              rw [takeBlock_ptr, takeBlock_grown]
              exact ⟨fun _ => ⟨by omega, rfl⟩, fun _ => by decide⟩
            · exact hgrow _ _ he hr (by simp))
      | exact hgrow _ _ he hr (by simp)

/-- The witness of `myfree_disciplined`: the allocated block at 4176 of the state
with two free blocks of 32 bytes is freed. -/
theorem myfree_disciplined_witness :
    disciplined [.lock, .access 188, .access 194, .access 197, .access 202, .access 209,
      .access 211, .unlock] = true :=
  myfree_disciplined 3 tieHeap 4180 _ (by decide)

/-- The witness of `mymalloc_discipline`: a request of 8 bytes in the state with
two free blocks of 32 bytes splits the first of them. -/
theorem mymalloc_discipline_witness :
    disciplined [.lock, .access 112, .access 124, .access 131, .access 145, .access 154,
        .access 155, .access 156, .unlock, .access 158] = false
      ↔ ((takeBlock tieHeap (totalSize 8) 4096 4096).ptr ≠ 0
        ∧ (takeBlock tieHeap (totalSize 8) 4096 4096).grown = none) :=
  mymalloc_discipline 3 (fun _ => 4192) tieHeap 8 _ _ (by decide)
    (mymalloc_of_selected 3 (fun _ => 4192) tieHeap 8 4096 4096
      (by decide) (by decide) (by decide) (by decide) (by decide))

end MyMalloc
